import Mathlib

/-!
# Burgeray: order form (Model / View / Controller)

A shallow embedding of `scripts/data/menuData.js`, `scripts/modules/Model.js`,
`scripts/modules/View.js` and `scripts/modules/Controller.js`, together with the
parts of the JavaScript platform these files call (strings, regular expressions,
IEEE doubles, `JSON`, web storage), followed by theorems about the embedding.

Conventions
* A JavaScript string is the list of its UTF-16 code units (`JSString`).
* A thrown exception is `Except.error`; a normal return is `Except.ok`.
* The DOM is reduced to what the code reads and writes: the `value` of the three
  inputs, their `is-valid` / `is-invalid` class, the two storage keys and
  `window.location.href`.
-/

namespace Burgeray

/-! ## Strings -/

/-- A JavaScript string: the sequence of its UTF-16 code units, each a natural
number below `65536`. -/
abbrev JSString := List Nat

/-- The JavaScript string written as the given source text (code points below
`0x10000` are one code unit each, others a surrogate pair). -/
def js (s : String) : JSString :=
  s.toList.flatMap fun c =>
    if c.toNat < 65536 then [c.toNat]
    else [55296 + (c.toNat - 65536) / 1024, 56320 + (c.toNat - 65536) % 1024]

/-! ## Regular expressions

The patterns of `View.js` are sequences of quantified character classes, with an
optional `^` in front and `$` behind; none has a flag other than `g`. -/

/-- The character classes used by the patterns of `View.js`. -/
inductive CharClass where
  /-- `\d` -/
  | digit
  /-- `\D` -/
  | nonDigit
  /-- `[A-Za-z\s]` -/
  | letterOrSpace
  /-- `.` (no `s` flag) -/
  | dot
  /-- a literal character -/
  | char (c : Nat)
  deriving DecidableEq, Repr

/-- `\d`: the ASCII digits. -/
def isDigit (c : Nat) : Bool := decide (48 ≤ c) && decide (c ≤ 57)

/-- `[A-Za-z]`. -/
def isLetter (c : Nat) : Bool :=
  (decide (65 ≤ c) && decide (c ≤ 90)) || (decide (97 ≤ c) && decide (c ≤ 122))

/-- `\s`: ECMAScript WhiteSpace and LineTerminator code points. -/
def isWhiteSpace (c : Nat) : Bool :=
  c == 9 || c == 10 || c == 11 || c == 12 || c == 13 || c == 32 || c == 160 ||
  c == 5760 || (decide (8192 ≤ c) && decide (c ≤ 8202)) || c == 8232 || c == 8233 ||
  c == 8239 || c == 8287 || c == 12288 || c == 65279

/-- LineTerminator: the characters `.` does not match. -/
def isLineTerminator (c : Nat) : Bool :=
  c == 10 || c == 13 || c == 8232 || c == 8233

/-- Whether a code unit belongs to a class. -/
def CharClass.test : CharClass → Nat → Bool
  | .digit, c => isDigit c
  | .nonDigit, c => !isDigit c
  | .letterOrSpace, c => isLetter c || isWhiteSpace c
  | .dot, c => !isLineTerminator c
  | .char d, c => c == d

/-- A character class with a greedy quantifier `{min,max}` (`max = none`: unbounded). -/
structure Atom where
  cls : CharClass
  min : Nat
  max : Option Nat
  deriving DecidableEq, Repr

/-- A pattern: `^`?, a sequence of quantified classes, `$`?. -/
structure Regex where
  anchorStart : Bool
  atoms : List Atom
  anchorEnd : Bool
  deriving DecidableEq, Repr

/-- Length of the longest prefix of `s` inside the class, at most `cap` when given. -/
def greedyCount (cls : CharClass) : Option Nat → JSString → Nat
  | _, [] => 0
  | some 0, _ => 0
  | some (n + 1), c :: s => if cls.test c then greedyCount cls (some n) s + 1 else 0
  | none, c :: s => if cls.test c then greedyCount cls none s + 1 else 0

/-- Backtracking: try the continuation with `k`, `k - 1`, ..., down to `min`
characters given to the current atom; the first success wins. -/
def backtrack {α : Type} (f : Nat → Option α) (min : Nat) : Nat → Option α
  | 0 => if min = 0 then f 0 else none
  | k + 1 =>
    if k + 1 < min then none
    else match f (k + 1) with
      | some r => some r
      | none => backtrack f min k

/-- Match the atoms at the start of `s`; the result is what each atom matched. -/
def matchAtoms (anchorEnd : Bool) : List Atom → JSString → Option (List JSString)
  | [], s => if anchorEnd && !s.isEmpty then none else some []
  | a :: rest, s =>
    backtrack
      (fun k => (matchAtoms anchorEnd rest (s.drop k)).map fun caps => s.take k :: caps)
      a.min (greedyCount a.cls a.max s)

/-- Leftmost match: the first start position at which the atoms match. -/
def searchAtoms (anchorEnd : Bool) (atoms : List Atom) : JSString → Option (List JSString)
  | [] => matchAtoms anchorEnd atoms []
  | c :: s =>
    match matchAtoms anchorEnd atoms (c :: s) with
    | some caps => some caps
    | none => searchAtoms anchorEnd atoms s

/-- `RegExp.prototype.exec` without the `g` flag: what each atom matched in the
leftmost match, or `none` (JavaScript `null`). -/
def Regex.exec (r : Regex) (s : JSString) : Option (List JSString) :=
  if r.anchorStart then matchAtoms r.anchorEnd r.atoms s
  else searchAtoms r.anchorEnd r.atoms s

/-- `RegExp.prototype.test`. -/
def Regex.test (r : Regex) (s : JSString) : Bool := (r.exec s).isSome

/-- `s.replace(/C/g, '')` for a single character class `C`: every code unit of
the class is removed. -/
def removeAll (cls : CharClass) (s : JSString) : JSString :=
  s.filter fun c => !cls.test c

/-- An atom matching exactly one given character. -/
def Atom.one (c : Char) : Atom := ⟨.char c.toNat, 1, some 1⟩

/-- Exceptions thrown by the embedded code. `notModelled` is not an exception: it
marks the two places where the embedding stops (giving an array a named
property, replacing the prototype of an object). -/
inductive JSError where
  | typeError
  | syntaxError
  | rangeError
  | notModelled
  deriving DecidableEq, Repr

deriving instance DecidableEq for Except

/-! ## View.js: phone formatting and validation patterns -/

/-- `/(\d{0,3})(\d{0,3})(\d{0,4})/`: each atom is one capture group. -/
def phoneGroups : Regex :=
  ⟨false, [⟨.digit, 0, some 3⟩, ⟨.digit, 0, some 3⟩, ⟨.digit, 0, some 4⟩], false⟩

/-- `/^[A-Za-z\s]{2,}$/` -/
def namePattern : Regex := ⟨true, [⟨.letterOrSpace, 2, none⟩], true⟩

/-- `/^\(\d{3}\) \d{3}-\d{4}$/` -/
def phonePattern : Regex :=
  ⟨true, [Atom.one '(', ⟨.digit, 3, some 3⟩, Atom.one ')', Atom.one ' ',
          ⟨.digit, 3, some 3⟩, Atom.one '-', ⟨.digit, 4, some 4⟩], true⟩

/-- `/^.{10,}$/` -/
def addressPattern : Regex := ⟨true, [⟨.dot, 10, none⟩], true⟩

/-- The conditional expression of `View.formatPhoneNumber`, on the three capture
groups `value[1]`, `value[2]`, `value[3]`. -/
def phoneText (g1 g2 g3 : JSString) : JSString :=
  if g2.isEmpty then g1
  else if g3.isEmpty then js "(" ++ g1 ++ js ") " ++ g2
  else js "(" ++ g1 ++ js ") " ++ g2 ++ js "-" ++ g3

/-- `View.formatPhoneNumber(input)`: the new `input.value`, from the old one.
Reading an index of `null` throws a `TypeError`. -/
def formatPhoneNumber (inputValue : JSString) : Except JSError JSString :=
  let value := removeAll .nonDigit inputValue
  if value.length > 0 then
    match phoneGroups.exec value with
    | some [g1, g2, g3] => .ok (phoneText g1 g2 g3)
    | _ => .error .typeError
  else .ok inputValue

/-! ## Numbers

A finite double is an integer multiple of `2^-1074`; `F64.fin neg m` is the
double `± m · 2^-1074`. -/

/-- An IEEE 754 binary64 value. -/
inductive F64 where
  | nan
  | inf (neg : Bool)
  | fin (neg : Bool) (m : Nat)
  deriving DecidableEq, Repr

/-- The integer nearest to `a / b`, ties to even. -/
def roundNearestEven (a b : Nat) : Nat :=
  let q := a / b
  let r := a % b
  if 2 * r > b ∨ (2 * r = b ∧ q % 2 = 1) then q + 1 else q

/-- Floor of the binary logarithm of `n < 2^(2^k)`, by binary descent: the bit
`2^j` of the result is set when what is left of `n` reaches `2^(2^j)`. -/
def log2Desc : Nat → Nat → Nat
  | 0, _ => 0
  | k + 1, n => if 2 ^ 2 ^ k ≤ n then 2 ^ k + log2Desc k (n / 2 ^ 2 ^ k) else log2Desc k n

/-- The first `j` from `k` on with `n < 2^(2^j)` (fuel: one per step). -/
def log2Span : Nat → Nat → Nat → Nat
  | 0, _, k => k
  | fuel + 1, n, k => if n < 2 ^ 2 ^ k then k else log2Span fuel n (k + 1)

/-- Floor of the binary logarithm of `n` (`0` for `n = 0`). -/
def log2 (n : Nat) : Nat := log2Desc (log2Span n n 0) n

/-- The magnitude, in units of `2^-1074`, of the double nearest to `a / b` units
(round to nearest, ties to even, 53 significant bits). -/
def roundUnits (a b : Nat) : Nat :=
  let q := a / b
  let s := if q < 2 ^ 53 then 0 else log2 q - 52
  roundNearestEven a (b * 2 ^ s) * 2 ^ s

/-- The first magnitude that is no longer finite: `2^1024`, in units. -/
def overflowUnits : Nat := 2 ^ 2098

/-- The double nearest to `± a / b` units. -/
def F64.ofUnits (neg : Bool) (a b : Nat) : F64 :=
  let m := roundUnits a b
  if m < overflowUnits then .fin neg m else .inf neg

/-- The unit `2^1074`: the double `1` is `unit` units. -/
def unit : Nat := 2 ^ 1074

/-- The double nearest to the rational `± num / den`. -/
def F64.ofRat (neg : Bool) (num den : Nat) : F64 :=
  F64.ofUnits neg (num * unit) den

/-- The double of a natural number. -/
def F64.ofNat (n : Nat) : F64 := F64.ofRat false n 1

/-- A decimal literal of the source, `digits · 10^-scale` (`12.99` is `⟨1299, 2⟩`). -/
structure DecLit where
  digits : Nat
  scale : Nat
  deriving DecidableEq, Repr

/-- The Number value of a decimal literal. -/
def DecLit.toF64 (d : DecLit) : F64 := F64.ofRat false d.digits (10 ^ d.scale)

/-- Number addition `x + y`. -/
def F64.add : F64 → F64 → F64
  | .nan, _ => .nan
  | _, .nan => .nan
  | .inf a, .inf b => if a = b then .inf a else .nan
  | .inf a, .fin _ _ => .inf a
  | .fin _ _, .inf b => .inf b
  | .fin a m, .fin b n =>
    if a = b then F64.ofUnits a (m + n) 1
    else if m = n then .fin false 0
    else if n < m then F64.ofUnits a (m - n) 1
    else F64.ofUnits b (n - m) 1

/-- Strict equality `x === y` on Numbers. -/
def F64.strictEq : F64 → F64 → Bool
  | .fin a m, .fin b n => decide (m = n) && (decide (m = 0) || decide (a = b))
  | .inf a, .inf b => decide (a = b)
  | _, _ => false

/-- `ToBoolean` on Numbers: `±0` and `NaN` are falsy. -/
def F64.truthy : F64 → Bool
  | .fin _ m => decide (m ≠ 0)
  | .inf _ => true
  | .nan => false

/-- Digits of `n`, most significant first, in front of `acc` (fuel: one per digit). -/
def digitsAux : Nat → Nat → JSString → JSString
  | 0, _, acc => acc
  | fuel + 1, n, acc =>
    if n < 10 then (48 + n) :: acc
    else digitsAux fuel (n / 10) ((48 + n % 10) :: acc)

/-- The decimal digits of a natural number, most significant first. -/
def decimalDigits (n : Nat) : JSString := digitsAux (n + 1) n []

/-- The digits of `n` left-padded with `0` to at least `len` digits. -/
def padDigits (len n : Nat) : JSString :=
  let ds := decimalDigits n
  List.replicate (len - ds.length) 48 ++ ds

/-- For `0 < m < unit`: the number of zeros after the decimal point of `m / unit`. -/
def leadingZeros : Nat → Nat → Nat → Nat
  | 0, _, j => j
  | fuel + 1, m, j => if unit ≤ m * 10 ^ (j + 1) then j else leadingZeros fuel m (j + 1)

/-- The decimal exponent `n` of `x = m / unit > 0`: `10^(n-1) ≤ x < 10^n`. -/
def decExponent (m : Nat) : Int :=
  if unit ≤ m then ((decimalDigits (m / unit)).length : Int)
  else - (leadingZeros 400 m 0 : Int)

/-- The double denoted by `s · 10^e`. -/
def F64.ofDecimal (s : Nat) (e : Int) : F64 :=
  if 0 ≤ e then F64.ofRat false (s * 10 ^ e.toNat) 1
  else F64.ofRat false s (10 ^ (-e).toNat)

/-- The `k`-digit candidates next to `x = m / unit` for `Number::toString`: the
pair `(s, n)` with `s · 10^(n-k)` the decimal closest to `x` that converts back
to `x`, if there is one. -/
def digitsCandidate (m : Nat) (n0 : Int) (k : Nat) : Option (Nat × Int) :=
  let e := n0 - k
  let a := if 0 ≤ e then m else m * 10 ^ (-e).toNat
  let b := if 0 ≤ e then unit * 10 ^ e.toNat else unit
  let lo := a / b
  let hi := lo + 1
  let okLo := decide (F64.ofDecimal lo e = .fin false m)
  let okHi := decide (F64.ofDecimal hi e = .fin false m)
  let norm := fun (s : Nat) => if s = 10 ^ k then (10 ^ (k - 1), n0 + 1) else (s, n0)
  if okLo && okHi then
    let dLo := a - lo * b
    let dHi := hi * b - a
    if dLo < dHi ∨ (dLo = dHi ∧ lo % 2 = 0) then some (norm lo) else some (norm hi)
  else if okLo then some (norm lo)
  else if okHi then some (norm hi)
  else none

/-- The shortest digits: the first `k = 1, 2, ...` that has a candidate. -/
def shortestDigits (m : Nat) (n0 : Int) : Nat → Nat → Nat × Nat × Int
  | 0, k => (k, m * 10 ^ k / unit, n0)
  | fuel + 1, k =>
    match digitsCandidate m n0 k with
    | some (s, n) => (k, s, n)
    | none => shortestDigits m n0 fuel (k + 1)

/-- `Number::toString(x, 10)` for a finite `x = m / unit > 0`. -/
def positiveToString (m : Nat) : JSString :=
  let (k, s, n) := shortestDigits m (decExponent m) 17 1
  let ds := padDigits k s
  if (k : Int) ≤ n ∧ n ≤ 21 then ds ++ List.replicate (n.toNat - k) 48
  else if 0 < n ∧ n ≤ 21 then ds.take n.toNat ++ js "." ++ ds.drop n.toNat
  else if -6 < n ∧ n ≤ 0 then js "0." ++ List.replicate (-n).toNat 48 ++ ds
  else
    let ex := n - 1
    let exs := (if 0 ≤ ex then js "+" else js "-") ++ decimalDigits ex.natAbs
    if k = 1 then ds ++ js "e" ++ exs
    else ds.take 1 ++ js "." ++ ds.drop 1 ++ js "e" ++ exs

/-- `Number::toString(x, 10)`. -/
def F64.toJSString : F64 → JSString
  | .nan => js "NaN"
  | .inf neg => if neg then js "-Infinity" else js "Infinity"
  | .fin neg m =>
    if m = 0 then js "0"
    else (if neg then js "-" else []) ++ positiveToString m

/-- `Number.prototype.toFixed(fractionDigits)`. -/
def F64.toFixed (x : F64) (f : Nat) : Except JSError JSString :=
  if 100 < f then .error .rangeError
  else match x with
    | .fin neg m =>
      let sign := if neg ∧ m ≠ 0 then js "-" else []
      if 10 ^ 21 * unit ≤ m then .ok (sign ++ positiveToString m)
      else
        let n := (2 * m * 10 ^ f + unit) / (2 * unit)
        let ds := padDigits (f + 1) n
        let body := if f = 0 then ds
          else ds.take (ds.length - f) ++ js "." ++ ds.drop (ds.length - f)
        .ok (sign ++ body)
    | x => .ok x.toJSString

/-- The value of a digit character in radix 10 or 16. -/
def digitValue (radix : Nat) (c : Nat) : Option Nat :=
  if isDigit c then some (c - 48)
  else if radix = 16 ∧ 97 ≤ c ∧ c ≤ 102 then some (c - 87)
  else if radix = 16 ∧ 65 ≤ c ∧ c ≤ 70 then some (c - 55)
  else none

/-- The longest prefix of radix digits: its value (from `acc`) and its length. -/
def readDigits (radix : Nat) : JSString → Nat → Nat → Nat × Nat
  | [], acc, len => (acc, len)
  | c :: s, acc, len =>
    match digitValue radix c with
    | some d => readDigits radix s (acc * radix + d) (len + 1)
    | none => (acc, len)

/-- The global `parseInt(string)` (no radix argument) on a string. -/
def parseInt (string : JSString) : F64 :=
  let s := string.dropWhile isWhiteSpace
  let neg := s.head? == some 45
  let s := if s.head? == some 45 ∨ s.head? == some 43 then s.drop 1 else s
  let hex := s.take 2 == js "0x" || s.take 2 == js "0X"
  let s := if hex then s.drop 2 else s
  let (value, len) := readDigits (if hex then 16 else 10) s 0 0
  if len = 0 then .nan else F64.ofRat neg value 1

/-! ## Values

The values that `JSON.parse` can produce, and `undefined`. An object is the list
of its own properties in insertion order. -/

mutual
/-- A JavaScript value without functions. -/
inductive JSValue where
  | undefined
  | null
  | bool (b : Bool)
  | num (x : F64)
  | str (s : JSString)
  | arr (items : JSList)
  | obj (props : JSProps)
  deriving DecidableEq
/-- The elements of an array. -/
inductive JSList where
  | nil
  | cons (head : JSValue) (tail : JSList)
  deriving DecidableEq
/-- The own properties of an object, in insertion order (keys that are array
indices, which JavaScript enumerates first, are kept where they were inserted). -/
inductive JSProps where
  | nil
  | cons (key : JSString) (value : JSValue) (tail : JSProps)
  deriving DecidableEq
end

/-- `ToBoolean`. -/
def JSValue.truthy : JSValue → Bool
  | .undefined => false
  | .null => false
  | .bool b => b
  | .num x => x.truthy
  | .str s => !s.isEmpty
  | .arr _ => true
  | .obj _ => true

/-- The value of the own property `key`, if there is one. -/
def JSProps.find? : JSProps → JSString → Option JSValue
  | .nil, _ => none
  | .cons k v rest, key => if k = key then some v else rest.find? key

/-- Define or overwrite the own property `key` (a new key goes last). -/
def JSProps.set : JSProps → JSString → JSValue → JSProps
  | .nil, key, v => .cons key v .nil
  | .cons k w rest, key, v =>
    if k = key then .cons k v rest else .cons k w (rest.set key v)

/-- The keys of the own properties. -/
def JSProps.keys : JSProps → List JSString
  | .nil => []
  | .cons k _ rest => k :: rest.keys

/-- Property read `o[key]` for a key that names neither an inherited property nor
an array index or `length` (the keys read by the code are `mainDish`, `sideDish`,
`dessert`, `customerInfo`, `price` and `id`): the own property of an object,
`undefined` on another value, a `TypeError` on `undefined` and `null`. -/
def JSValue.get (o : JSValue) (key : JSString) : Except JSError JSValue :=
  match o with
  | .undefined => .error .typeError
  | .null => .error .typeError
  | .obj props => .ok ((props.find? key).getD .undefined)
  | _ => .ok .undefined

/-! ## JSON -/

/-- A hexadecimal digit, lower case. -/
def hexDigit (d : Nat) : Nat := if d < 10 then 48 + d else 87 + d

/-- The escape `\uXXXX` of a code unit. -/
def unicodeEscape (c : Nat) : JSString :=
  [92, 117, hexDigit (c / 4096 % 16), hexDigit (c / 256 % 16), hexDigit (c / 16 % 16),
    hexDigit (c % 16)]

/-- A leading surrogate. -/
def isHighSurrogate (c : Nat) : Bool := decide (55296 ≤ c) && decide (c ≤ 56319)

/-- A trailing surrogate. -/
def isLowSurrogate (c : Nat) : Bool := decide (56320 ≤ c) && decide (c ≤ 57343)

/-- The text of one code unit that is not part of a surrogate pair: the table
escapes, `\uXXXX` for control characters and unpaired surrogates, every other
character as it is. -/
def escapeUnit (c : Nat) : JSString :=
  if c = 8 then js "\\b"
  else if c = 9 then js "\\t"
  else if c = 10 then js "\\n"
  else if c = 12 then js "\\f"
  else if c = 13 then js "\\r"
  else if c = 34 then js "\\\""
  else if c = 92 then js "\\\\"
  else if c < 32 || isHighSurrogate c || isLowSurrogate c then unicodeEscape c
  else [c]

/-- The body of `QuoteJSONString`: a surrogate pair is copied, every other code
unit is written by `escapeUnit`. -/
def quoteBody : JSString → JSString
  | [] => []
  | [c] => escapeUnit c
  | c :: d :: s =>
    if isHighSurrogate c && isLowSurrogate d then c :: d :: quoteBody s
    else escapeUnit c ++ quoteBody (d :: s)

/-- `QuoteJSONString`. -/
def quoteJSONString (s : JSString) : JSString := 34 :: (quoteBody s ++ [34])

mutual
/-- `SerializeJSONProperty` for a value that is already read: `none` is
`undefined` (the property is left out). -/
def serializeJSON : JSValue → Option JSString
  | .undefined => none
  | .null => some (js "null")
  | .bool b => some (if b then js "true" else js "false")
  | .num x =>
    match x with
    | .fin _ _ => some x.toJSString
    | _ => some (js "null")
  | .str s => some (quoteJSONString s)
  | .arr items => some (91 :: (serializeElements items true ++ [93]))
  | .obj props => some (123 :: (serializeMembers props true ++ [125]))
/-- The elements of `SerializeJSONArray`, comma separated; `undefined` is `null`. -/
def serializeElements : JSList → Bool → JSString
  | .nil, _ => []
  | .cons v rest, first =>
    (if first then [] else [44]) ++ (serializeJSON v).getD (js "null") ++
      serializeElements rest false
/-- The members of `SerializeJSONObject`, comma separated; a property whose
value is `undefined` is left out. -/
def serializeMembers : JSProps → Bool → JSString
  | .nil, _ => []
  | .cons k v rest, first =>
    match serializeJSON v with
    | some t =>
      (if first then [] else [44]) ++ quoteJSONString k ++ [58] ++ t ++
        serializeMembers rest false
    | none => serializeMembers rest first
end

/-- `JSON.stringify(value)`: `none` is the result `undefined`. -/
def JSON.stringify (value : JSValue) : Option JSString := serializeJSON value

/-- JSON white space: tab, line feed, carriage return, space. -/
def isJSONSpace (c : Nat) : Bool := c == 9 || c == 10 || c == 13 || c == 32

/-- Skip JSON white space. -/
def skipSpace (s : JSString) : JSString := s.dropWhile isJSONSpace

/-- The value of a hexadecimal digit, either case. -/
def hexValue (c : Nat) : Option Nat := digitValue 16 c

/-- The characters of a JSON string after its opening quote, up to and including
the closing quote: the string denoted, and the text that follows. -/
def parseStringBody : JSString → Option (JSString × JSString)
  | [] => none
  | c :: t =>
    if c = 34 then some ([], t)
    else if c = 92 then
      match t with
      | [] => none
      | e :: t1 =>
        if e = 117 then
          match t1 with
          | h1 :: h2 :: h3 :: h4 :: t2 =>
            match hexValue h1, hexValue h2, hexValue h3, hexValue h4 with
            | some a, some b, some c, some d =>
              (parseStringBody t2).map fun r => ((a * 4096 + b * 256 + c * 16 + d) :: r.1, r.2)
            | _, _, _, _ => none
          | _ => none
        else
          let unit? : Option Nat :=
            if e = 34 then some 34 else if e = 92 then some 92 else if e = 47 then some 47
            else if e = 98 then some 8 else if e = 102 then some 12 else if e = 110 then some 10
            else if e = 114 then some 13 else if e = 116 then some 9 else none
          match unit? with
          | some u => (parseStringBody t1).map fun r => (u :: r.1, r.2)
          | none => none
    else if c < 32 then none
    else (parseStringBody t).map fun r => (c :: r.1, r.2)

/-- The value of a sequence of decimal digits. -/
def digitsValue (ds : JSString) : Nat := ds.foldl (fun acc c => acc * 10 + (c - 48)) 0

/-- The exponent part of a JSON number, if any: the exponent and the text that
follows; `none` when `e` is not followed by digits. -/
def parseExponent (s : JSString) : Option (Int × JSString) :=
  match s with
  | [] => some (0, [])
  | c :: t =>
    if c = 101 ∨ c = 69 then
      let neg := t.head? == some 45
      let t := if t.head? == some 45 ∨ t.head? == some 43 then t.drop 1 else t
      let ds := t.takeWhile isDigit
      if ds.isEmpty then none
      else some (if neg then - (digitsValue ds : Int) else (digitsValue ds : Int),
                 t.dropWhile isDigit)
    else some (0, s)

/-- The fraction part of a JSON number, if any: its digits and the text that
follows; `none` when `.` is not followed by digits. -/
def parseFraction (s : JSString) : Option (JSString × JSString) :=
  match s with
  | [] => some ([], [])
  | c :: t =>
    if c = 46 then
      let ds := t.takeWhile isDigit
      if ds.isEmpty then none else some (ds, t.dropWhile isDigit)
    else some ([], s)

/-- A JSON number at the start of the text: `-`? (`0` | nonzero digit, digits)
fraction? exponent?; its Number value and the text that follows. -/
def parseNumber (s : JSString) : Option (F64 × JSString) :=
  let neg := s.head? == some 45
  let s := if neg then s.drop 1 else s
  match s with
  | [] => none
  | c :: t =>
    if ¬ isDigit c then none
    else
      let intDigits := if c = 48 then [c] else c :: t.takeWhile isDigit
      let t := if c = 48 then t else t.dropWhile isDigit
      match parseFraction t with
      | none => none
      | some (frac, t) =>
        match parseExponent t with
        | none => none
        | some (ex, t) =>
          let mant := digitsValue (intDigits ++ frac)
          let e := ex - (frac.length : Int)
          some (if 0 ≤ e then F64.ofRat neg (mant * 10 ^ e.toNat) 1
                else F64.ofRat neg mant (10 ^ (-e).toNat), t)

/-- Remove `pre` from the front of `s`, if it is there. -/
def dropPrefix? : JSString → JSString → Option JSString
  | [], s => some s
  | _ :: _, [] => none
  | p :: pre, c :: s => if p = c then dropPrefix? pre s else none

mutual
/-- A JSON value at the start of the text (after white space): the value and the
text that follows. The fuel bounds the number of nested calls. -/
def parseValue : Nat → JSString → Option (JSValue × JSString)
  | 0, _ => none
  | fuel + 1, s =>
    match skipSpace s with
    | [] => none
    | c :: t =>
      if c = 123 then
        match skipSpace t with
        | [] => none
        | d :: t1 =>
          if d = 125 then some (.obj .nil, t1)
          else (parseMembers fuel (d :: t1) .nil).map fun r => (.obj r.1, r.2)
      else if c = 91 then
        match skipSpace t with
        | [] => none
        | d :: t1 =>
          if d = 93 then some (.arr .nil, t1)
          else (parseElements fuel (d :: t1)).map fun r => (.arr r.1, r.2)
      else if c = 34 then (parseStringBody t).map fun r => (.str r.1, r.2)
      else if c = 116 then (dropPrefix? (js "rue") t).map fun r => (.bool true, r)
      else if c = 102 then (dropPrefix? (js "alse") t).map fun r => (.bool false, r)
      else if c = 110 then (dropPrefix? (js "ull") t).map fun r => (.null, r)
      else (parseNumber (c :: t)).map fun r => (.num r.1, r.2)
/-- The members of an object after `{` or `,` up to and including `}`: a later
member with the same key overwrites the earlier value. -/
def parseMembers : Nat → JSString → JSProps → Option (JSProps × JSString)
  | 0, _, _ => none
  | fuel + 1, s, acc =>
    match skipSpace s with
    | [] => none
    | c :: t =>
      if c ≠ 34 then none
      else match parseStringBody t with
        | none => none
        | some (key, t1) =>
          match skipSpace t1 with
          | [] => none
          | colon :: t2 =>
            if colon ≠ 58 then none
            else match parseValue fuel t2 with
              | none => none
              | some (v, t3) =>
                match skipSpace t3 with
                | [] => none
                | d :: t4 =>
                  if d = 44 then parseMembers fuel t4 (acc.set key v)
                  else if d = 125 then some (acc.set key v, t4)
                  else none
/-- The elements of an array after `[` or `,` up to and including `]`. -/
def parseElements : Nat → JSString → Option (JSList × JSString)
  | 0, _ => none
  | fuel + 1, s =>
    match parseValue fuel s with
    | none => none
    | some (v, t) =>
      match skipSpace t with
      | [] => none
      | d :: t1 =>
        if d = 44 then (parseElements fuel t1).map fun r => (.cons v r.1, r.2)
        else if d = 93 then some (.cons v .nil, t1)
        else none
end

/-- `JSON.parse(text)`: the value of the text, a `SyntaxError` when the text is
not one JSON value between optional white space. -/
def JSON.parse (text : JSString) : Except JSError JSValue :=
  match parseValue (text.length + 1) text with
  | some (v, rest) => if (skipSpace rest).isEmpty then .ok v else .error .syntaxError
  | none => .error .syntaxError

/-- Property write `o[key] = v` in strict mode: an own property of an object is
defined or overwritten; `undefined`, `null` and primitives throw a `TypeError`.
The key `__proto__`, when it is not an own property, is the accessor of
`Object.prototype`: its setter ignores a primitive. -/
def JSValue.set (o : JSValue) (key : JSString) (v : JSValue) : Except JSError JSValue :=
  match o with
  | .obj props =>
    if key = js "__proto__" ∧ props.find? key = none then
      match v with
      | .obj _ => .error .notModelled
      | .arr _ => .error .notModelled
      | .null => .error .notModelled
      | _ => .ok (.obj props)
    else .ok (.obj (props.set key v))
  | .arr _ => .error .notModelled
  | _ => .error .typeError

/-! ## data/menuData.js -/

/-- One entry of the menu. -/
structure MenuItem where
  id : Nat
  name : String
  price : DecLit
  image : String
  deriving DecidableEq, Repr

/-- The object literal of a menu entry. -/
def MenuItem.toJS (item : MenuItem) : JSValue :=
  .obj (.cons (js "id") (.num (F64.ofNat item.id))
       (.cons (js "name") (.str (js item.name))
       (.cons (js "price") (.num item.price.toF64)
       (.cons (js "image") (.str (js item.image)) .nil))))

/-- `menuData.mainDish` -/
def mainDishItems : List MenuItem :=
  [ ⟨1, "mcburger", ⟨1299, 2⟩, "./images/main/main1.webp"⟩,
    ⟨2, "mcchicken", ⟨1599, 2⟩, "./images/main/main2.webp"⟩,
    ⟨3, "mccheeseburger", ⟨1399, 2⟩, "./images/main/main3.webp"⟩ ]

/-- `menuData.sideDish` -/
def sideDishItems : List MenuItem :=
  [ ⟨1, "salad", ⟨499, 2⟩, "./images/side/side1.webp"⟩,
    ⟨2, "fries", ⟨599, 2⟩, "./images/side/side2.webp"⟩,
    ⟨3, "mcsalad", ⟨399, 2⟩, "./images/side/side3.webp"⟩ ]

/-- `menuData.dessert` -/
def dessertItems : List MenuItem :=
  [ ⟨1, "Ice Cream coco", ⟨699, 2⟩, "./images/dessert/dessert1.webp"⟩,
    ⟨2, "Ice Cream strawberry", ⟨799, 2⟩, "./images/dessert/dessert2.webp"⟩,
    ⟨3, "Ice Cream caramel", ⟨599, 2⟩, "./images/dessert/dessert3.webp"⟩ ]

/-- The own property `menuData[type]`: `none` when `type` is not one of the
three keys of the literal. -/
def menuData (type : JSString) : Option (List MenuItem) :=
  if type = js "mainDish" then some mainDishItems
  else if type = js "sideDish" then some sideDishItems
  else if type = js "dessert" then some dessertItems
  else none

/-! ## modules/Model.js -/

/-- The Model object together with the `currentOrder` key of `localStorage`
(`none`: the key is absent). -/
structure Model where
  currentOrder : JSValue
  localStorage : Option JSString
  deriving DecidableEq

/-- The customer details that the View passes: `{ name, phone, address }`. -/
structure CustomerInfo where
  name : JSString
  phone : JSString
  address : JSString
  deriving DecidableEq, Repr

/-- The object `{ ...info }`. -/
def CustomerInfo.toJS (info : CustomerInfo) : JSValue :=
  .obj (.cons (js "name") (.str info.name)
       (.cons (js "phone") (.str info.phone)
       (.cons (js "address") (.str info.address) .nil)))

/-- The order literal of the constructor. -/
def defaultOrder : JSValue :=
  .obj (.cons (js "mainDish") .null
       (.cons (js "sideDish") .null
       (.cons (js "dessert") .null
       (.cons (js "customerInfo") (CustomerInfo.toJS ⟨[], [], []⟩) .nil))))

/-- `Model.saveToLocalStorage()`; `setItem` stores the string of its argument, so
the result `undefined` of `JSON.stringify` is stored as `"undefined"`. -/
def Model.saveToLocalStorage (m : Model) : Model :=
  { m with localStorage := some ((JSON.stringify m.currentOrder).getD (js "undefined")) }

/-- `Model.loadFromLocalStorage()` -/
def Model.loadFromLocalStorage (m : Model) : Except JSError Model :=
  match m.localStorage with
  | none => .ok m
  | some savedOrder =>
    if savedOrder.isEmpty then .ok m
    else (JSON.parse savedOrder).map fun order => { m with currentOrder := order }

/-- `new Model()`, over the given content of the `currentOrder` key. -/
def Model.new (localStorage : Option JSString) : Except JSError Model :=
  Model.loadFromLocalStorage ⟨defaultOrder, localStorage⟩

/-- `Model.updateSelection(type, itemId)`; `find` yields `undefined` when no item
matches, and `menuData[type].find` throws a `TypeError` when `type` is not a key
of the menu (the value read is `undefined` or an inherited member without `find`). -/
def Model.updateSelection (m : Model) (type itemId : JSString) : Except JSError Model :=
  match menuData type with
  | none => .error .typeError
  | some items =>
    let item : JSValue :=
      match items.find? fun item => (F64.ofNat item.id).strictEq (parseInt itemId) with
      | some item => item.toJS
      | none => .undefined
    (m.currentOrder.set type item).map fun order =>
      Model.saveToLocalStorage { m with currentOrder := order }

/-- `Model.updateCustomerInfo(info)` -/
def Model.updateCustomerInfo (m : Model) (info : CustomerInfo) : Except JSError Model :=
  (m.currentOrder.set (js "customerInfo") info.toJS).map fun order =>
    Model.saveToLocalStorage { m with currentOrder := order }

/-- `Model.updateCustomerField(field, value)`: the object read from
`currentOrder.customerInfo` is changed in place. -/
def Model.updateCustomerField (m : Model) (field value : JSString) : Except JSError Model :=
  match m.currentOrder.get (js "customerInfo") with
  | .error e => .error e
  | .ok customerInfo =>
    match customerInfo.set field (.str value) with
    | .error e => .error e
    | .ok customerInfo =>
      match m.currentOrder with
      | .obj props =>
        .ok (Model.saveToLocalStorage
          { m with currentOrder := .obj (props.set (js "customerInfo") customerInfo) })
      | _ => .error .typeError

/-- `Model.getCurrentOrder()` -/
def Model.getCurrentOrder (m : Model) : JSValue := m.currentOrder

/-- What the property read `menuData[type]` yields: the array of an own property,
a member inherited from `Object.prototype`, or `undefined`. -/
inductive MenuLookup where
  | items (list : List MenuItem)
  | inherited (key : JSString)
  | undefined
  deriving DecidableEq, Repr

/-- The property names of `Object.prototype`. -/
def objectPrototypeKeys : List JSString :=
  [js "constructor", js "__proto__", js "hasOwnProperty", js "isPrototypeOf",
    js "propertyIsEnumerable", js "toLocaleString", js "toString", js "valueOf",
    js "__defineGetter__", js "__defineSetter__", js "__lookupGetter__",
    js "__lookupSetter__"]

/-- `Model.getMenuItems(type)`: the property read `this.menuData[type]`, which
does not throw. -/
def Model.getMenuItems (_ : Model) (type : JSString) : Except JSError MenuLookup :=
  .ok (match menuData type with
    | some items => .items items
    | none => if type ∈ objectPrototypeKeys then .inherited type else .undefined)

/-- `total += price` for a Number `total`: `ToNumber` of a primitive `price` is
added. A string, array or object makes `total` a string (or throws a `TypeError`
in `ToPrimitive`); `calculateTotal` then ends in the `TypeError` of calling the
missing `toFixed` of a string, which is what is returned here. -/
def addPrice (total : F64) (price : JSValue) : Except JSError F64 :=
  match price with
  | .num x => .ok (total.add x)
  | .undefined => .ok (total.add .nan)
  | .null => .ok (total.add (.fin false 0))
  | .bool b => .ok (total.add (if b then F64.ofNat 1 else .fin false 0))
  | _ => .error .typeError

/-- One round of the `forEach` of `calculateTotal`. -/
def addSlot (order : JSValue) (total : F64) (type : JSString) : Except JSError F64 :=
  match order.get type with
  | .error e => .error e
  | .ok slot =>
    if slot.truthy then
      match slot.get (js "price") with
      | .error e => .error e
      | .ok price => addPrice total price
    else .ok total

/-- `Model.calculateTotal()` -/
def Model.calculateTotal (m : Model) : Except JSError JSString :=
  match addSlot m.currentOrder (.fin false 0) (js "mainDish") with
  | .error e => .error e
  | .ok t1 =>
    match addSlot m.currentOrder t1 (js "sideDish") with
    | .error e => .error e
    | .ok t2 =>
      match addSlot m.currentOrder t2 (js "dessert") with
      | .error e => .error e
      | .ok t3 => t3.toFixed 2

/-! ## modules/View.js and modules/Controller.js -/

/-- The three inputs of the checkout form, by element id. -/
inductive Field where
  | name
  | phone
  | address
  deriving DecidableEq, Repr

/-- The element id, which is also the key in `customerInfo`. -/
def Field.key : Field → JSString
  | .name => js "name"
  | .phone => js "phone"
  | .address => js "address"

/-- The validation classes of an input: `is-valid`, `is-invalid`, or neither. -/
inductive Mark where
  | unmarked
  | isValid
  | isInvalid
  deriving DecidableEq, Repr

/-- What the code reads and writes of an input element: its `value`, its
validation class and the text of the feedback element next to it. -/
structure Input where
  value : JSString
  mark : Mark
  feedback : JSString
  deriving DecidableEq, Repr

/-- The View: the three inputs of the form. -/
structure View where
  nameInput : Input
  phoneInput : Input
  addressInput : Input
  deriving DecidableEq, Repr

/-- The input element of a field. -/
def View.input (v : View) : Field → Input
  | .name => v.nameInput
  | .phone => v.phoneInput
  | .address => v.addressInput

/-- Replace the input element of a field. -/
def View.setInput (v : View) (f : Field) (i : Input) : View :=
  match f with
  | .name => { v with nameInput := i }
  | .phone => { v with phoneInput := i }
  | .address => { v with addressInput := i }

/-- An entry of `inputs` in `View.bindInputValidation`. -/
structure InputConfig where
  pattern : Regex
  format : String
  formatInput : Bool

/-- The table `inputs` of `View.bindInputValidation`. -/
def inputs : Field → InputConfig
  | .name => ⟨namePattern, "Letters only, at least 2 characters", false⟩
  | .phone => ⟨phonePattern, "(XXX) XXX-XXXX", true⟩
  | .address => ⟨addressPattern, "At least 10 characters", false⟩

/-- `View.showValidationFeedback(inputId, isValid, message)` -/
def View.showValidationFeedback (v : View) (inputId : Field) (isValid : Bool)
    (message : JSString) : View :=
  v.setInput inputId
    { v.input inputId with mark := if isValid then .isValid else .isInvalid, feedback := message }

/-- `View.isFormValid()` -/
def View.isFormValid (v : View) : Bool :=
  [v.nameInput, v.phoneInput, v.addressInput].all fun input =>
    !input.value.isEmpty && decide (input.mark = .isValid)

/-- The page: Model and `localStorage`, View, the `confirmedOrder` key of
`sessionStorage` (`none`: absent) and the last value assigned to
`window.location.href` (`none`: no redirect). -/
structure App where
  model : Model
  view : View
  sessionStorage : Option JSString
  location : Option JSString
  deriving DecidableEq

/-- The result of running an event handler: the state it leaves, and the
exception that ended it, if one did. -/
structure Outcome where
  state : App
  thrown : Option JSError
  deriving DecidableEq

/-- `Controller.validateInput(inputId, value, pattern, format)` -/
def validateInput (a : App) (inputId : Field) (value : JSString) (pattern : Regex)
    (format : String) : App :=
  let isValid := pattern.test value
  let message := if isValid then js "Looks good!" else js "Please enter in format: " ++ js format
  { a with view := a.view.showValidationFeedback inputId isValid message }

/-- `Controller.handleInputChange(field, value)` -/
def handleInputChange (a : App) (field : Field) (value : JSString) : Outcome :=
  match a.model.updateCustomerField field.key value with
  | .ok m => ⟨{ a with model := m }, none⟩
  | .error e => ⟨a, some e⟩

/-- The `blur` handler of an input: `input._blurHandler`. -/
def blurHandler (a : App) (inputId : Field) : Outcome :=
  let config := inputs inputId
  let value := (a.view.input inputId).value
  handleInputChange (validateInput a inputId value config.pattern config.format) inputId value

/-- The `input` handler of an input, `input._inputHandler`, run on the element
whose current value is that of the state. -/
def inputHandler (a : App) (inputId : Field) : Outcome :=
  let config := inputs inputId
  let formatted : Except JSError App :=
    if config.formatInput then
      (formatPhoneNumber (a.view.input inputId).value).map fun value =>
        { a with view := a.view.setInput inputId { a.view.input inputId with value := value } }
    else .ok a
  match formatted with
  | .error e => ⟨a, some e⟩
  | .ok a1 =>
    let value := (a1.view.input inputId).value
    handleInputChange (validateInput a1 inputId value config.pattern config.format) inputId value

/-- A field-input event: the edit leaves `rawValue` in the element, then the
`input` handler runs. -/
def inputEvent (a : App) (inputId : Field) (rawValue : JSString) : Outcome :=
  inputHandler
    { a with view := a.view.setInput inputId { a.view.input inputId with value := rawValue } }
    inputId

/-- `View.redirectToConfirmation(order)` -/
def redirectToConfirmation (a : App) (order : JSValue) : App :=
  { a with
    sessionStorage := some ((JSON.stringify order).getD (js "undefined")),
    model := { a.model with localStorage := none },
    location := some (js "confirmation.html") }

/-- `Controller.handleFormSubmit(customerInfo)` -/
def handleFormSubmit (a : App) (customerInfo : CustomerInfo) : Outcome :=
  if a.view.isFormValid then
    match a.model.updateCustomerInfo customerInfo with
    | .error e => ⟨a, some e⟩
    | .ok m =>
      let a1 := { a with model := m }
      let currentOrder := a1.model.getCurrentOrder
      ⟨redirectToConfirmation a1 currentOrder, none⟩
  else ⟨a, none⟩

/-- The `submit` listener of `View.bindFormSubmit`. -/
def submitEvent (a : App) : Outcome :=
  handleFormSubmit a
    ⟨a.view.nameInput.value, a.view.phoneInput.value, a.view.addressInput.value⟩

/-- `Controller.handleSelectChange(type, itemId)`: the selection is stored, then
the summary is recomputed (`updateOrderSummary` calls `calculateTotal`). -/
def handleSelectChange (a : App) (type itemId : JSString) : Outcome :=
  match a.model.updateSelection type itemId with
  | .error e => ⟨a, some e⟩
  | .ok m =>
    match m.calculateTotal with
    | .error e => ⟨{ a with model := m }, some e⟩
    | .ok _ => ⟨{ a with model := m }, none⟩

/-! ## Definitions that follow the specification -/

/-- The digit characters of a string, in order. -/
def digitsOf (s : JSString) : JSString := s.filter isDigit

/-- The part `d[a..b]` of a string: from index `a` up to, not including, `b`. -/
def slice (d : JSString) (a b : Nat) : JSString := (d.take b).drop a

/-- A slot of an order as the specification sees it: empty, or an item. -/
abbrev Slot := Option MenuItem

/-- The order object shows the slot `type` as `slot`: an empty slot is a property
that is absent, `undefined` or `null`; a filled slot holds an item of `items`. -/
def SlotHolds (props : JSProps) (type : JSString) (items : List MenuItem) (slot : Slot) : Prop :=
  match slot with
  | none => props.find? type = none ∨ props.find? type = some .undefined ∨
      props.find? type = some .null
  | some item => item ∈ items ∧ props.find? type = some item.toJS

/-- The price of a slot in cents, from the decimal literal of the menu; an empty
slot costs nothing. -/
def Slot.cents : Slot → Nat
  | none => 0
  | some item => item.price.digits * 100 / 10 ^ item.price.scale

/-- The decimal string with exactly 2 fractional digits of an amount in cents. -/
def decimal2 (cents : Nat) : JSString :=
  decimalDigits (cents / 100) ++ js "." ++ padDigits 2 (cents % 100)

/-- The running total of `calculateTotal` after a slot: the Number sum. -/
def Slot.addTo (total : F64) : Slot → F64
  | none => total
  | some item => total.add item.price.toF64

/-- The main dish with id 2 of the menu. -/
def mcchicken : MenuItem := ⟨2, "mcchicken", ⟨1599, 2⟩, "./images/main/main2.webp"⟩

/-- The side dish with id 1 of the menu. -/
def salad : MenuItem := ⟨1, "salad", ⟨499, 2⟩, "./images/side/side1.webp"⟩

/-- The slots of the end-to-end example of the specification: main dish id 2,
side dish id 1, no dessert. -/
def exampleSlots : JSProps :=
  .cons (js "mainDish") mcchicken.toJS
    (.cons (js "sideDish") salad.toJS (.cons (js "dessert") .null .nil))

/-- An input without validation class and feedback, holding `value`. -/
def Input.fresh (value : JSString) : Input := ⟨value, .unmarked, []⟩

/-- A page right after a reload with a saved order: the inputs are filled from
the saved customer details by `populateCustomerInfo`, and none is validated yet. -/
def reloadedApp : App :=
  ⟨⟨.obj (.cons (js "mainDish") mcchicken.toJS
      (.cons (js "customerInfo")
        (CustomerInfo.toJS ⟨js "Al", js "(555) 123-4567", js "1 Main Street"⟩) .nil)),
    none⟩,
   ⟨Input.fresh (js "Al"), Input.fresh (js "(555) 123-4567"), Input.fresh (js "1 Main Street")⟩,
   none, none⟩

/-- The states of the page that events can produce. On load no input carries a
validation class; afterwards the `input` and `blur` handlers of the three inputs
and the `change` handler of the selects run, whether or not they end in an
exception. -/
inductive Reachable : App → Prop where
  | load (a : App) : (∀ f : Field, (a.view.input f).mark = .unmarked) → Reachable a
  | input (a : App) (f : Field) (rawValue : JSString) :
      Reachable a → Reachable (inputEvent a f rawValue).state
  | blur (a : App) (f : Field) : Reachable a → Reachable (blurHandler a f).state
  | select (a : App) (type itemId : JSString) :
      Reachable a → Reachable (handleSelectChange a type itemId).state

/-- A freshly loaded page without a saved order: the default order, empty
inputs, nothing in either storage. -/
def freshApp : App :=
  ⟨⟨defaultOrder, none⟩, ⟨Input.fresh [], Input.fresh [], Input.fresh []⟩, none, none⟩

/-- A mark `is-valid` stands next to a value that passes the rule of its field. -/
def View.Consistent (v : View) : Prop :=
  ∀ f : Field, (v.input f).mark = .isValid → (inputs f).pattern.test (v.input f).value = true

/-- The page of the end-to-end example right before the submit: main dish 2 and
side dish 1 selected, then the three fields typed in. -/
def filledApp : App :=
  (inputEvent
    (inputEvent
      (inputEvent
        (handleSelectChange
          (handleSelectChange freshApp (js "mainDish") (js "2")).state
          (js "sideDish") (js "1")).state
        .name (js "Al")).state
      .phone (js "5551234567")).state
    .address (js "1 Main Street")).state

/-- The order of `filledApp`: the two selections, no dessert, the typed details. -/
def filledProps : JSProps :=
  .cons (js "mainDish") mcchicken.toJS
    (.cons (js "sideDish") salad.toJS
      (.cons (js "dessert") .null
        (.cons (js "customerInfo")
          (CustomerInfo.toJS ⟨js "Al", js "(555) 123-4567", js "1 Main Street"⟩) .nil)))

/-- The JSON text of the order of `filledApp`. -/
def filledText : JSString :=
  js ("\x7b\"mainDish\":\x7b\"id\":2,\"name\":\"mcchicken\",\"price\":15.99," ++
    "\"image\":\"./images/main/main2.webp\"\x7d," ++
    "\"sideDish\":\x7b\"id\":1,\"name\":\"salad\",\"price\":4.99," ++
    "\"image\":\"./images/side/side1.webp\"\x7d," ++
    "\"dessert\":null," ++
    "\"customerInfo\":\x7b\"name\":\"Al\",\"phone\":\"(555) 123-4567\"," ++
    "\"address\":\"1 Main Street\"\x7d\x7d")

/-- The number of own properties. -/
def JSProps.length : JSProps → Nat
  | .nil => 0
  | .cons _ _ rest => rest.length + 1

/-- Every property value satisfies `P`. -/
def JSProps.All (P : JSValue → Prop) : JSProps → Prop
  | .nil => True
  | .cons _ v rest => P v ∧ rest.All P

/-- No key occurs twice. -/
def JSProps.NoDupKeys : JSProps → Prop
  | .nil => True
  | .cons k _ rest => rest.find? k = none ∧ rest.NoDupKeys

/-- Define the properties of `props`, in order, on top of `acc`: what
`parseMembers` builds from the members of an object text. -/
def JSProps.setAll (acc : JSProps) : JSProps → JSProps
  | .nil => acc
  | .cons k v rest => (acc.set k v).setAll rest

/-- The properties whose value is not `undefined`: those `JSON.stringify` writes. -/
def JSProps.defined : JSProps → JSProps
  | .nil => .nil
  | .cons k v rest => if v = .undefined then rest.defined else .cons k v rest.defined

/-- The value `v` has a JSON text, and `JSON.parse` reads the text back as `v`
in front of `,` or `}` with `n` levels of fuel or more. -/
def Readable (n : Nat) (v : JSValue) : Prop :=
  ∃ text, serializeJSON v = some text ∧
    ∀ (fuel c : Nat) (tail : JSString), c = 44 ∨ c = 125 →
      parseValue (fuel + n) (text ++ c :: tail) = some (v, c :: tail)

/-- The properties of `a` followed by those of `b`. -/
def JSProps.append : JSProps → JSProps → JSProps
  | .nil, b => b
  | .cons k v rest, b => .cons k v (rest.append b)

/-- The text of the Number is read back as the Number. -/
def numReads (x : F64) : Bool :=
  match x with
  | .fin _ _ => decide (parseNumber x.toJSString = some (x, []))
  | _ => false

mutual
/-- Values that `JSON.stringify` writes and `JSON.parse` reads back: `null`,
strings, Numbers whose text is read back, and objects with distinct keys whose
values are such values. -/
def JSValue.Plain : JSValue → Prop
  | .null => True
  | .str _ => True
  | .num x => numReads x = true
  | .obj props => props.NoDupKeys ∧ props.PlainAll
  | _ => False
/-- Every property value is plain. -/
def JSProps.PlainAll : JSProps → Prop
  | .nil => True
  | .cons _ v rest => v.Plain ∧ rest.PlainAll
end

mutual
/-- The fuel that reading a value back takes. -/
def JSValue.level : JSValue → Nat
  | .obj props => props.maxLevel + props.length + 2
  | _ => 1
/-- The largest level among the property values. -/
def JSProps.maxLevel : JSProps → Nat
  | .nil => 0
  | .cons _ v rest => max v.level rest.maxLevel
end

/-- The Model after a mutator call: an exception leaves it as it was. -/
def Model.after (m : Model) (result : Except JSError Model) : Model :=
  match result with
  | .ok m1 => m1
  | .error _ => m

/-- The Models that the constructor and the mutators produce: a Model constructed
over absent storage, a Model after one of the three mutators, and a Model
constructed over the storage that such a Model has saved. -/
inductive ModelReachable : Model → Prop where
  | fresh : ModelReachable ⟨defaultOrder, none⟩
  | selection (m : Model) (type itemId : JSString) :
      ModelReachable m → ModelReachable (m.after (m.updateSelection type itemId))
  | info (m : Model) (info : CustomerInfo) :
      ModelReachable m → ModelReachable (m.after (m.updateCustomerInfo info))
  | field (m : Model) (field value : JSString) :
      ModelReachable m → ModelReachable (m.after (m.updateCustomerField field value))
  | reload (m m1 : Model) :
      ModelReachable m → Model.new m.saveToLocalStorage.localStorage = .ok m1 →
      ModelReachable m1

/-- The Model of the witness of the round trip: main dish 2 selected, then
deselected through the placeholder option, and a name typed. -/
def deselectedModel : Model :=
  let m0 : Model := ⟨defaultOrder, none⟩
  let m1 := m0.after (m0.updateSelection (js "mainDish") (js "2"))
  let m2 := m1.after (m1.updateSelection (js "mainDish") (js ""))
  m2.after (m2.updateCustomerField (js "name") (js "Al"))

/-- An order object that the Model can hold: distinct keys, and every property
either `undefined` or a plain value. -/
def JSProps.Storable (ps : JSProps) : Prop :=
  ps.NoDupKeys ∧ ps.All fun v => v = .undefined ∨ v.Plain

/-- All the items of the menu. -/
def allItems : List MenuItem := mainDishItems ++ sideDishItems ++ dessertItems

/-- A value that a slot of `items` may hold: empty (`undefined` or `null`), or
the object of one of the items. -/
def SlotValue (items : List MenuItem) (v : JSValue) : Prop :=
  v = .undefined ∨ v = .null ∨ ∃ item ∈ items, v = item.toJS

/-- Each category slot of the order reads as empty or as an item of that
category's list. -/
def JSProps.SlotsOK (ps : JSProps) : Prop :=
  ∀ (type : JSString) (items : List MenuItem), menuData type = some items →
    SlotValue items ((ps.find? type).getD .undefined)

/-- A persisted order whose main dish has an id that is not in the menu. -/
def staleText : JSString := js "\x7b\"mainDish\":\x7b\"id\":99\x7d\x7d"

/-- The value of `staleText`. -/
def staleOrder : JSValue :=
  .obj (.cons (js "mainDish") (.obj (.cons (js "id") (.num (F64.ofNat 99)) .nil)) .nil)

/-! # Theorems -/


/-! ## Phone formatting -/

theorem removeAll_nonDigit (s : JSString) : removeAll .nonDigit s = s.filter isDigit := by
  unfold removeAll
  congr 1
  funext c
  simp [CharClass.test]

theorem greedyCount_digits (d : JSString) (hd : ∀ c ∈ d, isDigit c = true) (k : Nat) :
    greedyCount .digit (some k) d = min k d.length := by
  induction d generalizing k with
  | nil => cases k <;> simp [greedyCount]
  | cons c t ih =>
    cases k with
    | zero => simp [greedyCount]
    | succ k =>
      have hc : isDigit c = true := hd c (List.mem_cons_self _ _)
      have ht : ∀ x ∈ t, isDigit x = true := fun x hx => hd x (List.mem_cons_of_mem _ hx)
      simp [greedyCount, CharClass.test, hc, ih ht k]
      omega

theorem backtrack_first {α : Type} (f : Nat → Option α) (min k : Nat) (r : α)
    (hk : min ≤ k) (hf : f k = some r) : backtrack f min k = some r := by
  cases k with
  | zero =>
    have : min = 0 := by omega
    simp [backtrack, this, hf]
  | succ k =>
    have : ¬ (k + 1 < min) := by omega
    simp [backtrack, this, hf]

theorem drop_min_length (k : Nat) (s : JSString) : s.drop (min k s.length) = s.drop k := by
  rcases Nat.le_total k s.length with h | h
  · rw [Nat.min_eq_left h]
  · rw [Nat.min_eq_right h, List.drop_length, List.drop_eq_nil_of_le h]

theorem take_min_length (k : Nat) (s : JSString) : s.take (min k s.length) = s.take k := by
  rcases Nat.le_total k s.length with h | h
  · rw [Nat.min_eq_left h]
  · rw [Nat.min_eq_right h, List.take_length, List.take_of_length_le h]

/-- A group `(\d{0,k})` in front of digits takes the first `k` of them when the
rest of the pattern matches what follows. -/
theorem matchAtoms_digit_cons (rest : List Atom) (k : Nat) (s : JSString)
    (caps : List JSString) (hs : ∀ c ∈ s, isDigit c = true)
    (h : matchAtoms false rest (s.drop k) = some caps) :
    matchAtoms false (⟨.digit, 0, some k⟩ :: rest) s = some (s.take k :: caps) := by
  rw [matchAtoms]
  apply backtrack_first _ _ _ _ (Nat.zero_le _)
  simp only [greedyCount_digits _ hs, drop_min_length, take_min_length, h, Option.map_some']

/-- What the three capture groups hold for a string of digits. -/
theorem phoneGroups_exec (d : JSString) (hd : ∀ c ∈ d, isDigit c = true) :
    phoneGroups.exec d = some [d.take 3, (d.drop 3).take 3, (d.drop 6).take 4] := by
  have hd3 : ∀ c ∈ d.drop 3, isDigit c = true := fun c hc => hd c (List.mem_of_mem_drop hc)
  have hd6 : ∀ c ∈ (d.drop 3).drop 3, isDigit c = true :=
    fun c hc => hd3 c (List.mem_of_mem_drop hc)
  have h0 : matchAtoms false [] (((d.drop 3).drop 3).drop 4) = some [] := by simp [matchAtoms]
  have h1 := matchAtoms_digit_cons _ 3 d _ hd
    (matchAtoms_digit_cons _ 3 _ _ hd3 (matchAtoms_digit_cons _ 4 _ _ hd6 h0))
  have e6 : (d.drop 3).drop 3 = d.drop 6 := by simp [List.drop_drop]
  rw [e6] at h1
  have h1' : matchAtoms phoneGroups.anchorEnd phoneGroups.atoms d
      = some [d.take 3, (d.drop 3).take 3, (d.drop 6).take 4] := h1
  unfold Regex.exec
  have : phoneGroups.anchorStart = false := rfl
  simp only [this, Bool.false_eq_true, if_false]
  cases d with
  | nil => simpa [searchAtoms] using h1'
  | cons c t => simp only [searchAtoms, h1']


theorem digitsOf_isDigit (s : JSString) : ∀ c ∈ digitsOf s, isDigit c = true := by
  intro c hc
  exact (List.mem_filter.mp hc).2

/-- The value the code builds from the three groups. -/
theorem formatPhoneNumber_groups (s : JSString) (h : digitsOf s ≠ []) :
    formatPhoneNumber s = .ok
      (phoneText ((digitsOf s).take 3) (((digitsOf s).drop 3).take 3)
        (((digitsOf s).drop 6).take 4)) := by
  unfold formatPhoneNumber
  simp only [removeAll_nonDigit]
  have hlen : (List.filter isDigit s).length > 0 := List.length_pos.mpr h
  rw [if_pos hlen]
  have := phoneGroups_exec (digitsOf s) (digitsOf_isDigit s)
  unfold digitsOf at this ⊢
  rw [this]

theorem formatPhoneNumber_noDigits (s : JSString) (h : digitsOf s = []) :
    formatPhoneNumber s = .ok s := by
  unfold formatPhoneNumber
  simp only [removeAll_nonDigit]
  unfold digitsOf at h
  simp [h]

/-- C5: for an input whose digit characters form `d` of length `n ≥ 1`,
`View.formatPhoneNumber` leaves `d` when `n ≤ 3`, `(d[0..3]) d[3..n]` when
`4 ≤ n ≤ 6`, and `(d[0..3]) d[3..6]-d[6..min(n,10)]` when `n ≥ 7`. -/
theorem formatPhoneNumber_progressive (s : JSString) (h : 1 ≤ (digitsOf s).length) :
    formatPhoneNumber s = .ok
      (if (digitsOf s).length ≤ 3 then digitsOf s
       else if (digitsOf s).length ≤ 6 then
         js "(" ++ slice (digitsOf s) 0 3 ++ js ") " ++ slice (digitsOf s) 3 (digitsOf s).length
       else js "(" ++ slice (digitsOf s) 0 3 ++ js ") " ++ slice (digitsOf s) 3 6 ++ js "-"
         ++ slice (digitsOf s) 6 (min (digitsOf s).length 10)) := by
  have hne : digitsOf s ≠ [] := by
    intro h0
    rw [h0] at h
    simp at h
  rw [formatPhoneNumber_groups s hne]
  generalize digitsOf s = d
  congr 1
  unfold phoneText
  simp only [List.isEmpty_iff]
  by_cases h3 : d.length ≤ 3
  · have e : (d.drop 3).take 3 = [] := by simp [List.drop_eq_nil_of_le h3]
    rw [if_pos e, if_pos h3, List.take_of_length_le h3]
  · have e : (d.drop 3).take 3 ≠ [] := by
      simp
      omega
    rw [if_neg e, if_neg h3]
    by_cases h6 : d.length ≤ 6
    · have e6 : (d.drop 6).take 4 = [] := by simp [List.drop_eq_nil_of_le h6]
      rw [if_pos e6, if_pos h6]
      simp only [slice, List.drop_zero, List.take_length]
      congr 1
      apply List.take_of_length_le
      simp
      omega
    · have e6 : (d.drop 6).take 4 ≠ [] := by
        simp
        omega
      rw [if_neg e6, if_neg h6]
      have e1 : slice d 0 3 = d.take 3 := by simp [slice]
      have e2 : slice d 3 6 = (d.drop 3).take 3 := by simp [slice, List.drop_take]
      have e3 : slice d 6 (min d.length 10) = (d.drop 6).take 4 := by
        simp only [slice, List.drop_take]
        rcases Nat.le_total d.length 10 with h10 | h10
        · rw [Nat.min_eq_left h10, List.take_of_length_le, List.take_of_length_le] <;>
            first | omega | (simp; omega) | simp
        · rw [Nat.min_eq_right h10]
      rw [e1, e2, e3]


theorem digitsOf_append (a b : JSString) : digitsOf (a ++ b) = digitsOf a ++ digitsOf b := by
  simp [digitsOf]

theorem digitsOf_of_digits (d : JSString) (hd : ∀ c ∈ d, isDigit c = true) : digitsOf d = d := by
  unfold digitsOf
  exact List.filter_eq_self.mpr hd

/-- The digits of the text built from three groups of digits are the groups. -/
theorem digitsOf_phoneText (g1 g2 g3 : JSString) (h1 : ∀ c ∈ g1, isDigit c = true)
    (h2 : ∀ c ∈ g2, isDigit c = true) (h3 : ∀ c ∈ g3, isDigit c = true)
    (h23 : g2 = [] → g3 = []) :
    digitsOf (phoneText g1 g2 g3) = g1 ++ g2 ++ g3 := by
  have p1 : digitsOf (js "(") = [] := by decide
  have p2 : digitsOf (js ") ") = [] := by decide
  have p3 : digitsOf (js "-") = [] := by decide
  unfold phoneText
  by_cases e2 : g2 = []
  · simp [e2, h23 e2, digitsOf_of_digits _ h1]
  · by_cases e3 : g3 = []
    · simp [e2, e3, digitsOf_append, p1, p2, digitsOf_of_digits _ h1, digitsOf_of_digits _ h2]
    · simp [e2, e3, digitsOf_append, p1, p2, p3, digitsOf_of_digits _ h1,
        digitsOf_of_digits _ h2, digitsOf_of_digits _ h3]

theorem groups_append (d : JSString) :
    d.take 3 ++ (d.drop 3).take 3 ++ (d.drop 6).take 4 = d.take 10 := by
  have e1 : d.take 10 = d.take 3 ++ (d.drop 3).take 7 := by
    rw [← List.take_add]
  have e2 : (d.drop 3).take 7 = (d.drop 3).take 3 ++ ((d.drop 3).drop 3).take 4 := by
    rw [← List.take_add]
  rw [e1, e2, List.drop_drop, List.append_assoc]

/-- The text built by `formatPhoneNumber` is left unchanged by it. -/
theorem formatPhoneNumber_fixed (d : JSString) (hd : ∀ c ∈ d, isDigit c = true) (hne : d ≠ []) :
    formatPhoneNumber (phoneText (d.take 3) ((d.drop 3).take 3) ((d.drop 6).take 4))
      = .ok (phoneText (d.take 3) ((d.drop 3).take 3) ((d.drop 6).take 4)) := by
  have h1 : ∀ c ∈ d.take 3, isDigit c = true := fun c hc => hd c (List.mem_of_mem_take hc)
  have h2 : ∀ c ∈ (d.drop 3).take 3, isDigit c = true :=
    fun c hc => hd c (List.mem_of_mem_drop (List.mem_of_mem_take hc))
  have h3 : ∀ c ∈ (d.drop 6).take 4, isDigit c = true :=
    fun c hc => hd c (List.mem_of_mem_drop (List.mem_of_mem_take hc))
  have h23 : (d.drop 3).take 3 = [] → (d.drop 6).take 4 = [] := by
    intro h
    have : d.length ≤ 3 := by
      simp at h
      exact h
    simp
    omega
  have hdig := digitsOf_phoneText _ _ _ h1 h2 h3 h23
  rw [groups_append] at hdig
  have hne' : digitsOf (phoneText (d.take 3) ((d.drop 3).take 3) ((d.drop 6).take 4)) ≠ [] := by
    rw [hdig]
    cases d with
    | nil => exact absurd rfl hne
    | cons c t => simp
  rw [formatPhoneNumber_groups _ hne', hdig]
  have g1 : (d.take 10).take 3 = d.take 3 := by simp [List.take_take]
  have g2 : ((d.take 10).drop 3).take 3 = (d.drop 3).take 3 := by
    simp [List.drop_take, List.take_take]
  have g3 : ((d.take 10).drop 6).take 4 = (d.drop 6).take 4 := by
    simp [List.drop_take, List.take_take]
  rw [g1, g2, g3]

/-- C6: `View.formatPhoneNumber` is idempotent: on every input it yields a value
that it leaves unchanged; every string of the shape `(DDD) DDD-DDDD` is a fixed
point. -/
theorem formatPhoneNumber_idempotent :
    (∀ s : JSString, ∃ r, formatPhoneNumber s = .ok r ∧ formatPhoneNumber r = .ok r) ∧
    (∀ a b c : JSString, (∀ x ∈ a ++ b ++ c, isDigit x = true) →
      a.length = 3 → b.length = 3 → c.length = 4 →
      formatPhoneNumber (js "(" ++ a ++ js ") " ++ b ++ js "-" ++ c)
        = .ok (js "(" ++ a ++ js ") " ++ b ++ js "-" ++ c)) := by
  constructor
  · intro s
    by_cases h : digitsOf s = []
    · exact ⟨s, formatPhoneNumber_noDigits s h, formatPhoneNumber_noDigits s h⟩
    · exact ⟨_, formatPhoneNumber_groups s h,
        formatPhoneNumber_fixed _ (digitsOf_isDigit s) h⟩
  · intro a b c hd ha hb hc
    have e1 : (a ++ b ++ c).take 3 = a := by
      rw [List.append_assoc, List.take_append_of_le_length (by omega), List.take_of_length_le (by omega)]
    have e2 : ((a ++ b ++ c).drop 3).take 3 = b := by
      rw [List.append_assoc, List.drop_append_of_le_length (by omega), List.drop_of_length_le (by omega)]
      simp [List.take_append_of_le_length, hb]
    have e3 : ((a ++ b ++ c).drop 6).take 4 = c := by
      have : (a ++ b).length = 6 := by simp [ha, hb]
      rw [List.drop_append_of_le_length (by omega), List.drop_of_length_le (by omega)]
      simp [hc]
    have hne : a ++ b ++ c ≠ [] := by
      intro h0
      have := congrArg List.length h0
      rw [List.length_append, List.length_append, ha, hb, hc] at this
      exact absurd this (by decide)
    have key := formatPhoneNumber_fixed (a ++ b ++ c) hd hne
    rw [e1, e2, e3] at key
    have hb0 : b ≠ [] := by
      intro h0
      rw [h0] at hb
      simp at hb
    have hc0 : c ≠ [] := by
      intro h0
      rw [h0] at hc
      simp at hc
    have ep : phoneText a b c = js "(" ++ a ++ js ") " ++ b ++ js "-" ++ c := by
      simp [phoneText, hb0, hc0]
    rw [ep] at key
    exact key

theorem formatPhoneNumber_idempotent_witness :
    formatPhoneNumber (js "(555) 123-4567") = .ok (js "(555) 123-4567") :=
  formatPhoneNumber_idempotent.2 (js "555") (js "123") (js "4567") (by decide) (by decide)
    (by decide) (by decide)

theorem formatPhoneNumber_progressive_witness :
    1 ≤ (digitsOf (js "(555) 123-45678")).length ∧
    formatPhoneNumber (js "(555) 123-45678") = .ok (js "(555) 123-4567") ∧
    [js "5", js "55", js "555", js "5551", js "(555) 12", js "(555) 123", js "(555) 1234",
      js "(555) 123-45", js "(555) 123-456", js "(555) 123-4567"].map formatPhoneNumber
      = [js "5", js "55", js "555", js "(555) 1", js "(555) 12", js "(555) 123",
          js "(555) 123-4", js "(555) 123-45", js "(555) 123-456", js "(555) 123-4567"].map
            Except.ok :=
  ⟨by decide, (formatPhoneNumber_progressive _ (by decide)).trans (by decide), by decide⟩


/-! ## Validation rules -/

theorem greedyCount_none_le (cls : CharClass) (s : JSString) :
    greedyCount cls none s ≤ s.length := by
  induction s with
  | nil => simp [greedyCount]
  | cons c t ih =>
    by_cases h : cls.test c = true
    · simp [greedyCount, h, ih]
    · simp [greedyCount, h]

theorem greedyCount_none_eq_length (cls : CharClass) (s : JSString) :
    greedyCount cls none s = s.length ↔ ∀ c ∈ s, cls.test c = true := by
  induction s with
  | nil => simp [greedyCount]
  | cons c t ih =>
    by_cases h : cls.test c = true
    · simp [greedyCount, h, ih]
    · simp [greedyCount, h]

/-- Backtracking succeeds exactly when some admissible length does. -/
theorem backtrack_isSome {α : Type} (f : Nat → Option α) (min n : Nat) :
    (backtrack f min n).isSome = true ↔ ∃ k, min ≤ k ∧ k ≤ n ∧ (f k).isSome = true := by
  induction n with
  | zero =>
    by_cases h : min = 0
    · simp only [backtrack, h, if_true]
      constructor
      · intro hf
        exact ⟨0, Nat.le_refl _, Nat.le_refl _, hf⟩
      · rintro ⟨k, _, hk, hf⟩
        have : k = 0 := by omega
        rw [this] at hf
        exact hf
    · simp only [backtrack, h, if_false]
      constructor
      · intro hf
        simp at hf
      · rintro ⟨k, h1, h2, _⟩
        omega
  | succ n ih =>
    by_cases h : n + 1 < min
    · simp only [backtrack, h, if_true]
      constructor
      · intro hf
        simp at hf
      · rintro ⟨k, h1, h2, _⟩
        omega
    · simp only [backtrack, h, if_false]
      cases hfn : f (n + 1) with
      | some r =>
        simp only [Option.isSome_some, true_iff]
        exact ⟨n + 1, by omega, Nat.le_refl _, by simp [hfn]⟩
      | none =>
        simp only
        rw [ih]
        constructor
        · rintro ⟨k, h1, h2, hf⟩
          exact ⟨k, h1, by omega, hf⟩
        · rintro ⟨k, h1, h2, hf⟩
          have hk : k ≠ n + 1 := by
            intro e
            rw [e, hfn] at hf
            simp at hf
          exact ⟨k, h1, by omega, hf⟩

/-- A pattern `^C{min,}$` of one class matches the strings of at least `min`
characters that are all in the class. -/
theorem test_anchored_class (cls : CharClass) (min : Nat) (s : JSString) :
    Regex.test ⟨true, [⟨cls, min, none⟩], true⟩ s = true ↔
      min ≤ s.length ∧ ∀ c ∈ s, cls.test c = true := by
  unfold Regex.test Regex.exec
  simp only [if_true, matchAtoms]
  rw [backtrack_isSome]
  have hle := greedyCount_none_le cls s
  constructor
  · rintro ⟨k, h1, h2, hf⟩
    have hk : s.length ≤ k := by
      by_contra hlt
      have : s.drop k ≠ [] := by
        simp
        omega
      simp [this] at hf
    have hg : greedyCount cls none s = s.length := by omega
    exact ⟨by omega, (greedyCount_none_eq_length cls s).mp hg⟩
  · rintro ⟨h1, h2⟩
    have hg := (greedyCount_none_eq_length cls s).mpr h2
    refine ⟨s.length, h1, by omega, ?_⟩
    simp


/-- C10: the name rule marks a value valid if and only if the value has at least
2 characters and each of them is a letter `A-Z`, `a-z` or a white space
character; `"Al"` is valid, `"A"` and `"John123"` are not. -/
theorem name_rule_valid_iff :
    (∀ (a : App) (value : JSString),
      ((validateInput a .name value (inputs .name).pattern (inputs .name).format).view.input
          .name).mark = .isValid ↔
        (2 ≤ value.length ∧ ∀ c ∈ value, isLetter c = true ∨ isWhiteSpace c = true)) ∧
    (inputs .name).pattern.test (js "Al") = true ∧
    (inputs .name).pattern.test (js "A") = false ∧
    (inputs .name).pattern.test (js "John123") = false := by
  refine ⟨?_, by decide, by decide, by decide⟩
  intro a value
  have h := test_anchored_class .letterOrSpace 2 value
  have hp : (inputs .name).pattern = ⟨true, [⟨.letterOrSpace, 2, none⟩], true⟩ := rfl
  rw [hp]
  simp only [validateInput, View.showValidationFeedback, View.setInput, View.input]
  by_cases ht : Regex.test ⟨true, [⟨.letterOrSpace, 2, none⟩], true⟩ value = true
  · have := h.mp ht
    simp only [ht, if_true, true_iff]
    refine ⟨this.1, fun c hc => ?_⟩
    have := this.2 c hc
    simpa [CharClass.test] using this
  · have hn : ¬ (2 ≤ value.length ∧ ∀ c ∈ value, isLetter c = true ∨ isWhiteSpace c = true) := by
      intro hh
      apply ht
      apply h.mpr
      refine ⟨hh.1, fun c hc => ?_⟩
      simpa [CharClass.test] using hh.2 c hc
    simp only [ht]
    simp only [Bool.false_eq_true, if_false, false_iff, reduceCtorEq]
    exact hn


/-! ## Numbers: decimal digits and `parseInt` -/

theorem digitsValue_append_one (ds : JSString) (x : Nat) :
    digitsValue (ds ++ [x]) = digitsValue ds * 10 + (x - 48) := by
  simp [digitsValue, List.foldl_append]

/-- The digits written by `digitsAux` are digits and denote the number. -/
theorem digitsAux_spec (fuel n : Nat) (acc : JSString) (h : n < fuel) :
    ∃ ds, digitsAux fuel n acc = ds ++ acc ∧ ds ≠ [] ∧ (∀ c ∈ ds, isDigit c = true) ∧
      digitsValue ds = n := by
  induction fuel generalizing n acc with
  | zero => omega
  | succ fuel ih =>
    by_cases h10 : n < 10
    · refine ⟨[48 + n], ?_, by simp, ?_, ?_⟩
      · simp [digitsAux, h10]
      · intro c hc
        simp at hc
        subst hc
        simp [isDigit]
        omega
      · simp [digitsValue]
    · have hlt : n / 10 < fuel := by omega
      obtain ⟨ds, e, hne, hd, hv⟩ := ih (n / 10) ((48 + n % 10) :: acc) hlt
      refine ⟨ds ++ [48 + n % 10], ?_, by simp, ?_, ?_⟩
      · simp [digitsAux, h10, e]
      · intro c hc
        rcases List.mem_append.mp hc with hc | hc
        · exact hd c hc
        · simp at hc
          subst hc
          simp [isDigit]
          omega
      · rw [digitsValue_append_one, hv]
        omega

theorem decimalDigits_spec (n : Nat) :
    decimalDigits n ≠ [] ∧ (∀ c ∈ decimalDigits n, isDigit c = true) ∧
      digitsValue (decimalDigits n) = n := by
  obtain ⟨ds, e, hne, hd, hv⟩ := digitsAux_spec (n + 1) n [] (Nat.lt_succ_self n)
  have : decimalDigits n = ds := by simp [decimalDigits, e]
  rw [this]
  exact ⟨hne, hd, hv⟩

theorem readDigits_digits (ds : JSString) (hd : ∀ c ∈ ds, isDigit c = true) (acc len : Nat) :
    readDigits 10 ds acc len
      = (ds.foldl (fun acc c => acc * 10 + (c - 48)) acc, len + ds.length) := by
  induction ds generalizing acc len with
  | nil => simp [readDigits]
  | cons c t ih =>
    have hc : isDigit c = true := hd c (List.mem_cons_self _ _)
    have ht : ∀ x ∈ t, isDigit x = true := fun x hx => hd x (List.mem_cons_of_mem _ hx)
    simp only [readDigits, digitValue, hc, if_true, List.foldl_cons, List.length_cons]
    rw [ih ht]
    congr 1
    omega

/-- `parseInt` of a non-empty string of decimal digits is the Number of its value. -/
theorem parseInt_digits (ds : JSString) (hne : ds ≠ []) (hd : ∀ c ∈ ds, isDigit c = true) :
    parseInt ds = F64.ofNat (digitsValue ds) := by
  cases ds with
  | nil => exact absurd rfl hne
  | cons c t =>
    have hc : isDigit c = true := hd c (List.mem_cons_self _ _)
    have hc' : 48 ≤ c ∧ c ≤ 57 := by simpa [isDigit] using hc
    have hws : isWhiteSpace c = false := by
      simp [isWhiteSpace]
      omega
    have h45 : c ≠ 45 := by omega
    have h43 : c ≠ 43 := by omega
    have hx : ((c :: t).take 2 == js "0x" || (c :: t).take 2 == js "0X") = false := by
      cases t with
      | nil => simp [js]
      | cons d t' =>
        have hdd : isDigit d = true := hd d (by simp)
        have hd' : 48 ≤ d ∧ d ≤ 57 := by simpa [isDigit] using hdd
        have e1 : js "0x" = [48, 120] := by decide
        have e2 : js "0X" = [48, 88] := by decide
        rw [e1, e2]
        simp
        omega
    have hdrop : (c :: t).dropWhile isWhiteSpace = c :: t := by
      simp [List.dropWhile, hws]
    have b45 : (some c == some 45) = false := by simp [h45]
    have b43 : (some c == some 43) = false := by simp [h43]
    unfold parseInt
    simp only [hdrop, List.head?_cons, b45, b43, Bool.false_eq_true, or_self, ↓reduceIte, hx]
    rw [readDigits_digits _ hd]
    have hlen : ¬ (0 + (c :: t).length = 0) := by simp
    simp only [hlen, ↓reduceIte]
    rfl

theorem parseInt_decimalDigits (n : Nat) : parseInt (decimalDigits n) = F64.ofNat n := by
  obtain ⟨hne, hd, hv⟩ := decimalDigits_spec n
  rw [parseInt_digits _ hne hd, hv]


/-! ## Numbers: rounding -/

theorem log2Desc_pow_le (k n : Nat) (h1 : 1 ≤ n) : 2 ^ log2Desc k n ≤ n := by
  induction k generalizing n with
  | zero => simpa [log2Desc] using h1
  | succ k ih =>
    simp only [log2Desc]
    split
    · rename_i hle
      have hpos : 0 < 2 ^ 2 ^ k := Nat.two_pow_pos _
      have hq : 1 ≤ n / 2 ^ 2 ^ k := (Nat.le_div_iff_mul_le hpos).mpr (by simpa using hle)
      have := ih (n / 2 ^ 2 ^ k) hq
      rw [Nat.pow_add]
      calc 2 ^ 2 ^ k * 2 ^ log2Desc k (n / 2 ^ 2 ^ k)
          ≤ 2 ^ 2 ^ k * (n / 2 ^ 2 ^ k) := Nat.mul_le_mul_left _ this
        _ ≤ n := Nat.mul_div_le n _
    · exact ih n h1

theorem log2Desc_lt_pow (k n : Nat) (h : n < 2 ^ 2 ^ k) : n < 2 ^ (log2Desc k n + 1) := by
  induction k generalizing n with
  | zero => simpa [log2Desc] using h
  | succ k ih =>
    simp only [log2Desc]
    split
    · have hpos : 0 < 2 ^ 2 ^ k := Nat.two_pow_pos _
      have hsq : (2 : Nat) ^ 2 ^ (k + 1) = 2 ^ 2 ^ k * 2 ^ 2 ^ k := by
        rw [Nat.pow_succ, Nat.pow_mul, Nat.pow_two]
      have hq : n / 2 ^ 2 ^ k < 2 ^ 2 ^ k := by
        rw [Nat.div_lt_iff_lt_mul hpos]
        rw [hsq] at h
        exact h
      have := ih (n / 2 ^ 2 ^ k) hq
      have e : (2 : Nat) ^ (2 ^ k + log2Desc k (n / 2 ^ 2 ^ k) + 1)
          = 2 ^ (log2Desc k (n / 2 ^ 2 ^ k) + 1) * 2 ^ 2 ^ k := by
        rw [Nat.add_assoc, Nat.pow_add, Nat.mul_comm]
      rw [e]
      exact (Nat.div_lt_iff_lt_mul hpos).mp this
    · rename_i hlt
      exact ih n (by omega)

theorem log2Span_spec (fuel n k : Nat) (h : n < 2 ^ 2 ^ (k + fuel)) :
    n < 2 ^ 2 ^ log2Span fuel n k := by
  induction fuel generalizing k with
  | zero => simpa [log2Span] using h
  | succ fuel ih =>
    simp only [log2Span]
    split
    · assumption
    · apply ih
      have e : k + 1 + fuel = k + (fuel + 1) := by omega
      rw [e]
      exact h

theorem log2_pow_le (n : Nat) (h1 : 1 ≤ n) : 2 ^ log2 n ≤ n :=
  log2Desc_pow_le _ n h1

/-- The function `log2` is the floor of the binary logarithm. -/
theorem log2_spec (n : Nat) (h1 : 1 ≤ n) : 2 ^ log2 n ≤ n ∧ n < 2 ^ (log2 n + 1) := by
  refine ⟨log2_pow_le n h1, log2Desc_lt_pow _ n (log2Span_spec n n 0 ?_)⟩
  have h2 : n < 2 ^ n := Nat.lt_two_pow n
  have h3 : (2 : Nat) ^ n < 2 ^ 2 ^ n := Nat.pow_lt_pow_right (by decide) h2
  simpa using Nat.lt_trans h2 h3

theorem roundNearestEven_ge (a b : Nat) : a / b ≤ roundNearestEven a b := by
  unfold roundNearestEven
  simp only
  split <;> omega

/-- Rounding an integer number of units loses less than half of it. -/
theorem roundUnits_ge (a : Nat) : a ≤ 2 * roundUnits a 1 := by
  unfold roundUnits
  simp only [Nat.div_one, Nat.one_mul]
  by_cases h : a < 2 ^ 53
  · simp only [h, if_true, Nat.pow_zero, Nat.mul_one]
    have := roundNearestEven_ge a 1
    simp only [Nat.div_one] at this
    omega
  · simp only [h, if_false]
    have ha : 2 ^ 53 ≤ a := by omega
    have hl := log2_pow_le a (by omega)
    generalize hs : log2 a - 52 = s
    have hb : 2 * 2 ^ s ≤ a := by
      by_cases h53 : 53 ≤ log2 a
      · have : 2 ^ (s + 1) ≤ 2 ^ log2 a := Nat.pow_le_pow_right (by decide) (by omega)
        rw [Nat.pow_succ] at this
        omega
      · have : s = 0 := by omega
        rw [this]
        omega
    have hpos : 0 < 2 ^ s := Nat.pow_pos (by decide)
    generalize 2 ^ s = b at hb hpos
    have hr := roundNearestEven_ge a b
    have hm := Nat.mul_le_mul_right b hr
    have hd := Nat.div_add_mod a b
    have hlt := Nat.mod_lt a hpos
    rw [Nat.mul_comm] at hd
    generalize a / b * b = x at hm hd
    generalize roundNearestEven a b * b = y at hm
    omega

theorem ofNat_small : ∀ i, i < 7 → ∀ k, k < 4 → 1 ≤ k →
    (F64.ofNat k).strictEq (F64.ofNat i) = decide (k = i) := by
  decide!

set_option exponentiation.threshold 3000 in
theorem unit_pos : 0 < unit := Nat.two_pow_pos 1074

theorem ofNat_small_eq : ∀ k, k < 4 → F64.ofNat k = .fin false (k * unit) := by
  decide!

/-- The Number of a menu id equals the Number of `i` only when `i` is that id. -/
theorem ofNat_strictEq (k i : Nat) (hk1 : 1 ≤ k) (hk : k < 4) :
    (F64.ofNat k).strictEq (F64.ofNat i) = decide (k = i) := by
  by_cases hi : i < 7
  · exact ofNat_small i hi k hk hk1
  · have hne : k ≠ i := by omega
    rw [ofNat_small_eq k hk]
    simp only [hne, decide_False]
    have hge := roundUnits_ge (i * unit)
    have hu := unit_pos
    have h7 : 7 * unit ≤ i * unit := Nat.mul_le_mul_right unit (by omega)
    have h3 : k * unit ≤ 3 * unit := Nat.mul_le_mul_right unit (by omega)
    unfold F64.ofNat F64.ofRat F64.ofUnits
    simp only
    generalize roundUnits (i * unit) 1 = m at hge
    generalize i * unit = x at hge h7
    generalize k * unit = y at h3
    have hym : y ≠ m := by omega
    split
    · simp [F64.strictEq, hym]
    · simp [F64.strictEq]


/-! ## Model: selections -/

theorem find?_set_self : ∀ (props : JSProps) (key : JSString) (v : JSValue),
    (props.set key v).find? key = some v
  | .nil, key, v => by simp [JSProps.set, JSProps.find?]
  | .cons k w rest, key, v => by
    have ih := find?_set_self rest key v
    by_cases h : k = key
    · simp [JSProps.set, JSProps.find?, h]
    · simp [JSProps.set, JSProps.find?, h, ih]

theorem find?_set_other : ∀ (props : JSProps) (key key' : JSString) (v : JSValue),
    key ≠ key' → (props.set key v).find? key' = props.find? key'
  | .nil, key, key', v, h => by simp [JSProps.set, JSProps.find?, h]
  | .cons k w rest, key, key', v, h => by
    have ih := find?_set_other rest key key' v h
    by_cases hk : k = key
    · subst hk
      simp [JSProps.set, JSProps.find?, h]
    · by_cases hk' : k = key'
      · subst hk'
        simp [JSProps.set, JSProps.find?, hk]
      · simp [JSProps.set, JSProps.find?, hk, hk', ih]

theorem find?_ext {α : Type} (p q : α → Bool) (l : List α) (h : ∀ x ∈ l, p x = q x) :
    l.find? p = l.find? q := by
  induction l with
  | nil => rfl
  | cons x t ih =>
    have hx := h x (List.mem_cons_self _ _)
    have ht := ih fun y hy => h y (List.mem_cons_of_mem _ hy)
    simp only [List.find?, hx, ht]

theorem strictEq_nan (x : F64) : x.strictEq .nan = false := by
  cases x <;> rfl

/-- The item that `find` yields in a list of the menu, for the id string of `i`. -/
theorem find_decimalDigits (items : List MenuItem) (h : ∀ item ∈ items, 1 ≤ item.id ∧ item.id < 4)
    (i : Nat) :
    (items.find? fun item => (F64.ofNat item.id).strictEq (parseInt (decimalDigits i)))
      = items.find? fun item => decide (item.id = i) := by
  rw [parseInt_decimalDigits]
  apply find?_ext
  intro item hitem
  exact ofNat_strictEq item.id i (h item hitem).1 (h item hitem).2

theorem menuData_ids (c : JSString) (items : List MenuItem) (h : menuData c = some items) :
    ∀ item ∈ items, 1 ≤ item.id ∧ item.id < 4 := by
  unfold menuData at h
  split at h
  · cases h
    decide
  · split at h
    · cases h
      decide
    · split at h
      · cases h
        decide
      · cases h

/-- In a list whose ids are `1, 2, 3`, `find` by id yields the item with that id. -/
theorem find_by_id (items : List MenuItem) (hids : items.map (·.id) = [1, 2, 3]) (i : Nat)
    (item : MenuItem) (hitem : item ∈ items) (hid : item.id = i) :
    items.find? (fun item => decide (item.id = i)) = some item := by
  rcases items with _ | ⟨a, _ | ⟨b, _ | ⟨d, _ | ⟨e, t⟩⟩⟩⟩ <;> simp at hids
  obtain ⟨ha, hb, hd⟩ := hids
  simp at hitem
  rcases hitem with h | h | h <;> subst h <;> simp [List.find?, ← hid, ha, hb, hd]

/-- C1: for a recognized category `c`, an item id `i` and any starting order,
after `updateSelection(c, i)` the order shows slot `c` holding the item of
category `c` whose id is `i` when there is one, and empty (`undefined`)
otherwise; so does the empty id string of the placeholder option. -/
theorem updateSelection_slot (c : JSString)
    (hc : c = js "mainDish" ∨ c = js "sideDish" ∨ c = js "dessert") (i : Nat)
    (props : JSProps) (storage : Option JSString) :
    ∃ items, menuData c = some items ∧
      (∃ m, Model.updateSelection ⟨.obj props, storage⟩ c (decimalDigits i) = .ok m ∧
        (∀ item ∈ items, item.id = i → m.getCurrentOrder.get c = .ok item.toJS) ∧
        ((∀ item ∈ items, item.id ≠ i) → m.getCurrentOrder.get c = .ok .undefined)) ∧
      (∃ m, Model.updateSelection ⟨.obj props, storage⟩ c (js "") = .ok m ∧
        m.getCurrentOrder.get c = .ok .undefined) := by
  have hproto : c ≠ js "__proto__" := by
    rcases hc with h | h | h <;> subst h <;> decide
  have hitems : ∃ items, menuData c = some items ∧ items.map (·.id) = [1, 2, 3] := by
    rcases hc with h | h | h <;> subst h
    · exact ⟨mainDishItems, by decide, by decide⟩
    · exact ⟨sideDishItems, by decide, by decide⟩
    · exact ⟨dessertItems, by decide, by decide⟩
  obtain ⟨items, hmenu, hids⟩ := hitems
  refine ⟨items, hmenu, ?_, ?_⟩
  · have hfind := find_decimalDigits items (menuData_ids c items hmenu) i
    unfold Model.updateSelection
    simp only [hmenu, hfind, JSValue.set, hproto, false_and, if_false, Except.map,
      Model.getCurrentOrder, Model.saveToLocalStorage]
    refine ⟨_, rfl, ?_, ?_⟩
    · intro item hitem hid
      simp only [JSValue.get, find?_set_self, Option.getD_some]
      rw [find_by_id items hids i item hitem hid]
    · intro hno
      simp only [JSValue.get, find?_set_self, Option.getD_some]
      have : items.find? (fun item => decide (item.id = i)) = none := by
        rw [List.find?_eq_none]
        intro item hitem
        simpa using hno item hitem
      rw [this]
  · unfold Model.updateSelection
    have hnone : (items.find? fun item => (F64.ofNat item.id).strictEq (parseInt (js ""))) = none := by
      rw [List.find?_eq_none]
      intro item _
      have : parseInt (js "") = .nan := by decide
      rw [this]
      simp [strictEq_nan]
    simp only [hmenu, hnone, JSValue.set, hproto, false_and, if_false, Except.map,
      Model.getCurrentOrder, Model.saveToLocalStorage]
    refine ⟨_, rfl, ?_⟩
    simp only [JSValue.get, find?_set_self, Option.getD_some]


theorem updateSelection_slot_witness :
    (js "mainDish" = js "mainDish" ∨ js "mainDish" = js "sideDish" ∨
      js "mainDish" = js "dessert") ∧
    ∃ items, menuData (js "mainDish") = some items ∧
      (∃ m, Model.updateSelection ⟨.obj .nil, none⟩ (js "mainDish") (decimalDigits 2) = .ok m ∧
        (∀ item ∈ items, item.id = 2 → m.getCurrentOrder.get (js "mainDish") = .ok item.toJS) ∧
        ((∀ item ∈ items, item.id ≠ 2) →
          m.getCurrentOrder.get (js "mainDish") = .ok .undefined)) ∧
      (∃ m, Model.updateSelection ⟨.obj .nil, none⟩ (js "mainDish") (js "") = .ok m ∧
        m.getCurrentOrder.get (js "mainDish") = .ok .undefined) :=
  ⟨Or.inl rfl, updateSelection_slot (js "mainDish") (Or.inl rfl) 2 .nil none⟩

/-! ## Model: total -/

theorem toJS_truthy (item : MenuItem) : item.toJS.truthy = true := rfl

theorem toJS_price (item : MenuItem) :
    item.toJS.get (js "price") = .ok (.num item.price.toF64) := by
  have h1 : js "id" ≠ js "price" := by decide
  have h2 : js "name" ≠ js "price" := by decide
  simp [MenuItem.toJS, JSValue.get, JSProps.find?, h1, h2]

/-- One round of the loop of `calculateTotal` on a slot that the order shows. -/
theorem addSlot_holds (props : JSProps) (type : JSString) (items : List MenuItem) (slot : Slot)
    (h : SlotHolds props type items slot) (total : F64) :
    addSlot (.obj props) total type = .ok (slot.addTo total) := by
  cases slot with
  | none =>
    rcases h with h | h | h <;> simp [addSlot, JSValue.get, h, JSValue.truthy, Slot.addTo]
  | some item =>
    obtain ⟨_, h⟩ := h
    have hget : (JSValue.obj props).get type = .ok item.toJS := by
      simp [JSValue.get, h]
    unfold addSlot
    rw [hget]
    simp only [toJS_truthy, if_true, toJS_price, addPrice, Slot.addTo]

/-- The Number sums of the 64 orders over the menu, rendered by `toFixed(2)`. -/
theorem total_table :
    ∀ main ∈ none :: mainDishItems.map some, ∀ side ∈ none :: sideDishItems.map some,
    ∀ dessert ∈ none :: dessertItems.map some,
      (Slot.addTo (Slot.addTo (Slot.addTo (.fin false 0) main) side) dessert).toFixed 2
        = .ok (decimal2 (Slot.cents main + Slot.cents side + Slot.cents dessert)) := by
  decide!


theorem slot_mem (props : JSProps) (type : JSString) (items : List MenuItem) (slot : Slot)
    (h : SlotHolds props type items slot) : slot ∈ none :: items.map some := by
  cases slot with
  | none => exact List.mem_cons_self _ _
  | some item => exact List.mem_cons_of_mem _ (List.mem_map_of_mem _ h.1)

/-- C2: on an order whose slots are empty or hold items of the menu,
`calculateTotal()` returns the decimal string with exactly 2 fractional digits of
the sum of the prices of the filled slots; with all three slots empty this is
`"0.00"`. -/
theorem calculateTotal_sum (props : JSProps) (storage : Option JSString)
    (main side dessert : Slot)
    (hm : SlotHolds props (js "mainDish") mainDishItems main)
    (hs : SlotHolds props (js "sideDish") sideDishItems side)
    (hd : SlotHolds props (js "dessert") dessertItems dessert) :
    Model.calculateTotal ⟨.obj props, storage⟩
        = .ok (decimal2 (main.cents + side.cents + dessert.cents)) ∧
      (main = none → side = none → dessert = none →
        Model.calculateTotal ⟨.obj props, storage⟩ = .ok (js "0.00")) := by
  have key : Model.calculateTotal ⟨.obj props, storage⟩
      = .ok (decimal2 (main.cents + side.cents + dessert.cents)) := by
    unfold Model.calculateTotal
    simp only [addSlot_holds props _ _ _ hm, addSlot_holds props _ _ _ hs,
      addSlot_holds props _ _ _ hd]
    exact total_table main (slot_mem _ _ _ _ hm) side (slot_mem _ _ _ _ hs) dessert
      (slot_mem _ _ _ _ hd)
  refine ⟨key, ?_⟩
  intro h1 h2 h3
  rw [key, h1, h2, h3]
  decide

theorem calculateTotal_sum_witness :
    Model.calculateTotal ⟨.obj exampleSlots, none⟩ = .ok (js "20.98") :=
  (calculateTotal_sum exampleSlots none (some mcchicken) (some salad) none
    ⟨by decide, rfl⟩ ⟨by decide, rfl⟩ (Or.inr (Or.inr rfl))).1.trans (by decide)


/-! ## Controller: submission -/

theorem isFormValid_marks (v : View) (h : v.isFormValid = true) (f : Field) :
    (v.input f).mark = .isValid := by
  simp only [View.isFormValid, List.all_cons, List.all_nil, Bool.and_true, Bool.and_eq_true,
    decide_eq_true_eq] at h
  cases f
  · exact h.1.2
  · exact h.2.1.2
  · exact h.2.2.2

/-- C7: when at least one of the three fields is not marked valid,
`Controller.handleFormSubmit` changes nothing: the order in memory, the
`currentOrder` entry, the `confirmedOrder` slot and the location stay as they
were, whatever the current text of the fields. -/
theorem handleFormSubmit_refused (a : App) (customerInfo : CustomerInfo)
    (h : ∃ f : Field, (a.view.input f).mark ≠ .isValid) :
    handleFormSubmit a customerInfo = ⟨a, none⟩ := by
  obtain ⟨f, hf⟩ := h
  have hv : a.view.isFormValid = false := by
    cases hval : a.view.isFormValid with
    | false => rfl
    | true => exact absurd (isFormValid_marks a.view hval f) hf
  simp [handleFormSubmit, hv]

theorem handleFormSubmit_refused_witness :
    (∀ f : Field, (inputs f).pattern.test (reloadedApp.view.input f).value = true) ∧
    (∃ f : Field, (reloadedApp.view.input f).mark ≠ .isValid) ∧
    submitEvent reloadedApp = ⟨reloadedApp, none⟩ :=
  ⟨fun f => by cases f <;> decide, ⟨.name, by decide⟩,
    handleFormSubmit_refused reloadedApp _ ⟨.name, by decide⟩⟩


/-! ## Controller: field input -/

theorem key_ne_proto (f : Field) : f.key ≠ js "__proto__" := by
  cases f <;> decide

theorem key_injective (f g : Field) (h : f.key = g.key) : f = g := by
  cases f <;> cases g <;> first | rfl | (exact absurd h (by decide))

/-- `updateCustomerField` on an order object whose `customerInfo` is an object. -/
theorem updateCustomerField_ok (m : Model) (props ci : JSProps) (f : Field) (value : JSString)
    (horder : m.currentOrder = .obj props)
    (hci : props.find? (js "customerInfo") = some (.obj ci)) :
    m.updateCustomerField f.key value = .ok (Model.saveToLocalStorage
      { m with currentOrder :=
          JSValue.obj (props.set (js "customerInfo") (.obj (ci.set f.key (.str value)))) }) := by
  unfold Model.updateCustomerField
  simp only [horder, JSValue.get, hci, Option.getD_some, JSValue.set, key_ne_proto,
    false_and, if_false]

theorem formatPhoneNumber_total (s : JSString) : ∃ r, formatPhoneNumber s = .ok r := by
  by_cases h : digitsOf s = []
  · exact ⟨s, formatPhoneNumber_noDigits s h⟩
  · exact ⟨_, formatPhoneNumber_groups s h⟩

theorem input_setInput (v : View) (f : Field) (i : Input) : (v.setInput f i).input f = i := by
  cases f <;> rfl

theorem input_setInput_ne (v : View) (f g : Field) (i : Input) (h : g ≠ f) :
    (v.setInput f i).input g = v.input g := by
  cases f <;> cases g <;> first | rfl | exact absurd rfl h


/-- The `input` handler once the value to validate is known. -/
theorem inputEvent_eq (a : App) (f : Field) (rawValue value : JSString)
    (hv : if f = .phone then formatPhoneNumber rawValue = .ok value else value = rawValue) :
    inputEvent a f rawValue =
      handleInputChange
        (validateInput
          { a with view := a.view.setInput f { a.view.input f with value := value } }
          f value (inputs f).pattern (inputs f).format) f value := by
  cases f
  · simp only [reduceCtorEq, if_false] at hv
    subst hv
    simp only [inputEvent, inputHandler, inputs, Bool.false_eq_true, if_false, input_setInput]
  · simp only [if_true] at hv
    simp only [inputEvent, inputHandler, inputs, if_true, input_setInput, hv, Except.map]
    cases a with
    | mk model view ss loc => cases view; rfl
  · simp only [reduceCtorEq, if_false] at hv
    subst hv
    simp only [inputEvent, inputHandler, inputs, Bool.false_eq_true, if_false, input_setInput]

/-- C9: one field-input event, valid or not, ends with `customerInfo[field]`
equal to the value that was validated (the raw value, or for the phone the
formatted value), every other property of `customerInfo` and of the order
unchanged, and the serialization of that order in `localStorage`. -/
theorem inputEvent_saves (a : App) (f : Field) (rawValue : JSString) (props ci : JSProps)
    (horder : a.model.currentOrder = .obj props)
    (hci : props.find? (js "customerInfo") = some (.obj ci)) :
    ∃ value props1 ci1 text,
      (if f = .phone then formatPhoneNumber rawValue = .ok value else value = rawValue) ∧
      (inputEvent a f rawValue).thrown = none ∧
      ((inputEvent a f rawValue).state.view.input f).value = value ∧
      ((inputEvent a f rawValue).state.view.input f).mark
        = (if (inputs f).pattern.test value then .isValid else .isInvalid) ∧
      (inputEvent a f rawValue).state.model.currentOrder = .obj props1 ∧
      props1.find? (js "customerInfo") = some (.obj ci1) ∧
      ci1.find? f.key = some (.str value) ∧
      (∀ key, key ≠ f.key → ci1.find? key = ci.find? key) ∧
      (∀ key, key ≠ js "customerInfo" → props1.find? key = props.find? key) ∧
      JSON.stringify (.obj props1) = some text ∧
      (inputEvent a f rawValue).state.model.localStorage = some text := by
  have hval : ∃ value,
      if f = .phone then formatPhoneNumber rawValue = .ok value else value = rawValue := by
    by_cases hf : f = .phone
    · obtain ⟨r, hr⟩ := formatPhoneNumber_total rawValue
      exact ⟨r, by simp [hf, hr]⟩
    · exact ⟨rawValue, by simp [hf]⟩
  obtain ⟨value, hv⟩ := hval
  have hev := inputEvent_eq a f rawValue value hv
  have hupd := updateCustomerField_ok a.model props ci f value horder hci
  refine ⟨value, props.set (js "customerInfo") (.obj (ci.set f.key (.str value))),
    ci.set f.key (.str value),
    123 :: (serializeMembers
      (props.set (js "customerInfo") (.obj (ci.set f.key (.str value)))) true ++ [125]),
    hv, ?_, ?_, ?_, ?_, find?_set_self _ _ _, find?_set_self _ _ _, ?_, ?_, ?_, ?_⟩
  · rw [hev]
    simp only [handleInputChange, validateInput, hupd]
  · rw [hev]
    simp only [handleInputChange, validateInput, hupd, View.showValidationFeedback,
      input_setInput]
  · rw [hev]
    simp only [handleInputChange, validateInput, hupd, View.showValidationFeedback,
      input_setInput]
  · rw [hev]
    simp only [handleInputChange, validateInput, hupd, Model.saveToLocalStorage]
  · intro key hkey
    exact find?_set_other _ _ _ _ (Ne.symm hkey)
  · intro key hkey
    exact find?_set_other _ _ _ _ (Ne.symm hkey)
  · simp only [JSON.stringify, serializeJSON]
  · rw [hev]
    simp only [handleInputChange, validateInput, hupd, Model.saveToLocalStorage,
      JSON.stringify, serializeJSON, Option.getD_some]


theorem inputEvent_saves_witness :
    (inputEvent freshApp .phone (js "5551234567")).thrown = none ∧
    ((inputEvent freshApp .phone (js "5551234567")).state.view.input .phone).value
      = js "(555) 123-4567" ∧
    ∃ text, (inputEvent freshApp .phone (js "5551234567")).state.model.localStorage = some text := by
  obtain ⟨value, props1, ci1, text, h1, h2, h3, _, _, _, _, _, _, _, h11⟩ :=
    inputEvent_saves freshApp .phone (js "5551234567") _ _ rfl rfl
  simp only [if_true] at h1
  have hv : formatPhoneNumber (js "5551234567") = .ok (js "(555) 123-4567") := by decide
  rw [hv] at h1
  cases h1
  exact ⟨h2, h3, text, h11⟩

/-! ## Controller: reachable states -/

theorem handleInputChange_view (a : App) (f : Field) (value : JSString) :
    (handleInputChange a f value).state.view = a.view := by
  unfold handleInputChange
  split <;> rfl

theorem handleSelectChange_view (a : App) (type itemId : JSString) :
    (handleSelectChange a type itemId).state.view = a.view := by
  unfold handleSelectChange
  split
  · rfl
  · split <;> rfl

/-- Validating the current value of a field keeps the marks in line with the values. -/
theorem validate_consistent (a : App) (f : Field) (value : JSString)
    (h : ∀ g : Field, g ≠ f → (a.view.input g).mark = .isValid →
      (inputs g).pattern.test (a.view.input g).value = true)
    (hvalue : (a.view.input f).value = value) :
    (validateInput a f value (inputs f).pattern (inputs f).format).view.Consistent := by
  intro g hg
  by_cases hgf : g = f
  · subst hgf
    simp only [validateInput, View.showValidationFeedback, input_setInput] at hg ⊢
    by_cases ht : (inputs g).pattern.test value = true
    · rw [hvalue]
      exact ht
    · simp [ht] at hg
  · simp only [validateInput, View.showValidationFeedback, input_setInput_ne _ _ _ _ hgf] at hg ⊢
    exact h g hgf hg

theorem exists_validated (f : Field) (rawValue : JSString) :
    ∃ value, if f = .phone then formatPhoneNumber rawValue = .ok value else value = rawValue := by
  by_cases hf : f = .phone
  · obtain ⟨r, hr⟩ := formatPhoneNumber_total rawValue
    exact ⟨r, by simp [hf, hr]⟩
  · exact ⟨rawValue, by simp [hf]⟩

/-- In every reachable state a field marked valid holds a value that passes its rule. -/
theorem reachable_consistent (a : App) (h : Reachable a) : a.view.Consistent := by
  induction h with
  | load a hmarks =>
    intro f hf
    rw [hmarks f] at hf
    cases hf
  | input a f rawValue _ ih =>
    obtain ⟨value, hv⟩ := exists_validated f rawValue
    rw [inputEvent_eq a f rawValue value hv, handleInputChange_view]
    apply validate_consistent
    · intro g hgf hg
      simp only [input_setInput_ne _ _ _ _ hgf] at hg ⊢
      exact ih g hg
    · simp only [input_setInput]
  | blur a f _ ih =>
    unfold blurHandler
    rw [handleInputChange_view]
    exact validate_consistent a f _ (fun g _ hg => ih g hg) rfl
  | select a type itemId _ ih =>
    rw [handleSelectChange_view]
    exact ih

theorem test_empty (f : Field) : (inputs f).pattern.test [] = false := by
  cases f <;> decide

/-- In a reachable state, three marks `is-valid` make `isFormValid()` true. -/
theorem reachable_isFormValid (a : App) (h : Reachable a)
    (hvalid : ∀ f : Field, (a.view.input f).mark = .isValid) : a.view.isFormValid = true := by
  have hc := reachable_consistent a h
  have hne : ∀ f : Field, (a.view.input f).value.isEmpty = false := by
    intro f
    cases hv : (a.view.input f).value with
    | nil =>
      have := hc f (hvalid f)
      rw [hv, test_empty] at this
      cases this
    | cons c t => rfl
  have h1 := hne .name
  have h2 := hne .phone
  have h3 := hne .address
  have m1 := hvalid .name
  have m2 := hvalid .phone
  have m3 := hvalid .address
  simp only [View.input] at h1 h2 h3 m1 m2 m3
  simp [View.isFormValid, h1, h2, h3, m1, m2, m3]


/-- C8: in a reachable state whose order is an object and whose three fields
are marked valid, `Controller.handleFormSubmit(customerInfo)` ends with the
`confirmedOrder` slot holding the serialization of the order that has the current
selections and the submitted `customerInfo`, with the `currentOrder` key absent
and the page sent to the confirmation view. -/
theorem handleFormSubmit_confirms (a : App) (customerInfo : CustomerInfo) (props : JSProps)
    (hreach : Reachable a) (horder : a.model.currentOrder = .obj props)
    (hvalid : ∀ f : Field, (a.view.input f).mark = .isValid) :
    ∃ order text,
      order.get (js "customerInfo") = .ok customerInfo.toJS ∧
      (∀ key, key ≠ js "customerInfo" → order.get key = (JSValue.obj props).get key) ∧
      JSON.stringify order = some text ∧
      (handleFormSubmit a customerInfo).state.sessionStorage = some text ∧
      (handleFormSubmit a customerInfo).state.model.localStorage = none ∧
      (handleFormSubmit a customerInfo).state.location = some (js "confirmation.html") ∧
      (handleFormSubmit a customerInfo).thrown = none := by
  have hform := reachable_isFormValid a hreach hvalid
  have hproto : js "customerInfo" ≠ js "__proto__" := by decide
  have hupd : a.model.updateCustomerInfo customerInfo = .ok (Model.saveToLocalStorage
      { a.model with
        currentOrder := JSValue.obj (props.set (js "customerInfo") customerInfo.toJS) }) := by
    simp only [Model.updateCustomerInfo, horder, JSValue.set, hproto, false_and, if_false,
      Except.map]
  refine ⟨.obj (props.set (js "customerInfo") customerInfo.toJS),
    123 :: (serializeMembers (props.set (js "customerInfo") customerInfo.toJS) true ++ [125]),
    ?_, ?_, ?_, ?_, ?_, ?_, ?_⟩
  · simp only [JSValue.get, find?_set_self, Option.getD_some]
  · intro key hkey
    simp only [JSValue.get, find?_set_other _ _ _ _ (Ne.symm hkey)]
  · simp only [JSON.stringify, serializeJSON]
  · simp only [handleFormSubmit, hform, if_true, hupd, redirectToConfirmation,
      Model.getCurrentOrder, Model.saveToLocalStorage, JSON.stringify, serializeJSON,
      Option.getD_some]
  · simp only [handleFormSubmit, hform, if_true, hupd, redirectToConfirmation]
  · simp only [handleFormSubmit, hform, if_true, hupd, redirectToConfirmation]
  · simp only [handleFormSubmit, hform, if_true, hupd]

theorem filledApp_reachable : Reachable filledApp :=
  .input _ _ _ (.input _ _ _ (.input _ _ _ (.select _ _ _ (.select _ _ _
    (.load freshApp (fun f => by cases f <;> rfl))))))

theorem filledApp_order : filledApp.model.currentOrder = .obj filledProps := by
  decide!

theorem filledApp_marks : ∀ f : Field, (filledApp.view.input f).mark = .isValid := by
  intro f
  cases f <;> decide!

theorem handleFormSubmit_confirms_witness :
    Reachable filledApp ∧
    (∀ f : Field, (filledApp.view.input f).mark = .isValid) ∧
    (∃ order text,
      order.get (js "customerInfo") = .ok
        (CustomerInfo.toJS ⟨js "Al", js "(555) 123-4567", js "1 Main Street"⟩) ∧
      (∀ key, key ≠ js "customerInfo" → order.get key = (JSValue.obj filledProps).get key) ∧
      JSON.stringify order = some text ∧
      (handleFormSubmit filledApp ⟨js "Al", js "(555) 123-4567", js "1 Main Street"⟩
        ).state.sessionStorage = some text ∧
      (handleFormSubmit filledApp ⟨js "Al", js "(555) 123-4567", js "1 Main Street"⟩
        ).state.model.localStorage = none ∧
      (handleFormSubmit filledApp ⟨js "Al", js "(555) 123-4567", js "1 Main Street"⟩
        ).state.location = some (js "confirmation.html") ∧
      (handleFormSubmit filledApp ⟨js "Al", js "(555) 123-4567", js "1 Main Street"⟩
        ).thrown = none) ∧
    submitEvent filledApp
      = handleFormSubmit filledApp ⟨js "Al", js "(555) 123-4567", js "1 Main Street"⟩ ∧
    (submitEvent filledApp).state.sessionStorage = some filledText ∧
    (submitEvent filledApp).state.model.localStorage = none ∧
    Model.calculateTotal filledApp.model = .ok (js "20.98") :=
  ⟨filledApp_reachable, filledApp_marks,
    handleFormSubmit_confirms filledApp ⟨js "Al", js "(555) 123-4567", js "1 Main Street"⟩
      filledProps filledApp_reachable filledApp_order filledApp_marks,
    by decide!, by decide!, by decide!, by decide!⟩


/-! ## Model: construction over the stored content -/

/-- C4, as the code has it: over an absent key or the empty string the
constructor leaves the default order; over any other string it hands on the
`SyntaxError` of `JSON.parse` when the string is not JSON. -/
theorem new_default_or_syntaxError :
    Model.new none = .ok ⟨defaultOrder, none⟩ ∧
    Model.new (some []) = .ok ⟨defaultOrder, some []⟩ ∧
    (∀ (text : JSString) (e : JSError), text ≠ [] → JSON.parse text = .error e →
      Model.new (some text) = .error e) := by
  refine ⟨rfl, rfl, ?_⟩
  intro text e hne hparse
  cases text with
  | nil => exact absurd rfl hne
  | cons c t =>
    simp only [Model.new, Model.loadFromLocalStorage, List.isEmpty_cons, Bool.false_eq_true,
      if_false, hparse, Except.map]

theorem new_default_or_syntaxError_witness :
    js "not json" ≠ [] ∧ JSON.parse (js "not json") = .error .syntaxError ∧
    Model.new (some (js "not json")) = .error .syntaxError :=
  ⟨by decide, by decide,
    new_default_or_syntaxError.2.2 (js "not json") .syntaxError (by decide) (by decide)⟩

/-- C4 fails as stated: over the malformed content `{` the constructor throws
a `SyntaxError`, and over the content `5`, which is JSON but not an order, it
leaves the number 5 as the current order. -/
theorem new_malformed_throws :
    Model.new (some (js "\x7b")) = .error .syntaxError ∧
    ¬ (∃ m, Model.new (some (js "\x7b")) = .ok m ∧ m.currentOrder = defaultOrder) ∧
    ¬ (∃ m, Model.new (some (js "5")) = .ok m ∧ m.currentOrder = defaultOrder) := by
  have h1 : Model.new (some (js "\x7b")) = .error .syntaxError := by decide
  have h2 : Model.new (some (js "5")) = .ok ⟨.num (F64.ofNat 5), some (js "5")⟩ := by decide!
  refine ⟨h1, ?_, ?_⟩
  · rintro ⟨m, hm, _⟩
    rw [h1] at hm
    cases hm
  · rintro ⟨m, hm, hd⟩
    rw [h2] at hm
    cases hm
    cases hd


/-! ## JSON: strings round trip -/

theorem hexValue_hexDigit : ∀ d, d < 16 → hexValue (hexDigit d) = some d := by
  decide

theorem parse_unicodeEscape (c : Nat) (hc : c < 65536) (tail : JSString)
    (r : JSString × JSString) (h : parseStringBody tail = some r) :
    parseStringBody (unicodeEscape c ++ tail) = some (c :: r.1, r.2) := by
  have h1 := hexValue_hexDigit (c / 4096 % 16) (Nat.mod_lt _ (by decide))
  have h2 := hexValue_hexDigit (c / 256 % 16) (Nat.mod_lt _ (by decide))
  have h3 := hexValue_hexDigit (c / 16 % 16) (Nat.mod_lt _ (by decide))
  have h4 := hexValue_hexDigit (c % 16) (Nat.mod_lt _ (by decide))
  have hsum : c / 4096 % 16 * 4096 + c / 256 % 16 * 256 + c / 16 % 16 * 16 + c % 16 = c := by
    omega
  simp only [unicodeEscape, List.cons_append, List.nil_append, parseStringBody]
  simp [h1, h2, h3, h4, h, hsum]

/-- Reading back what `escapeUnit` writes for one code unit. -/
theorem parse_escapeUnit (c : Nat) (tail : JSString) (r : JSString × JSString)
    (h : parseStringBody tail = some r) :
    parseStringBody (escapeUnit c ++ tail) = some (c :: r.1, r.2) := by
  unfold escapeUnit
  by_cases h8 : c = 8
  · subst h8
    show parseStringBody (92 :: 98 :: tail) = _
    unfold parseStringBody
    simp [h]
  by_cases h9 : c = 9
  · subst h9
    show parseStringBody (92 :: 116 :: tail) = _
    unfold parseStringBody
    simp [h]
  by_cases h10 : c = 10
  · subst h10
    show parseStringBody (92 :: 110 :: tail) = _
    unfold parseStringBody
    simp [h]
  by_cases h12 : c = 12
  · subst h12
    show parseStringBody (92 :: 102 :: tail) = _
    unfold parseStringBody
    simp [h]
  by_cases h13 : c = 13
  · subst h13
    show parseStringBody (92 :: 114 :: tail) = _
    unfold parseStringBody
    simp [h]
  by_cases h34 : c = 34
  · subst h34
    show parseStringBody (92 :: 34 :: tail) = _
    unfold parseStringBody
    simp [h]
  by_cases h92 : c = 92
  · subst h92
    show parseStringBody (92 :: 92 :: tail) = _
    unfold parseStringBody
    simp [h]
  simp only [h8, h9, h10, h12, h13, h34, h92, if_false]
  by_cases hesc : (decide (c < 32) || isHighSurrogate c || isLowSurrogate c) = true
  · simp only [hesc, if_true]
    apply parse_unicodeEscape _ _ _ _ h
    simp only [Bool.or_eq_true, decide_eq_true_eq, isHighSurrogate, isLowSurrogate,
      Bool.and_eq_true] at hesc
    omega
  · simp only [hesc, Bool.false_eq_true, if_false]
    simp only [Bool.or_eq_true, decide_eq_true_eq, not_or] at hesc
    have h32 : ¬ c < 32 := hesc.1.1
    show parseStringBody (c :: tail) = _
    unfold parseStringBody
    simp [h34, h92, h32, h]

theorem parse_raw (c : Nat) (h34 : c ≠ 34) (h92 : c ≠ 92) (h32 : ¬ c < 32) (tail : JSString)
    (r : JSString × JSString) (h : parseStringBody tail = some r) :
    parseStringBody (c :: tail) = some (c :: r.1, r.2) := by
  unfold parseStringBody
  simp [h34, h92, h32, h]

theorem parse_closing (rest : JSString) : parseStringBody (34 :: rest) = some ([], rest) := by
  unfold parseStringBody
  simp

/-- Reading back the body of a quoted string, up to the closing quote. -/
theorem parse_quoteBody : ∀ (s rest : JSString),
    parseStringBody (quoteBody s ++ 34 :: rest) = some (s, rest)
  | [], rest => by
    simp only [quoteBody, List.nil_append]
    exact parse_closing rest
  | [c], rest => by
    simp only [quoteBody]
    exact parse_escapeUnit c (34 :: rest) ([], rest) (parse_closing rest)
  | c :: d :: s, rest => by
    have ih1 := parse_quoteBody s rest
    have ih2 := parse_quoteBody (d :: s) rest
    simp only [quoteBody]
    split
    · rename_i hpair
      simp only [Bool.and_eq_true, isHighSurrogate, isLowSurrogate, decide_eq_true_eq] at hpair
      have hd := parse_raw d (by omega) (by omega) (by omega) _ _ ih1
      exact parse_raw c (by omega) (by omega) (by omega) _ _ hd
    · rw [List.append_assoc]
      exact parse_escapeUnit c _ (d :: s, rest) ih2

/-- `JSON.parse` reads a quoted string back as the string. -/
theorem parseValue_quoted (fuel : Nat) (s rest : JSString) :
    parseValue (fuel + 1) (quoteJSONString s ++ rest) = some (.str s, rest) := by
  have h := parse_quoteBody s rest
  unfold parseValue
  simp only [quoteJSONString, List.cons_append, List.append_assoc, List.singleton_append,
    skipSpace]
  have hsp : isJSONSpace 34 = false := by decide
  simp [List.dropWhile, hsp, h]


/-! ## JSON: numbers followed by a delimiter -/

theorem takeWhile_append_stop (p : Nat → Bool) (t : JSString) (c : Nat) (tail : JSString)
    (hc : p c = false) :
    (t ++ c :: tail).takeWhile p = t.takeWhile p ∧
    (t ++ c :: tail).dropWhile p = t.dropWhile p ++ c :: tail := by
  induction t with
  | nil => simp [List.takeWhile, List.dropWhile, hc]
  | cons d t ih =>
    by_cases hd : p d = true
    · simp [List.takeWhile, List.dropWhile, hd, ih]
    · simp [List.takeWhile, List.dropWhile, hd]

theorem parseFraction_append (u : JSString) (c : Nat) (tail : JSString)
    (r : JSString × JSString) (hd : isDigit c = false) (h46 : c ≠ 46)
    (h : parseFraction u = some r) :
    parseFraction (u ++ c :: tail) = some (r.1, r.2 ++ c :: tail) := by
  cases u with
  | nil =>
    simp only [parseFraction, Option.some.injEq] at h
    subst h
    simp [parseFraction, h46]
  | cons d t =>
    have hw := takeWhile_append_stop isDigit t c tail hd
    simp only [parseFraction, List.cons_append] at h ⊢
    by_cases h46d : d = 46
    · simp only [h46d, if_true, hw.1, hw.2] at h ⊢
      split at h
      · cases h
      · rename_i hne
        simp only [Option.some.injEq] at h
        subst h
        simp [hne]
    · simp only [h46d, if_false, Option.some.injEq] at h ⊢
      subst h
      rfl

theorem parseExponent_append (u : JSString) (c : Nat) (tail : JSString)
    (r : Int × JSString) (hd : isDigit c = false) (h101 : c ≠ 101) (h69 : c ≠ 69)
    (h : parseExponent u = some r) :
    parseExponent (u ++ c :: tail) = some (r.1, r.2 ++ c :: tail) := by
  cases u with
  | nil =>
    simp only [parseExponent, Option.some.injEq] at h
    subst h
    simp [parseExponent, h101, h69]
  | cons d t =>
    simp only [parseExponent, List.cons_append] at h ⊢
    by_cases he : d = 101 ∨ d = 69
    · simp only [he, if_true] at h ⊢
      cases t with
      | nil => simp at h
      | cons s t' =>
        simp only [List.cons_append, List.head?_cons] at h ⊢
        by_cases hs : (some s == some 45) = true ∨ (some s == some 43) = true
        · simp only [hs, if_true, List.drop_one, List.tail_cons] at h ⊢
          have hw := takeWhile_append_stop isDigit t' c tail hd
          simp only [hw.1, hw.2]
          split at h
          · cases h
          · rename_i hne
            simp only [Option.some.injEq] at h
            subst h
            simp [hne]
        · simp only [hs, if_false] at h ⊢
          have hw := takeWhile_append_stop isDigit (s :: t') c tail hd
          simp only [List.cons_append] at hw
          simp only [hw.1, hw.2]
          split at h
          · cases h
          · rename_i hne
            simp only [Option.some.injEq] at h
            subst h
            simp [hne]
    · simp only [he, if_false, Option.some.injEq] at h ⊢
      subst h
      rfl


/-- The body of `parseNumber` after the sign, in front of a delimiter. -/
theorem parseNumber_append_aux (neg : Bool) (a : Nat) (t : JSString) (c : Nat)
    (tail : JSString) (x : F64) (r : JSString)
    (hd : isDigit c = false) (h46 : c ≠ 46) (h101 : c ≠ 101) (h69 : c ≠ 69)
    (h : (if ¬ isDigit a then none
      else
        match parseFraction (if a = 48 then t else t.dropWhile isDigit) with
        | none => none
        | some (frac, t1) =>
          match parseExponent t1 with
          | none => none
          | some (ex, t2) =>
            some (if 0 ≤ ex - (frac.length : Int) then
                F64.ofRat neg
                  (digitsValue ((if a = 48 then [a] else a :: t.takeWhile isDigit) ++ frac) *
                    10 ^ (ex - (frac.length : Int)).toNat) 1
              else F64.ofRat neg
                (digitsValue ((if a = 48 then [a] else a :: t.takeWhile isDigit) ++ frac))
                (10 ^ (-(ex - (frac.length : Int))).toNat), t2)) = some (x, r)) :
    (if ¬ isDigit a then none
      else
        match parseFraction (if a = 48 then t ++ c :: tail
          else (t ++ c :: tail).dropWhile isDigit) with
        | none => none
        | some (frac, t1) =>
          match parseExponent t1 with
          | none => none
          | some (ex, t2) =>
            some (if 0 ≤ ex - (frac.length : Int) then
                F64.ofRat neg
                  (digitsValue ((if a = 48 then [a]
                    else a :: (t ++ c :: tail).takeWhile isDigit) ++ frac) *
                    10 ^ (ex - (frac.length : Int)).toNat) 1
              else F64.ofRat neg
                (digitsValue ((if a = 48 then [a]
                  else a :: (t ++ c :: tail).takeWhile isDigit) ++ frac))
                (10 ^ (-(ex - (frac.length : Int))).toNat), t2)) = some (x, r ++ c :: tail) := by
  have hw := takeWhile_append_stop isDigit t c tail hd
  rw [hw.1, hw.2]
  have hsame : (if a = 48 then t ++ c :: tail else t.dropWhile isDigit ++ c :: tail)
      = (if a = 48 then t else t.dropWhile isDigit) ++ c :: tail := by
    split <;> rfl
  rw [hsame]
  generalize (if a = 48 then t else t.dropWhile isDigit) = u at h ⊢
  split at h
  · cases h
  · rename_i hdig
    rw [if_neg hdig]
    cases hf : parseFraction u with
    | none => simp [hf] at h
    | some fr =>
      obtain ⟨frac, t1⟩ := fr
      rw [hf] at h
      rw [parseFraction_append u c tail (frac, t1) hd h46 hf]
      simp only at h ⊢
      cases he : parseExponent t1 with
      | none => simp [he] at h
      | some er =>
        obtain ⟨ex, t2⟩ := er
        rw [he] at h
        rw [parseExponent_append t1 c tail (ex, t2) hd h101 h69 he]
        simp only [Option.some.injEq, Prod.mk.injEq] at h ⊢
        exact ⟨h.1, by rw [h.2]⟩

/-- A number that is read from a text is read the same when a character that
cannot continue a number follows. -/
theorem parseNumber_append (s : JSString) (c : Nat) (tail : JSString) (x : F64) (r : JSString)
    (hd : isDigit c = false) (h46 : c ≠ 46) (h101 : c ≠ 101) (h69 : c ≠ 69)
    (h : parseNumber s = some (x, r)) :
    parseNumber (s ++ c :: tail) = some (x, r ++ c :: tail) := by
  cases s with
  | nil => simp [parseNumber] at h
  | cons a s1 =>
    by_cases hneg : a = 45
    · subst hneg
      cases s1 with
      | nil => simp [parseNumber] at h
      | cons b t =>
        simp only [parseNumber, List.head?_cons, beq_self_eq_true, if_true, List.drop_one,
          List.tail_cons, List.cons_append] at h ⊢
        exact parseNumber_append_aux true b t c tail x r hd h46 h101 h69 h
    · have hb : (some a == some 45) = false := by simp [hneg]
      simp only [parseNumber, List.head?_cons, hb, Bool.false_eq_true, if_false,
        List.cons_append] at h ⊢
      exact parseNumber_append_aux false a s1 c tail x r hd h46 h101 h69 h


/-! ## JSON: values that are read back -/

theorem readable_mono (n m : Nat) (v : JSValue) (h : Readable n v) (hnm : n ≤ m) :
    Readable m v := by
  obtain ⟨text, hs, hp⟩ := h
  refine ⟨text, hs, fun fuel c tail hc => ?_⟩
  have := hp (fuel + (m - n)) c tail hc
  have e : fuel + (m - n) + n = fuel + m := by omega
  rw [e] at this
  exact this

theorem readable_str (s : JSString) : Readable 1 (.str s) :=
  ⟨quoteJSONString s, rfl, fun fuel _ _ _ => parseValue_quoted fuel s _⟩

theorem readable_null : Readable 1 .null := by
  refine ⟨js "null", rfl, fun fuel c tail _ => ?_⟩
  show parseValue (fuel + 1) (110 :: 117 :: 108 :: 108 :: c :: tail) = _
  unfold parseValue
  simp [skipSpace, List.dropWhile, isJSONSpace, js, dropPrefix?]

/-- A finite Number whose text is read back as the Number is readable. -/
theorem readable_num (neg : Bool) (m : Nat)
    (h : parseNumber (F64.fin neg m).toJSString = some (.fin neg m, [])) :
    Readable 1 (.num (.fin neg m)) := by
  refine ⟨(F64.fin neg m).toJSString, rfl, fun fuel c tail hc => ?_⟩
  have hd : isDigit c = false := by rcases hc with h | h <;> subst h <;> decide
  have happ := parseNumber_append _ c tail _ _ hd (by omega) (by omega) (by omega) h
  generalize (F64.fin neg m).toJSString = text at h happ
  cases text with
  | nil => simp [parseNumber] at h
  | cons a t =>
    have ha : a = 45 ∨ isDigit a = true := by
      by_cases h45 : a = 45
      · exact Or.inl h45
      · right
        have hb : (some a == some 45) = false := by simp [h45]
        simp only [parseNumber, List.head?_cons, hb, Bool.false_eq_true, if_false] at h
        by_contra hnd
        simp [hnd] at h
    have hcode : 45 ≤ a ∧ a ≤ 57 := by
      rcases ha with h1 | h1
      · omega
      · simp [isDigit] at h1
        omega
    have hsp : isJSONSpace a = false := by
      simp [isJSONSpace]
      omega
    unfold parseValue
    simp only [List.cons_append, skipSpace, List.dropWhile, hsp]
    have h1 : a ≠ 123 := by omega
    have h2 : a ≠ 91 := by omega
    have h3 : a ≠ 34 := by omega
    have h4 : a ≠ 116 := by omega
    have h5 : a ≠ 102 := by omega
    have h6 : a ≠ 110 := by omega
    simp only [h1, h2, h3, h4, h5, h6, if_false]
    simp only [List.cons_append] at happ
    simp [happ]


/-! ## JSON: objects are read back -/

theorem skipSpace_quote (k rest : JSString) :
    skipSpace (quoteJSONString k ++ rest) = quoteJSONString k ++ rest := by
  simp [skipSpace, quoteJSONString, List.dropWhile, isJSONSpace]

theorem skipSpace_delim (c : Nat) (tail : JSString) (hc : c = 44 ∨ c = 125 ∨ c = 58) :
    skipSpace (c :: tail) = c :: tail := by
  rcases hc with h | h | h <;> subst h <;> simp [skipSpace, List.dropWhile, isJSONSpace]

/-- The members after the first one start with a comma. -/
theorem serializeMembers_false (k : JSString) (v : JSValue) (rest : JSProps) (text : JSString)
    (hv : serializeJSON v = some text) :
    serializeMembers (.cons k v rest) false = 44 :: serializeMembers (.cons k v rest) true := by
  simp [serializeMembers, hv]

/-- One member in front of the rest of the object text. -/
theorem parseMembers_step (fuel : Nat) (k : JSString) (v : JSValue) (text more : JSString)
    (c : Nat) (acc : JSProps) (hc : c = 44 ∨ c = 125)
    (hv : parseValue fuel (text ++ c :: more) = some (v, c :: more)) :
    parseMembers (fuel + 1) (quoteJSONString k ++ [58] ++ text ++ c :: more) acc
      = if c = 44 then parseMembers fuel more (acc.set k v) else some (acc.set k v, more) := by
  have hk := parse_quoteBody k (58 :: (text ++ c :: more))
  have e : quoteJSONString k ++ [58] ++ text ++ c :: more
      = 34 :: (quoteBody k ++ 34 :: 58 :: (text ++ c :: more)) := by
    simp [quoteJSONString]
  rw [e]
  conv_lhs => unfold parseMembers
  have hsp : skipSpace (34 :: (quoteBody k ++ 34 :: 58 :: (text ++ c :: more)))
      = 34 :: (quoteBody k ++ 34 :: 58 :: (text ++ c :: more)) := by
    simp [skipSpace, List.dropWhile, isJSONSpace]
  simp only [hsp, hk, ne_eq, not_true_eq_false, if_false,
    skipSpace_delim 58 _ (Or.inr (Or.inr rfl)), hv]
  rcases hc with h | h
  · subst h
    simp [skipSpace_delim 44 more (Or.inl rfl)]
  · subst h
    simp [skipSpace_delim 125 more (Or.inr (Or.inl rfl))]

/-- The members of an object whose values are readable are read back in order. -/
theorem parseMembers_all (n : Nat) : ∀ (rest : JSProps) (k : JSString) (v : JSValue)
    (acc : JSProps) (fuel : Nat) (tail : JSString), Readable n v → rest.All (Readable n) →
    parseMembers (fuel + n + rest.length + 1)
      (serializeMembers (.cons k v rest) true ++ 125 :: tail) acc
      = some ((acc.set k v).setAll rest, tail)
  | .nil, k, v, acc, fuel, tail, hv, _ => by
    obtain ⟨text, hs, hp⟩ := hv
    have e : serializeMembers (.cons k v .nil) true ++ 125 :: tail
        = quoteJSONString k ++ [58] ++ text ++ 125 :: tail := by
      simp [serializeMembers, hs]
    rw [e]
    have := parseMembers_step (fuel + n) k v text tail 125 acc (Or.inr rfl)
      (hp fuel 125 tail (Or.inr rfl))
    simp only [JSProps.length, Nat.add_zero]
    rw [this]
    simp [JSProps.setAll]
  | .cons k1 v1 rest1, k, v, acc, fuel, tail, hv, hrest => by
    obtain ⟨text, hs, hp⟩ := hv
    obtain ⟨text1, hs1, _⟩ := hrest.1
    have e : serializeMembers (.cons k v (.cons k1 v1 rest1)) true ++ 125 :: tail
        = quoteJSONString k ++ [58] ++ text
          ++ 44 :: (serializeMembers (.cons k1 v1 rest1) true ++ 125 :: tail) := by
      have := serializeMembers_false k1 v1 rest1 text1 hs1
      rw [serializeMembers, hs]
      simp only [this]
      simp
    rw [e]
    have hfuel : fuel + n + (JSProps.cons k1 v1 rest1).length + 1
        = (fuel + rest1.length + 1 + n) + 1 := by
      simp only [JSProps.length]
      omega
    rw [hfuel]
    rw [parseMembers_step _ k v text _ 44 acc (Or.inl rfl) (hp _ 44 _ (Or.inl rfl))]
    simp only [if_true]
    have hfuel2 : fuel + rest1.length + 1 + n = fuel + n + rest1.length + 1 := by omega
    rw [hfuel2, parseMembers_all n rest1 k1 v1 (acc.set k v) fuel tail hrest.1 hrest.2]
    simp [JSProps.setAll]


theorem append_nil : ∀ (a : JSProps), a.append .nil = a
  | .nil => rfl
  | .cons k v rest => by simp [JSProps.append, append_nil rest]

theorem append_cons : ∀ (a : JSProps) (k : JSString) (v : JSValue) (rest : JSProps),
    (a.append (.cons k v .nil)).append rest = a.append (.cons k v rest)
  | .nil, _, _, _ => rfl
  | .cons k1 v1 a1, k, v, rest => by simp [JSProps.append, append_cons a1 k v rest]

theorem find?_append_none : ∀ (a b : JSProps) (key : JSString),
    (a.append b).find? key = none → a.find? key = none ∧ b.find? key = none
  | .nil, b, key, h => ⟨rfl, h⟩
  | .cons k v a1, b, key, h => by
    by_cases hk : k = key
    · simp [JSProps.append, JSProps.find?, hk] at h
    · simp only [JSProps.append, JSProps.find?, hk, if_false] at h ⊢
      exact find?_append_none a1 b key h

theorem set_append : ∀ (a : JSProps) (k : JSString) (v : JSValue), a.find? k = none →
    a.set k v = a.append (.cons k v .nil)
  | .nil, _, _, _ => rfl
  | .cons k1 v1 a1, k, v, h => by
    by_cases hk : k1 = k
    · simp [JSProps.find?, hk] at h
    · simp only [JSProps.find?, hk, if_false] at h
      simp [JSProps.set, JSProps.append, hk, set_append a1 k v h]

theorem nodup_append_find : ∀ (a : JSProps) (k : JSString) (v : JSValue) (rest : JSProps),
    (a.append (.cons k v rest)).NoDupKeys → a.find? k = none
  | .nil, _, _, _, _ => rfl
  | .cons k1 v1 a1, k, v, rest, h => by
    simp only [JSProps.append, JSProps.NoDupKeys] at h
    have h1 := (find?_append_none a1 (.cons k v rest) k1 h.1).2
    have hk : k1 ≠ k := by
      intro e
      subst e
      simp [JSProps.find?] at h1
    simp only [JSProps.find?, hk, if_false]
    exact nodup_append_find a1 k v rest h.2

/-- Defining properties with distinct new keys appends them. -/
theorem setAll_append : ∀ (ps acc : JSProps), (acc.append ps).NoDupKeys →
    acc.setAll ps = acc.append ps
  | .nil, acc, _ => by simp [JSProps.setAll, append_nil]
  | .cons k v rest, acc, h => by
    have hfind := nodup_append_find acc k v rest h
    have h2 : ((acc.append (.cons k v .nil)).append rest).NoDupKeys := by
      rw [append_cons]
      exact h
    simp only [JSProps.setAll, set_append acc k v hfind]
    rw [setAll_append rest _ h2, append_cons]

/-- The text of an object with distinct keys and readable values is read back
as the object, whatever follows. -/
theorem parse_obj (n : Nat) (ps : JSProps) (hall : ps.All (Readable n))
    (hnd : ps.NoDupKeys) (fuel : Nat) (tail : JSString) :
    parseValue (fuel + (n + ps.length + 2)) (123 :: (serializeMembers ps true ++ [125]) ++ tail)
      = some (.obj ps, tail) := by
  cases ps with
  | nil =>
    have e : fuel + (n + JSProps.nil.length + 2) = (fuel + n + 1) + 1 := by
      simp only [JSProps.length]
      omega
    rw [e]
    unfold parseValue
    simp [serializeMembers, skipSpace, List.dropWhile, isJSONSpace]
  | cons k v rest =>
    have e : fuel + (n + (JSProps.cons k v rest).length + 2)
        = (fuel + 1 + n + rest.length + 1) + 1 := by
      simp only [JSProps.length]
      omega
    rw [e]
    obtain ⟨text, hs, _⟩ := hall.1
    have hm := parseMembers_all n rest k v .nil (fuel + 1) (tail) hall.1 hall.2
    have hset : (JSProps.nil.set k v).setAll rest = .cons k v rest := by
      have := setAll_append (.cons k v rest) .nil hnd
      simpa [JSProps.setAll, JSProps.append] using this
    rw [hset] at hm
    have hshape : serializeMembers (.cons k v rest) true
        = 34 :: (quoteBody k ++ 34 :: 58 :: (text ++ serializeMembers rest false)) := by
      simp [serializeMembers, hs, quoteJSONString]
    have htext : 123 :: (serializeMembers (.cons k v rest) true ++ [125]) ++ tail
        = 123 :: (serializeMembers (.cons k v rest) true ++ 125 :: tail) := by
      simp
    rw [htext]
    conv_lhs => unfold parseValue
    have hsp1 : skipSpace (123 :: (serializeMembers (.cons k v rest) true ++ 125 :: tail))
        = 123 :: (serializeMembers (.cons k v rest) true ++ 125 :: tail) := by
      simp [skipSpace, List.dropWhile, isJSONSpace]
    have hsp2 : skipSpace (serializeMembers (.cons k v rest) true ++ 125 :: tail)
        = 34 :: (quoteBody k ++ 34 :: 58 :: (text ++ serializeMembers rest false)
            ++ 125 :: tail) := by
      rw [hshape]
      simp [skipSpace, List.dropWhile, isJSONSpace]
    simp only [hsp1, if_true, hsp2]
    have h34 : (34 : Nat) ≠ 125 := by decide
    simp only [h34, if_false]
    rw [hshape] at hm
    simp only [List.cons_append] at hm
    rw [hm]
    rfl

/-- An object with distinct keys and readable values is readable. -/
theorem readable_obj (n : Nat) (ps : JSProps) (hall : ps.All (Readable n))
    (hnd : ps.NoDupKeys) : Readable (n + ps.length + 2) (.obj ps) :=
  ⟨123 :: (serializeMembers ps true ++ [125]), by simp [serializeJSON],
    fun fuel c tail _ => parse_obj n ps hall hnd fuel (c :: tail)⟩


/-! ## JSON: plain values are read back -/

theorem all_mono (P Q : JSValue → Prop) (h : ∀ v, P v → Q v) : ∀ ps : JSProps,
    ps.All P → ps.All Q
  | .nil, _ => trivial
  | .cons _ v rest, hp => ⟨h v hp.1, all_mono P Q h rest hp.2⟩

theorem readable_num_reads (x : F64) (h : numReads x = true) : Readable 1 (.num x) := by
  cases x with
  | nan => simp [numReads] at h
  | inf neg => simp [numReads] at h
  | fin neg m =>
    simp only [numReads, decide_eq_true_eq] at h
    exact readable_num neg m h

mutual
/-- A plain value is readable at its level. -/
theorem readable_plain : ∀ v : JSValue, v.Plain → Readable v.level v
  | .null, _ => readable_null
  | .str s, _ => readable_str s
  | .num x, h => readable_num_reads x h
  | .obj props, h => by
    have := readable_obj props.maxLevel props (all_readable props h.2) h.1
    simpa [JSValue.level] using this
  | .undefined, h => by simp [JSValue.Plain] at h
  | .bool _, h => by simp [JSValue.Plain] at h
  | .arr _, h => by simp [JSValue.Plain] at h
/-- The values of plain properties are readable at the largest level. -/
theorem all_readable : ∀ ps : JSProps, ps.PlainAll → ps.All (Readable ps.maxLevel)
  | .nil, _ => trivial
  | .cons _ v rest, h =>
    ⟨readable_mono _ _ _ (readable_plain v h.1) (Nat.le_max_left _ _),
      all_mono _ _ (fun _ hw => readable_mono _ _ _ hw (Nat.le_max_right _ _)) rest
        (all_readable rest h.2)⟩
end


/-! ## JSON: the fuel of `JSON.parse` suffices -/

theorem plain_text (v : JSValue) (h : v.Plain) : ∃ text, serializeJSON v = some text :=
  (readable_plain v h).imp fun _ ht => ht.1

theorem serializeMembers_cons_length (k : JSString) (v : JSValue) (rest : JSProps) (b : Bool)
    (text : JSString) (hv : serializeJSON v = some text) :
    text.length + (serializeMembers rest false).length + 3
      ≤ (serializeMembers (.cons k v rest) b).length := by
  simp only [serializeMembers, hv, List.length_append, quoteJSONString, List.length_cons,
    List.length_singleton]
  omega

mutual
/-- The level of a plain value is at most the length of its text plus one. -/
theorem level_le_length : ∀ (v : JSValue) (text : JSString), v.Plain →
    serializeJSON v = some text → v.level ≤ text.length + 1
  | .obj props, text, h, ht => by
    have := maxLevel_le_length props false h.2
    have hb : (serializeMembers props true).length + 1 ≥ (serializeMembers props false).length := by
      cases props with
      | nil => simp [serializeMembers]
      | cons k v rest =>
        obtain ⟨t, hs⟩ := plain_text v h.2.1
        simp [serializeMembers, hs]
    simp only [serializeJSON, Option.some.injEq] at ht
    subst ht
    simp only [Bool.false_eq_true, if_false] at this
    simp only [JSValue.level, List.length_cons, List.length_append, List.length_singleton,
      List.length_nil]
    omega
  | .null, _, _, _ => by simp [JSValue.level]
  | .str _, _, _, _ => by simp [JSValue.level]
  | .num _, _, _, _ => by simp [JSValue.level]
  | .undefined, _, _, _ => by simp [JSValue.level]
  | .bool _, _, _, _ => by simp [JSValue.level]
  | .arr _, _, _, _ => by simp [JSValue.level]
/-- The levels and the number of plain properties fit in the text of the members. -/
theorem maxLevel_le_length : ∀ (ps : JSProps) (b : Bool), ps.PlainAll →
    ps.maxLevel + ps.length + (if b then 0 else 1) ≤ (serializeMembers ps b).length + 1
  | .nil, b, _ => by cases b <;> simp [JSProps.maxLevel, JSProps.length, serializeMembers]
  | .cons k v rest, b, h => by
    obtain ⟨t, hs⟩ := plain_text v h.1
    have h1 := level_le_length v t h.1 hs
    have h2 := maxLevel_le_length rest false h.2
    have h3 := serializeMembers_cons_length k v rest b t hs
    simp only [JSProps.maxLevel, JSProps.length]
    simp only [if_false] at h2
    have hmax : max v.level rest.maxLevel ≤ v.level + rest.maxLevel := by omega
    rcases Nat.le_total v.level rest.maxLevel with hle | hle
    · rw [Nat.max_eq_right hle]
      split <;> omega
    · rw [Nat.max_eq_left hle]
      split <;> omega
end


/-- `JSON.parse` reads the text of a plain object back as the object. -/
theorem parse_stringify_obj (ps : JSProps) (h : (JSValue.obj ps).Plain) :
    ∃ text, JSON.stringify (.obj ps) = some text ∧ text ≠ [] ∧
      JSON.parse text = .ok (.obj ps) := by
  refine ⟨123 :: (serializeMembers ps true ++ [125]), by simp [JSON.stringify, serializeJSON],
    by simp, ?_⟩
  have hlevel := level_le_length (.obj ps) (123 :: (serializeMembers ps true ++ [125])) h
    (by simp [serializeJSON])
  simp only [JSValue.level] at hlevel
  have hp := parse_obj ps.maxLevel ps (all_readable ps h.2) h.1
    ((123 :: (serializeMembers ps true ++ [125])).length + 1 - (ps.maxLevel + ps.length + 2)) []
  have e : (123 :: (serializeMembers ps true ++ [125])).length + 1
        - (ps.maxLevel + ps.length + 2) + (ps.maxLevel + ps.length + 2)
      = (123 :: (serializeMembers ps true ++ [125])).length + 1 := by omega
  rw [e, List.append_nil] at hp
  unfold JSON.parse
  rw [hp]
  rfl

/-! ## Model: what is saved and what is loaded -/

theorem serializeJSON_defined (v : JSValue) (h : v ≠ .undefined) :
    ∃ text, serializeJSON v = some text := by
  cases v with
  | undefined => exact absurd rfl h
  | null => exact ⟨_, rfl⟩
  | bool b => exact ⟨_, rfl⟩
  | num x => cases x <;> exact ⟨_, rfl⟩
  | str s => exact ⟨_, rfl⟩
  | arr items => exact ⟨_, rfl⟩
  | obj props => exact ⟨_, rfl⟩

/-- `JSON.stringify` writes an object as it writes its defined properties. -/
theorem serializeMembers_defined : ∀ (ps : JSProps) (b : Bool),
    serializeMembers ps b = serializeMembers ps.defined b
  | .nil, _ => rfl
  | .cons k v rest, b => by
    by_cases hv : v = .undefined
    · subst hv
      simp only [serializeMembers, serializeJSON, JSProps.defined, if_true]
      exact serializeMembers_defined rest b
    · obtain ⟨t, ht⟩ := serializeJSON_defined v hv
      simp only [serializeMembers, ht, JSProps.defined, hv, if_false,
        serializeMembers_defined rest false]

theorem defined_find_none : ∀ (ps : JSProps) (key : JSString), ps.find? key = none →
    ps.defined.find? key = none
  | .nil, _, _ => rfl
  | .cons k v rest, key, h => by
    by_cases hk : k = key
    · simp [JSProps.find?, hk] at h
    · simp only [JSProps.find?, hk, if_false] at h
      by_cases hv : v = .undefined
      · simp only [JSProps.defined, hv, if_true]
        exact defined_find_none rest key h
      · simp only [JSProps.defined, hv, if_false, JSProps.find?, hk]
        exact defined_find_none rest key h

/-- Reading a property of the defined part gives what reading it of the whole gives. -/
theorem defined_get : ∀ (ps : JSProps) (key : JSString), ps.NoDupKeys →
    (ps.defined.find? key).getD .undefined = (ps.find? key).getD .undefined
  | .nil, _, _ => rfl
  | .cons k v rest, key, h => by
    have ih := defined_get rest key h.2
    by_cases hv : v = .undefined
    · subst hv
      simp only [JSProps.defined, if_true]
      by_cases hk : k = key
      · subst hk
        simp [JSProps.find?, defined_find_none rest k h.1]
      · simp only [JSProps.find?, hk, if_false]
        exact ih
    · simp only [JSProps.defined, hv, if_false]
      by_cases hk : k = key
      · simp [JSProps.find?, hk]
      · simp only [JSProps.find?, hk, if_false]
        exact ih

theorem defined_storable : ∀ (ps : JSProps), ps.Storable →
    ps.defined.NoDupKeys ∧ ps.defined.PlainAll
  | .nil, _ => ⟨trivial, trivial⟩
  | .cons k v rest, h => by
    have ih := defined_storable rest ⟨h.1.2, h.2.2⟩
    by_cases hv : v = .undefined
    · simp only [JSProps.defined, hv, if_true]
      exact ih
    · simp only [JSProps.defined, hv, if_false]
      refine ⟨⟨defined_find_none rest k h.1.1, ih.1⟩, ?_, ih.2⟩
      rcases h.2.1 with h1 | h1
      · exact absurd h1 hv
      · exact h1


/-- Saving a storable order and loading it again yields its defined part. -/
theorem load_save_storable (ps : JSProps) (h : ps.Storable) (storage : Option JSString) :
    Model.loadFromLocalStorage (Model.saveToLocalStorage ⟨.obj ps, storage⟩)
      = .ok ⟨.obj ps.defined, (Model.saveToLocalStorage ⟨.obj ps, storage⟩).localStorage⟩ := by
  have hplain : (JSValue.obj ps.defined).Plain := defined_storable ps h
  obtain ⟨text, hs, hne, hp⟩ := parse_stringify_obj ps.defined hplain
  have hsame : JSON.stringify (.obj ps) = some text := by
    simp only [JSON.stringify, serializeJSON, serializeMembers_defined ps true] at hs ⊢
    exact hs
  have hempty : text.isEmpty = false := by
    cases text with
    | nil => exact absurd rfl hne
    | cons c t => rfl
  simp only [Model.saveToLocalStorage, Model.loadFromLocalStorage, hsame, Option.getD_some,
    hempty, Bool.false_eq_true, if_false, hp, Except.map]

theorem nodup_set : ∀ (ps : JSProps) (k : JSString) (v : JSValue), ps.NoDupKeys →
    (ps.set k v).NoDupKeys
  | .nil, _, _, _ => ⟨rfl, trivial⟩
  | .cons k1 w rest, k, v, h => by
    by_cases hk : k1 = k
    · simp only [JSProps.set, hk, if_true]
      subst hk
      exact h
    · simp only [JSProps.set, hk, if_false]
      refine ⟨?_, nodup_set rest k v h.2⟩
      rw [find?_set_other rest k k1 v (Ne.symm hk)]
      exact h.1

theorem all_set (P : JSValue → Prop) : ∀ (ps : JSProps) (k : JSString) (v : JSValue),
    ps.All P → P v → (ps.set k v).All P
  | .nil, _, _, _, hv => ⟨hv, trivial⟩
  | .cons k1 w rest, k, v, h, hv => by
    by_cases hk : k1 = k
    · simp only [JSProps.set, hk, if_true]
      exact ⟨hv, h.2⟩
    · simp only [JSProps.set, hk, if_false]
      exact ⟨h.1, all_set P rest k v h.2 hv⟩

theorem all_find (P : JSValue → Prop) : ∀ (ps : JSProps) (k : JSString) (v : JSValue),
    ps.All P → ps.find? k = some v → P v
  | .nil, _, _, _, h => by simp [JSProps.find?] at h
  | .cons k1 w rest, k, v, h, hf => by
    by_cases hk : k1 = k
    · simp only [JSProps.find?, hk, if_true, Option.some.injEq] at hf
      subst hf
      exact h.1
    · simp only [JSProps.find?, hk, if_false] at hf
      exact all_find P rest k v h.2 hf

theorem plainAll_set : ∀ (ps : JSProps) (k : JSString) (v : JSValue),
    ps.PlainAll → v.Plain → (ps.set k v).PlainAll
  | .nil, _, _, _, hv => ⟨hv, trivial⟩
  | .cons k1 w rest, k, v, h, hv => by
    by_cases hk : k1 = k
    · simp only [JSProps.set, hk, if_true]
      exact ⟨hv, h.2⟩
    · simp only [JSProps.set, hk, if_false]
      exact ⟨h.1, plainAll_set rest k v h.2 hv⟩

theorem storable_set (ps : JSProps) (k : JSString) (v : JSValue) (h : ps.Storable)
    (hv : v = .undefined ∨ v.Plain) : (ps.set k v).Storable :=
  ⟨nodup_set ps k v h.1, all_set _ ps k v h.2 hv⟩

theorem items_numReads : ∀ item ∈ allItems,
    numReads (F64.ofNat item.id) = true ∧ numReads item.price.toF64 = true := by
  decide!

/-- The object of a menu item is plain. -/
theorem item_plain (item : MenuItem) (h : item ∈ allItems) : item.toJS.Plain := by
  have hn := items_numReads item h
  have k1 : js "name" ≠ js "id" := by decide
  have k2 : js "price" ≠ js "id" := by decide
  have k3 : js "image" ≠ js "id" := by decide
  have k4 : js "price" ≠ js "name" := by decide
  have k5 : js "image" ≠ js "name" := by decide
  have k6 : js "image" ≠ js "price" := by decide
  simp [MenuItem.toJS, JSValue.Plain, JSProps.PlainAll, JSProps.NoDupKeys, JSProps.find?,
    hn.1, hn.2, k1, k2, k3, k4, k5, k6]

theorem info_plain (info : CustomerInfo) : info.toJS.Plain := by
  have k1 : js "phone" ≠ js "name" := by decide
  have k2 : js "address" ≠ js "name" := by decide
  have k3 : js "address" ≠ js "phone" := by decide
  simp [CustomerInfo.toJS, JSValue.Plain, JSProps.PlainAll, JSProps.NoDupKeys, JSProps.find?,
    k1, k2, k3]

theorem menuData_sub (type : JSString) (items : List MenuItem) (h : menuData type = some items) :
    ∀ item ∈ items, item ∈ allItems := by
  unfold menuData at h
  intro item hitem
  unfold allItems
  split at h
  · cases h
    exact List.mem_append_left _ (List.mem_append_left _ hitem)
  · split at h
    · cases h
      exact List.mem_append_left _ (List.mem_append_right _ hitem)
    · split at h
      · cases h
        exact List.mem_append_right _ hitem
      · cases h


/-! ## Model: the round trip -/

/-- Writing a storable value into a storable order leaves a storable order,
also when the write throws. -/
theorem set_storable_after (ps : JSProps) (storage : Option JSString) (key : JSString)
    (value : JSValue) (h : ps.Storable) (hv : value = .undefined ∨ value.Plain) :
    ∃ ps1, (Model.after ⟨.obj ps, storage⟩
        (((JSValue.obj ps).set key value).map fun order =>
          Model.saveToLocalStorage ⟨order, storage⟩)).currentOrder = .obj ps1 ∧
      ps1.Storable := by
  cases hset : (JSValue.obj ps).set key value with
  | error e => exact ⟨ps, rfl, h⟩
  | ok order =>
    simp only [Except.map, Model.after, Model.saveToLocalStorage]
    simp only [JSValue.set] at hset
    split at hset
    · split at hset
      · cases hset
      · cases hset
      · cases hset
      · cases hset
        exact ⟨ps, rfl, h⟩
    · cases hset
      exact ⟨_, rfl, storable_set ps key value h hv⟩

theorem updateSelection_storable (ps : JSProps) (storage : Option JSString)
    (type itemId : JSString) (h : ps.Storable) :
    ∃ ps1, (Model.after ⟨.obj ps, storage⟩
        (Model.updateSelection ⟨.obj ps, storage⟩ type itemId)).currentOrder = .obj ps1 ∧
      ps1.Storable := by
  unfold Model.updateSelection
  cases hmenu : menuData type with
  | none => exact ⟨ps, rfl, h⟩
  | some items =>
    cases hfound : (items.find? fun item =>
      (F64.ofNat item.id).strictEq (parseInt itemId)) with
    | none =>
      simp only [hfound]
      exact set_storable_after ps storage type .undefined h (Or.inl rfl)
    | some item =>
      simp only [hfound]
      exact set_storable_after ps storage type item.toJS h
        (Or.inr (item_plain item
          (menuData_sub type items hmenu item (List.mem_of_find?_eq_some hfound))))

theorem updateCustomerInfo_storable (ps : JSProps) (storage : Option JSString)
    (info : CustomerInfo) (h : ps.Storable) :
    ∃ ps1, (Model.after ⟨.obj ps, storage⟩
        (Model.updateCustomerInfo ⟨.obj ps, storage⟩ info)).currentOrder = .obj ps1 ∧
      ps1.Storable := by
  have hproto : js "customerInfo" ≠ js "__proto__" := by decide
  simp only [Model.updateCustomerInfo, JSValue.set, hproto, false_and, if_false, Except.map,
    Model.after, Model.saveToLocalStorage]
  exact ⟨_, rfl, storable_set ps _ _ h (Or.inr (info_plain info))⟩

theorem updateCustomerField_storable (ps : JSProps) (storage : Option JSString)
    (field value : JSString) (h : ps.Storable) :
    ∃ ps1, (Model.after ⟨.obj ps, storage⟩
        (Model.updateCustomerField ⟨.obj ps, storage⟩ field value)).currentOrder = .obj ps1 ∧
      ps1.Storable := by
  cases hupd : Model.updateCustomerField ⟨.obj ps, storage⟩ field value with
  | error e => exact ⟨ps, rfl, h⟩
  | ok m1 =>
    simp only [Model.after]
    simp only [Model.updateCustomerField, JSValue.get] at hupd
    cases hci : (ps.find? (js "customerInfo")).getD .undefined with
    | obj ci =>
      rw [hci] at hupd
      have hfind : ps.find? (js "customerInfo") = some (.obj ci) := by
        cases hf : ps.find? (js "customerInfo") with
        | none => simp [hf] at hci
        | some v =>
          simp only [hf, Option.getD_some] at hci
          rw [hci]
      have hplain : (JSValue.obj ci).Plain := by
        rcases all_find _ ps _ _ h.2 hfind with h1 | h1
        · cases h1
        · exact h1
      simp only [JSValue.set] at hupd
      have hplain1 : (JSValue.obj (ci.set field (.str value))).Plain :=
        ⟨nodup_set ci field _ hplain.1, plainAll_set ci field _ hplain.2 trivial⟩
      by_cases hproto : field = js "__proto__" ∧ ci.find? field = none
      · rw [if_pos hproto] at hupd
        simp only [Except.ok.injEq] at hupd
        subst hupd
        exact ⟨_, rfl, storable_set ps _ _ h (Or.inr hplain)⟩
      · rw [if_neg hproto] at hupd
        simp only [Except.ok.injEq] at hupd
        subst hupd
        exact ⟨_, rfl, storable_set ps _ _ h (Or.inr hplain1)⟩
    | undefined => simp [hci, JSValue.set] at hupd
    | null => simp [hci, JSValue.set] at hupd
    | bool b => simp [hci, JSValue.set] at hupd
    | num x => simp [hci, JSValue.set] at hupd
    | str s => simp [hci, JSValue.set] at hupd
    | arr items => simp [hci, JSValue.set] at hupd


theorem plainAll_all : ∀ ps : JSProps, ps.PlainAll →
    ps.All fun v => v = .undefined ∨ v.Plain
  | .nil, _ => trivial
  | .cons _ _ rest, h => ⟨Or.inr h.1, plainAll_all rest h.2⟩

/-- Constructing a Model over what a storable order has saved yields the defined
part of the order. -/
theorem new_save_storable (ps : JSProps) (h : ps.Storable) (storage : Option JSString) :
    Model.new (Model.saveToLocalStorage ⟨.obj ps, storage⟩).localStorage
      = .ok ⟨.obj ps.defined, (Model.saveToLocalStorage ⟨.obj ps, storage⟩).localStorage⟩ := by
  have hplain : (JSValue.obj ps.defined).Plain := defined_storable ps h
  obtain ⟨text, hs, hne, hp⟩ := parse_stringify_obj ps.defined hplain
  have hsame : JSON.stringify (.obj ps) = some text := by
    simp only [JSON.stringify, serializeJSON, serializeMembers_defined ps true] at hs ⊢
    exact hs
  have hempty : text.isEmpty = false := by
    cases text with
    | nil => exact absurd rfl hne
    | cons c t => rfl
  simp only [Model.new, Model.saveToLocalStorage, Model.loadFromLocalStorage, hsame,
    Option.getD_some, hempty, Bool.false_eq_true, if_false, hp, Except.map]

theorem defaultOrder_storable :
    ∃ ps, defaultOrder = .obj ps ∧ ps.Storable := by
  refine ⟨_, rfl, ?_, ?_⟩
  · have k1 : js "sideDish" ≠ js "mainDish" := by decide
    have k2 : js "dessert" ≠ js "mainDish" := by decide
    have k3 : js "customerInfo" ≠ js "mainDish" := by decide
    have k4 : js "dessert" ≠ js "sideDish" := by decide
    have k5 : js "customerInfo" ≠ js "sideDish" := by decide
    have k6 : js "customerInfo" ≠ js "dessert" := by decide
    simp [JSProps.NoDupKeys, JSProps.find?, k1, k2, k3, k4, k5, k6]
  · exact ⟨Or.inr trivial, Or.inr trivial, Or.inr trivial, Or.inr (info_plain _), trivial⟩

/-- Every reachable Model holds a storable order object. -/
theorem reachable_storable (m : Model) (h : ModelReachable m) :
    ∃ ps, m.currentOrder = .obj ps ∧ ps.Storable := by
  induction h with
  | fresh => exact defaultOrder_storable
  | selection m type itemId _ ih =>
    obtain ⟨ps, hps, hst⟩ := ih
    cases m with
    | mk order storage =>
      simp only at hps
      subst hps
      exact updateSelection_storable ps storage type itemId hst
  | info m info _ ih =>
    obtain ⟨ps, hps, hst⟩ := ih
    cases m with
    | mk order storage =>
      simp only at hps
      subst hps
      exact updateCustomerInfo_storable ps storage info hst
  | field m field value _ ih =>
    obtain ⟨ps, hps, hst⟩ := ih
    cases m with
    | mk order storage =>
      simp only at hps
      subst hps
      exact updateCustomerField_storable ps storage field value hst
  | reload m m1 _ hnew ih =>
    obtain ⟨ps, hps, hst⟩ := ih
    cases m with
    | mk order storage =>
      simp only at hps
      subst hps
      rw [new_save_storable ps hst storage] at hnew
      cases hnew
      have hd := defined_storable ps hst
      exact ⟨ps.defined, rfl, hd.1, plainAll_all _ hd.2⟩

/-- C3: for every order that the constructor and the mutators produce,
deselected slots included, `saveToLocalStorage()` followed by
`loadFromLocalStorage()` succeeds and yields an order that reads the same: every
property, so each of the three slots and `customerInfo`, has the value it had in
the order that was saved. -/
theorem save_load_round_trip (m : Model) (h : ModelReachable m) :
    ∃ m1, m.saveToLocalStorage.loadFromLocalStorage = .ok m1 ∧
      ∀ key : JSString, m1.currentOrder.get key = m.currentOrder.get key := by
  obtain ⟨ps, hps, hst⟩ := reachable_storable m h
  cases m with
  | mk order storage =>
    simp only at hps
    subst hps
    refine ⟨_, load_save_storable ps hst storage, ?_⟩
    intro key
    simp only [JSValue.get, defined_get ps key hst.1]

theorem deselectedModel_reachable : ModelReachable deselectedModel :=
  ModelReachable.field _ (js "name") (js "Al")
    (ModelReachable.selection _ (js "mainDish") (js "")
      (ModelReachable.selection _ (js "mainDish") (js "2") ModelReachable.fresh))

theorem save_load_round_trip_witness :
    ModelReachable deselectedModel ∧
    deselectedModel.currentOrder.get (js "mainDish") = .ok .undefined ∧
    ∃ m1, deselectedModel.saveToLocalStorage.loadFromLocalStorage = .ok m1 ∧
      ∀ key : JSString, m1.currentOrder.get key = deselectedModel.currentOrder.get key :=
  ⟨deselectedModel_reachable, by decide!,
    save_load_round_trip deselectedModel deselectedModel_reachable⟩

/-! ## Validation rules: address and phone -/

theorem greedyCount_some_le (cls : CharClass) (k : Nat) (s : JSString) :
    greedyCount cls (some k) s ≤ k := by
  induction s generalizing k with
  | nil => cases k <;> simp [greedyCount]
  | cons c t ih =>
    cases k with
    | zero => simp [greedyCount]
    | succ k =>
      by_cases h : cls.test c = true
      · simp [greedyCount, h, ih k]
      · simp [greedyCount, h]

theorem greedyCount_some_eq (cls : CharClass) (k : Nat) (s : JSString) :
    greedyCount cls (some k) s = k ↔ k ≤ s.length ∧ ∀ c ∈ s.take k, cls.test c = true := by
  induction s generalizing k with
  | nil =>
    cases k with
    | zero => simp [greedyCount]
    | succ k => simp [greedyCount]
  | cons c t ih =>
    cases k with
    | zero => simp [greedyCount]
    | succ k =>
      by_cases h : cls.test c = true
      · simp [greedyCount, h, ih k]
      · simp [greedyCount, h]

theorem backtrack_below {α : Type} (f : Nat → Option α) (min n : Nat) (h : n < min) :
    backtrack f min n = none := by
  cases n with
  | zero =>
    have : min ≠ 0 := by omega
    simp [backtrack, this]
  | succ n => simp [backtrack, h]

/-- With nothing to give up, backtracking tries the one admissible length. -/
theorem backtrack_exact {α : Type} (f : Nat → Option α) (k g : Nat) (hg : g ≤ k) :
    backtrack f k g = if g = k then f k else none := by
  by_cases h : g = k
  · subst h
    rw [if_pos rfl]
    cases g with
    | zero => simp [backtrack]
    | succ g =>
      simp only [backtrack, Nat.lt_irrefl, if_false]
      cases f (g + 1) with
      | some r => rfl
      | none => exact backtrack_below f (g + 1) g (Nat.lt_succ_self g)
  · rw [if_neg h]
    exact backtrack_below f k g (by omega)

/-- An atom `C{k}` takes exactly `k` characters of the class. -/
theorem matchAtoms_exact (e : Bool) (cls : CharClass) (k : Nat) (rest : List Atom)
    (s : JSString) :
    (matchAtoms e (⟨cls, k, some k⟩ :: rest) s).isSome = true ↔
      ∃ p q, s = p ++ q ∧ p.length = k ∧ (∀ c ∈ p, cls.test c = true) ∧
        (matchAtoms e rest q).isSome = true := by
  rw [matchAtoms, backtrack_exact _ _ _ (greedyCount_some_le cls k s)]
  constructor
  · intro h
    by_cases hg : greedyCount cls (some k) s = k
    · rw [if_pos hg] at h
      have hk := (greedyCount_some_eq cls k s).mp hg
      refine ⟨s.take k, s.drop k, (List.take_append_drop k s).symm, ?_, hk.2, ?_⟩
      · simp [List.length_take, hk.1]
      · cases hm : matchAtoms e rest (s.drop k) with
        | none => simp [hm] at h
        | some r => rfl
    · rw [if_neg hg] at h
      simp at h
  · rintro ⟨p, q, hs, hp, hc, hq⟩
    subst hs
    have htake : (p ++ q).take k = p := by
      rw [← hp]
      simp
    have hdrop : (p ++ q).drop k = q := by
      rw [← hp]
      simp
    have hg : greedyCount cls (some k) (p ++ q) = k := by
      rw [greedyCount_some_eq]
      refine ⟨by simp [← hp], ?_⟩
      rw [htake]
      exact hc
    rw [if_pos hg, hdrop]
    cases hm : matchAtoms e rest q with
    | none => simp [hm] at hq
    | some r => rfl

theorem matchAtoms_end (s : JSString) : (matchAtoms true [] s).isSome = true ↔ s = [] := by
  cases s <;> simp [matchAtoms]

theorem char_atom (d : Nat) (p : JSString) (hl : p.length = 1)
    (hc : ∀ c ∈ p, (CharClass.char d).test c = true) : p = [d] := by
  match p, hl with
  | [c], _ =>
    have := hc c (List.mem_singleton.mpr rfl)
    simp [CharClass.test] at this
    rw [this]

/-- The strings that the phone pattern matches. -/
theorem phonePattern_test_iff (s : JSString) :
    phonePattern.test s = true ↔
      ∃ a b c : JSString, a.length = 3 ∧ b.length = 3 ∧ c.length = 4 ∧
        (∀ x ∈ a ++ b ++ c, isDigit x = true) ∧
        s = js "(" ++ a ++ js ") " ++ b ++ js "-" ++ c := by
  have e1 : js "(" = [40] := by decide
  have e2 : js ") " = [41, 32] := by decide
  have e3 : js "-" = [45] := by decide
  rw [e1, e2, e3]
  show (matchAtoms true [⟨.char 40, 1, some 1⟩, ⟨.digit, 3, some 3⟩, ⟨.char 41, 1, some 1⟩,
    ⟨.char 32, 1, some 1⟩, ⟨.digit, 3, some 3⟩, ⟨.char 45, 1, some 1⟩,
    ⟨.digit, 4, some 4⟩] s).isSome = true ↔ _
  simp only [matchAtoms_exact, matchAtoms_end]
  constructor
  · rintro ⟨p1, q1, hs, l1, c1, p2, q2, h2, l2, c2, p3, q3, h3, l3, c3, p4, q4, h4, l4, c4,
      p5, q5, h5, l5, c5, p6, q6, h6, l6, c6, p7, q7, h7, l7, c7, hend⟩
    have t1 := char_atom 40 p1 l1 c1
    have t3 := char_atom 41 p3 l3 c3
    have t4 := char_atom 32 p4 l4 c4
    have t6 := char_atom 45 p6 l6 c6
    subst hend t1 t3 t4 t6 h7 h6 h5 h4 h3 h2 hs
    refine ⟨p2, p5, p7, l2, l5, l7, ?_, by simp⟩
    intro x hx
    simp only [List.mem_append] at hx
    rcases hx with (hx | hx) | hx
    · exact c2 x hx
    · exact c5 x hx
    · exact c7 x hx
  · rintro ⟨a, b, c, la, lb, lc, hd, hs⟩
    have ha : ∀ x ∈ a, CharClass.digit.test x = true :=
      fun x hx => hd x (by simp [hx])
    have hb : ∀ x ∈ b, CharClass.digit.test x = true :=
      fun x hx => hd x (by simp [hx])
    have hc : ∀ x ∈ c, CharClass.digit.test x = true :=
      fun x hx => hd x (by simp [hx])
    refine ⟨[40], a ++ [41, 32] ++ b ++ [45] ++ c, by simp [hs], rfl, by simp [CharClass.test],
      a, [41, 32] ++ b ++ [45] ++ c, by simp, la, ha,
      [41], [32] ++ b ++ [45] ++ c, by simp, rfl, by simp [CharClass.test],
      [32], b ++ [45] ++ c, by simp, rfl, by simp [CharClass.test],
      b, [45] ++ c, by simp, lb, hb,
      [45], c, by simp, rfl, by simp [CharClass.test],
      c, [], by simp, lc, hc, rfl⟩

/-- The mark that `validateInput` leaves on a field tells whether the value
passes the pattern of the field. -/
theorem validateInput_mark (a : App) (f : Field) (value : JSString) :
    ((validateInput a f value (inputs f).pattern (inputs f).format).view.input f).mark
        = .isValid ↔ (inputs f).pattern.test value = true := by
  simp only [validateInput, View.showValidationFeedback, input_setInput]
  by_cases h : (inputs f).pattern.test value = true
  · simp [h]
  · simp [h]

/-- C11, on the code: the address rule marks a value valid if and only if it has
at least 10 characters and none of them is a line terminator, because `.` does
not match line feed, carriage return, U+2028 and U+2029. An address of 17
characters with a line feed in it is marked invalid; so is one of 10 characters
with U+2028 in it. Without line terminators, 9 characters are invalid and 10
are valid. -/
theorem address_rule_line_break :
    (∀ (a : App) (value : JSString),
      ((validateInput a .address value (inputs .address).pattern
          (inputs .address).format).view.input .address).mark = .isValid ↔
        (10 ≤ value.length ∧ ∀ c ∈ value, isLineTerminator c = false)) ∧
    (js "221B Baker\nStreet").length = 17 ∧
    (∀ a : App, ((validateInput a .address (js "221B Baker\nStreet") (inputs .address).pattern
      (inputs .address).format).view.input .address).mark = .isInvalid) ∧
    (inputs .address).pattern.test (js "12 Elm St" ++ [8232]) = false ∧
    (inputs .address).pattern.test (js "123456789") = false ∧
    (inputs .address).pattern.test (js "1234567890") = true := by
  refine ⟨?_, by decide, ?_, by decide, by decide, by decide⟩
  · intro a value
    rw [validateInput_mark]
    have h := test_anchored_class .dot 10 value
    have hp : (inputs .address).pattern = ⟨true, [⟨.dot, 10, none⟩], true⟩ := rfl
    rw [hp, h]
    simp [CharClass.test]
  · intro a
    have ht : (inputs .address).pattern.test (js "221B Baker\nStreet") = false := by decide
    simp only [validateInput, View.showValidationFeedback, input_setInput, ht]
    rfl

/-- C12: the phone rule marks a value valid if and only if the value is exactly
14 characters of the shape `(DDD) DDD-DDDD`: an opening parenthesis, three
digits, a closing parenthesis, one space, three digits, a hyphen and four
digits, nothing before or after; `"(555) 123-4567"` is valid and
`"555-123-4567"` is not. -/
theorem phone_rule_valid_iff :
    (∀ (a : App) (value : JSString),
      ((validateInput a .phone value (inputs .phone).pattern
          (inputs .phone).format).view.input .phone).mark = .isValid ↔
        (value.length = 14 ∧
          ∃ d1 d2 d3 : JSString, d1.length = 3 ∧ d2.length = 3 ∧ d3.length = 4 ∧
            (∀ x ∈ d1 ++ d2 ++ d3, isDigit x = true) ∧
            value = js "(" ++ d1 ++ js ") " ++ d2 ++ js "-" ++ d3)) ∧
    (inputs .phone).pattern.test (js "(555) 123-4567") = true ∧
    (inputs .phone).pattern.test (js "555-123-4567") = false := by
  refine ⟨?_, by decide, by decide⟩
  intro a value
  rw [validateInput_mark]
  have hp : (inputs .phone).pattern = phonePattern := rfl
  rw [hp, phonePattern_test_iff]
  constructor
  · rintro ⟨d1, d2, d3, l1, l2, l3, hd, hv⟩
    refine ⟨?_, d1, d2, d3, l1, l2, l3, hd, hv⟩
    have e1 : (js "(").length = 1 := by decide
    have e2 : (js ") ").length = 2 := by decide
    have e3 : (js "-").length = 1 := by decide
    rw [hv]
    simp only [List.length_append, e1, e2, e3, l1, l2, l3]
  · rintro ⟨_, h⟩
    exact h

/-! ## Phone formatting and the phone rule -/

theorem phone_digits (r : JSString) (h : phonePattern.test r = true) :
    (digitsOf r).length = 10 := by
  obtain ⟨d1, d2, d3, l1, l2, l3, hd, hr⟩ := (phonePattern_test_iff r).mp h
  have p1 : digitsOf (js "(") = [] := by decide
  have p2 : digitsOf (js ") ") = [] := by decide
  have p3 : digitsOf (js "-") = [] := by decide
  have h1 : digitsOf d1 = d1 := digitsOf_of_digits d1 fun x hx => hd x (by simp [hx])
  have h2 : digitsOf d2 = d2 := digitsOf_of_digits d2 fun x hx => hd x (by simp [hx])
  have h3 : digitsOf d3 = d3 := digitsOf_of_digits d3 fun x hx => hd x (by simp [hx])
  rw [hr]
  simp only [digitsOf_append, p1, p2, p3, h1, h2, h3, List.nil_append, List.length_append,
    l1, l2, l3, List.length_nil]

/-- The digits of what `formatPhoneNumber` builds are the first ten digits. -/
theorem digitsOf_groups (d : JSString) (hd : ∀ c ∈ d, isDigit c = true) :
    digitsOf (phoneText (d.take 3) ((d.drop 3).take 3) ((d.drop 6).take 4)) = d.take 10 := by
  have h1 : ∀ c ∈ d.take 3, isDigit c = true := fun c hc => hd c (List.mem_of_mem_take hc)
  have h2 : ∀ c ∈ (d.drop 3).take 3, isDigit c = true :=
    fun c hc => hd c (List.mem_of_mem_drop (List.mem_of_mem_take hc))
  have h3 : ∀ c ∈ (d.drop 6).take 4, isDigit c = true :=
    fun c hc => hd c (List.mem_of_mem_drop (List.mem_of_mem_take hc))
  have h23 : (d.drop 3).take 3 = [] → (d.drop 6).take 4 = [] := by
    intro h
    have : d.length ≤ 3 := by
      simp at h
      exact h
    simp
    omega
  rw [digitsOf_phoneText _ _ _ h1 h2 h3 h23, groups_append]

/-- The formatted value of an input passes the phone pattern exactly when the
input has ten digits or more. -/
theorem format_test_iff (s : JSString) :
    ∃ r, formatPhoneNumber s = .ok r ∧
      (phonePattern.test r = true ↔ 10 ≤ (digitsOf s).length) := by
  by_cases h : digitsOf s = []
  · refine ⟨s, formatPhoneNumber_noDigits s h, ?_⟩
    constructor
    · intro ht
      have := phone_digits s ht
      rw [h] at this
      simp at this
    · intro hl
      rw [h] at hl
      simp at hl
  · refine ⟨_, formatPhoneNumber_groups s h, ?_⟩
    have hdig := digitsOf_groups (digitsOf s) (digitsOf_isDigit s)
    generalize digitsOf s = d at h hdig
    constructor
    · intro ht
      have := phone_digits _ ht
      rw [hdig, List.length_take] at this
      omega
    · intro hl
      rw [phonePattern_test_iff]
      have l1 : (d.take 3).length = 3 := by
        rw [List.length_take]
        omega
      have l2 : ((d.drop 3).take 3).length = 3 := by
        rw [List.length_take, List.length_drop]
        omega
      have l3 : ((d.drop 6).take 4).length = 4 := by
        rw [List.length_take, List.length_drop]
        omega
      have n2 : (d.drop 3).take 3 ≠ [] := by
        intro e
        rw [e] at l2
        simp at l2
      have n3 : (d.drop 6).take 4 ≠ [] := by
        intro e
        rw [e] at l3
        simp at l3
      refine ⟨d.take 3, (d.drop 3).take 3, (d.drop 6).take 4, l1, l2, l3, ?_, ?_⟩
      · rw [groups_append]
        intro x hx
        have hx' : x ∈ digitsOf (phoneText (d.take 3) ((d.drop 3).take 3)
            ((d.drop 6).take 4)) := by
          rw [hdig]
          exact hx
        exact (List.mem_filter.mp hx').2
      · simp [phoneText, n2, n3]

/-- C17: what `View.formatPhoneNumber` makes of an input passes the phone rule
if and only if the input has at least 10 digit characters; so the `input`
handler marks the phone field valid exactly when the typed value has 10 digits
or more. -/
theorem format_valid_iff_ten_digits :
    (∀ s : JSString, ∃ r, formatPhoneNumber s = .ok r ∧
      ((inputs .phone).pattern.test r = true ↔ 10 ≤ (digitsOf s).length)) ∧
    (∀ (a : App) (rawValue : JSString),
      ((inputEvent a .phone rawValue).state.view.input .phone).mark = .isValid ↔
        10 ≤ (digitsOf rawValue).length) := by
  refine ⟨format_test_iff, ?_⟩
  intro a rawValue
  obtain ⟨r, hr, hiff⟩ := format_test_iff rawValue
  have hv : if Field.phone = .phone then formatPhoneNumber rawValue = .ok r
      else r = rawValue := by
    simp [hr]
  rw [inputEvent_eq a .phone rawValue r hv, handleInputChange_view, validateInput_mark]
  exact hiff

/-! ## Model: menu lookup and customer fields -/

/-- C13, as the code has it: `getMenuItems(category)` returns the list of the
menu for `mainDish`, `sideDish` and `dessert`; for every other key it does not
fail: it returns what the property read yields, which is not a list of the menu. -/
theorem getMenuItems_total :
    (∀ m : Model,
      m.getMenuItems (js "mainDish") = .ok (.items mainDishItems) ∧
      m.getMenuItems (js "sideDish") = .ok (.items sideDishItems) ∧
      m.getMenuItems (js "dessert") = .ok (.items dessertItems)) ∧
    (∀ (m : Model) (type : JSString),
      type ≠ js "mainDish" → type ≠ js "sideDish" → type ≠ js "dessert" →
      (m.getMenuItems type = .ok .undefined ∨ m.getMenuItems type = .ok (.inherited type))) := by
  refine ⟨fun m => ⟨rfl, rfl, rfl⟩, ?_⟩
  intro m type h1 h2 h3
  have hmenu : menuData type = none := by simp [menuData, h1, h2, h3]
  by_cases hk : type ∈ objectPrototypeKeys
  · right
    simp [Model.getMenuItems, hmenu, hk]
  · left
    simp [Model.getMenuItems, hmenu, hk]

theorem getMenuItems_total_witness :
    Model.getMenuItems ⟨defaultOrder, none⟩ (js "toString") = .ok .undefined ∨
    Model.getMenuItems ⟨defaultOrder, none⟩ (js "toString") = .ok (.inherited (js "toString")) :=
  getMenuItems_total.2 ⟨defaultOrder, none⟩ (js "toString") (by decide) (by decide) (by decide)

/-- C13 fails as stated: for the key `drinks`, which is not a category,
`getMenuItems` returns `undefined` and throws nothing. -/
theorem getMenuItems_unknown_no_error :
    Model.getMenuItems ⟨defaultOrder, none⟩ (js "drinks") = .ok .undefined ∧
    ¬ ∃ e, Model.getMenuItems ⟨defaultOrder, none⟩ (js "drinks") = .error e := by
  have h : Model.getMenuItems ⟨defaultOrder, none⟩ (js "drinks") = .ok .undefined := by decide
  refine ⟨h, ?_⟩
  rintro ⟨e, he⟩
  rw [h] at he
  cases he

/-- `updateCustomerField` on an order object whose `customerInfo` is an object,
for any field name. -/
theorem updateCustomerField_any (m : Model) (props ci : JSProps) (field value : JSString)
    (horder : m.currentOrder = .obj props)
    (hci : props.find? (js "customerInfo") = some (.obj ci)) :
    ∃ ci1, m.updateCustomerField field value = .ok (Model.saveToLocalStorage
        { m with currentOrder := JSValue.obj (props.set (js "customerInfo") (.obj ci1)) }) ∧
      (ci1 = ci.set field (.str value) ∨ (field = js "__proto__" ∧ ci1 = ci)) := by
  by_cases hproto : field = js "__proto__" ∧ ci.find? field = none
  · refine ⟨ci, ?_, Or.inr ⟨hproto.1, rfl⟩⟩
    obtain ⟨hf, hn⟩ := hproto
    subst hf
    simp only [Model.updateCustomerField, horder, JSValue.get, hci, Option.getD_some,
      JSValue.set, hn, and_self, if_true]
  · refine ⟨ci.set field (.str value), ?_, Or.inl rfl⟩
    simp only [Model.updateCustomerField, horder, JSValue.get, hci, Option.getD_some,
      JSValue.set, hproto, if_false]

/-- C14, as the code has it: on an order object whose `customerInfo` is an
object, `updateCustomerField(field, value)` does not fail for any field name. It
sets `customerInfo[field]` to `value` (the name `__proto__` may leave the object
as it is) and changes no other property of `customerInfo` or of the order; so for
`name`, `phone` and `address` it sets exactly that field. -/
theorem updateCustomerField_sets (m : Model) (props ci : JSProps) (field value : JSString)
    (horder : m.currentOrder = .obj props)
    (hci : props.find? (js "customerInfo") = some (.obj ci)) :
    ∃ m1 props1 ci1, m.updateCustomerField field value = .ok m1 ∧
      m1.currentOrder = .obj props1 ∧
      props1.find? (js "customerInfo") = some (.obj ci1) ∧
      (field ≠ js "__proto__" → ci1.find? field = some (.str value)) ∧
      (∀ key, key ≠ field → ci1.find? key = ci.find? key) ∧
      (∀ key, key ≠ js "customerInfo" → props1.find? key = props.find? key) := by
  obtain ⟨ci1, hupd, hcase⟩ := updateCustomerField_any m props ci field value horder hci
  refine ⟨_, props.set (js "customerInfo") (.obj ci1), ci1, hupd, rfl,
    find?_set_self _ _ _, ?_, ?_, ?_⟩
  · intro hne
    rcases hcase with h | h
    · rw [h]
      exact find?_set_self _ _ _
    · exact absurd h.1 hne
  · intro key hkey
    rcases hcase with h | h
    · rw [h]
      exact find?_set_other _ _ _ _ (Ne.symm hkey)
    · rw [h.2]
  · intro key hkey
    exact find?_set_other _ _ _ _ (Ne.symm hkey)

theorem updateCustomerField_sets_witness :
    ∃ m1 props1 ci1,
      Model.updateCustomerField ⟨defaultOrder, none⟩ (js "phone") (js "555") = .ok m1 ∧
      m1.currentOrder = .obj props1 ∧
      props1.find? (js "customerInfo") = some (.obj ci1) ∧
      (js "phone" ≠ js "__proto__" → ci1.find? (js "phone") = some (.str (js "555"))) ∧
      (∀ key, key ≠ js "phone" → ci1.find? key
        = (JSProps.cons (js "name") (.str []) (.cons (js "phone") (.str [])
            (.cons (js "address") (.str []) .nil))).find? key) ∧
      (∀ key, key ≠ js "customerInfo" → props1.find? key
        = (JSProps.cons (js "mainDish") .null (.cons (js "sideDish") .null
            (.cons (js "dessert") .null (.cons (js "customerInfo")
              (CustomerInfo.toJS ⟨[], [], []⟩) .nil)))).find? key) :=
  updateCustomerField_sets ⟨defaultOrder, none⟩ _ _ (js "phone") (js "555") rfl rfl

/-- C14 fails as stated: for the field name `nickname` the call does not fail;
it adds the property `nickname` to `customerInfo`. -/
theorem updateCustomerField_unknown_no_error :
    ∃ m1 info, Model.updateCustomerField ⟨defaultOrder, none⟩ (js "nickname") (js "Al") = .ok m1 ∧
      m1.currentOrder.get (js "customerInfo") = .ok info ∧
      info.get (js "nickname") = .ok (.str (js "Al")) :=
  ⟨_, _, rfl, rfl, rfl⟩

/-! ## Model: every mutator saves -/

theorem set_ok_obj (o : JSValue) (key : JSString) (v r : JSValue) (h : o.set key v = .ok r) :
    ∃ ps, r = .obj ps := by
  cases o with
  | obj props =>
    simp only [JSValue.set] at h
    split at h
    · split at h
      · cases h
      · cases h
      · cases h
      · cases h
        exact ⟨props, rfl⟩
    · cases h
      exact ⟨_, rfl⟩
  | undefined => simp [JSValue.set] at h
  | null => simp [JSValue.set] at h
  | bool b => simp [JSValue.set] at h
  | num x => simp [JSValue.set] at h
  | str s => simp [JSValue.set] at h
  | arr items => simp [JSValue.set] at h

/-- What `saveToLocalStorage` leaves in storage for an order object. -/
theorem save_obj (ps : JSProps) (storage : Option JSString) :
    ∃ text, JSON.stringify (Model.saveToLocalStorage ⟨.obj ps, storage⟩).currentOrder = some text ∧
      (Model.saveToLocalStorage ⟨.obj ps, storage⟩).localStorage = some text :=
  ⟨123 :: (serializeMembers ps true ++ [125]), by simp [Model.saveToLocalStorage, JSON.stringify,
    serializeJSON], by simp [Model.saveToLocalStorage, JSON.stringify, serializeJSON]⟩

/-- A write to the order followed by the save. -/
theorem set_save_ok (m m1 : Model) (key : JSString) (v : JSValue)
    (h : (m.currentOrder.set key v).map (fun order =>
      Model.saveToLocalStorage { m with currentOrder := order }) = .ok m1) :
    ∃ text, JSON.stringify m1.currentOrder = some text ∧ m1.localStorage = some text := by
  cases hset : m.currentOrder.set key v with
  | error e => simp [hset, Except.map] at h
  | ok order =>
    obtain ⟨ps, hps⟩ := set_ok_obj _ _ _ _ hset
    simp only [hset, Except.map, Except.ok.injEq] at h
    subst h hps
    exact save_obj ps m.localStorage

/-- C16: when `updateSelection`, `updateCustomerInfo` or `updateCustomerField`
returns, the `currentOrder` key of `localStorage` holds the serialization of the
order that is then in memory, whatever the key held before. -/
theorem mutators_persist (m m1 : Model)
    (h : (∃ type itemId, m.updateSelection type itemId = .ok m1) ∨
      (∃ info, m.updateCustomerInfo info = .ok m1) ∨
      (∃ field value, m.updateCustomerField field value = .ok m1)) :
    ∃ text, JSON.stringify m1.currentOrder = some text ∧ m1.localStorage = some text := by
  rcases h with ⟨type, itemId, h⟩ | ⟨info, h⟩ | ⟨field, value, h⟩
  · unfold Model.updateSelection at h
    cases hmenu : menuData type with
    | none => simp [hmenu] at h
    | some items =>
      cases hfound : (items.find? fun item =>
        (F64.ofNat item.id).strictEq (parseInt itemId)) with
      | none =>
        simp only [hmenu, hfound] at h
        exact set_save_ok m m1 type .undefined h
      | some item =>
        simp only [hmenu, hfound] at h
        exact set_save_ok m m1 type item.toJS h
  · exact set_save_ok m m1 (js "customerInfo") info.toJS h
  · unfold Model.updateCustomerField at h
    split at h
    · cases h
    · split at h
      · cases h
      · split at h
        · simp only [Except.ok.injEq] at h
          subst h
          exact save_obj _ m.localStorage
        · cases h

theorem mutators_persist_witness :
    Model.updateCustomerInfo ⟨defaultOrder, some (js "stale")⟩ ⟨js "Al", [], []⟩
      = .ok (Model.saveToLocalStorage
          ⟨.obj (.cons (js "mainDish") .null (.cons (js "sideDish") .null
            (.cons (js "dessert") .null (.cons (js "customerInfo")
              (CustomerInfo.toJS ⟨js "Al", [], []⟩) .nil)))), some (js "stale")⟩) ∧
    ∃ text,
      JSON.stringify (Model.saveToLocalStorage
          ⟨.obj (.cons (js "mainDish") .null (.cons (js "sideDish") .null
            (.cons (js "dessert") .null (.cons (js "customerInfo")
              (CustomerInfo.toJS ⟨js "Al", [], []⟩) .nil)))),
            some (js "stale")⟩).currentOrder = some text ∧
      (Model.saveToLocalStorage
          ⟨.obj (.cons (js "mainDish") .null (.cons (js "sideDish") .null
            (.cons (js "dessert") .null (.cons (js "customerInfo")
              (CustomerInfo.toJS ⟨js "Al", [], []⟩) .nil)))),
            some (js "stale")⟩).localStorage = some text :=
  ⟨rfl, mutators_persist ⟨defaultOrder, some (js "stale")⟩ _ (Or.inr (Or.inl ⟨⟨js "Al", [], []⟩, rfl⟩))⟩

/-! ## Model: the slots hold items of the menu -/

theorem menuData_customerInfo : menuData (js "customerInfo") = none := by decide

theorem slotsOK_set_other (ps : JSProps) (key : JSString) (v : JSValue) (h : ps.SlotsOK)
    (hkey : menuData key = none) : (ps.set key v).SlotsOK := by
  intro type items hmenu
  have hne : key ≠ type := by
    intro e
    rw [e, hmenu] at hkey
    cases hkey
  rw [find?_set_other ps key type v hne]
  exact h type items hmenu

theorem slotsOK_set_slot (ps : JSProps) (type : JSString) (items : List MenuItem) (v : JSValue)
    (h : ps.SlotsOK) (hmenu : menuData type = some items) (hv : SlotValue items v) :
    (ps.set type v).SlotsOK := by
  intro type1 items1 hmenu1
  by_cases e : type = type1
  · subst e
    rw [hmenu] at hmenu1
    cases hmenu1
    rw [find?_set_self]
    exact hv
  · rw [find?_set_other ps type type1 v e]
    exact h type1 items1 hmenu1

theorem slotsOK_defined (ps : JSProps) (h : ps.SlotsOK) (hnd : ps.NoDupKeys) :
    ps.defined.SlotsOK := by
  intro type items hmenu
  rw [defined_get ps type hnd]
  exact h type items hmenu

/-- A write to an order object followed by the save leaves the order as it was
(when the write throws or changes nothing) or with the property written. -/
theorem set_after_form (ps : JSProps) (storage : Option JSString) (key : JSString)
    (value : JSValue) :
    (Model.after ⟨.obj ps, storage⟩
        (((JSValue.obj ps).set key value).map fun order =>
          Model.saveToLocalStorage ⟨order, storage⟩)).currentOrder = .obj ps ∨
    (Model.after ⟨.obj ps, storage⟩
        (((JSValue.obj ps).set key value).map fun order =>
          Model.saveToLocalStorage ⟨order, storage⟩)).currentOrder = .obj (ps.set key value) := by
  cases hset : (JSValue.obj ps).set key value with
  | error e => exact Or.inl rfl
  | ok order =>
    simp only [Except.map, Model.after, Model.saveToLocalStorage]
    simp only [JSValue.set] at hset
    split at hset
    · split at hset
      · cases hset
      · cases hset
      · cases hset
      · cases hset
        exact Or.inl rfl
    · cases hset
      exact Or.inr rfl

theorem updateSelection_form (ps : JSProps) (storage : Option JSString)
    (type itemId : JSString) :
    (Model.after ⟨.obj ps, storage⟩
        (Model.updateSelection ⟨.obj ps, storage⟩ type itemId)).currentOrder = .obj ps ∨
    ∃ items v, menuData type = some items ∧ SlotValue items v ∧
      (Model.after ⟨.obj ps, storage⟩
        (Model.updateSelection ⟨.obj ps, storage⟩ type itemId)).currentOrder
          = .obj (ps.set type v) := by
  unfold Model.updateSelection
  cases hmenu : menuData type with
  | none => exact Or.inl rfl
  | some items =>
    cases hfound : (items.find? fun item =>
      (F64.ofNat item.id).strictEq (parseInt itemId)) with
    | none =>
      simp only [hfound]
      rcases set_after_form ps storage type .undefined with h | h
      · exact Or.inl h
      · exact Or.inr ⟨items, .undefined, rfl, Or.inl rfl, h⟩
    | some item =>
      simp only [hfound]
      rcases set_after_form ps storage type item.toJS with h | h
      · exact Or.inl h
      · exact Or.inr ⟨items, item.toJS, rfl,
          Or.inr (Or.inr ⟨item, List.mem_of_find?_eq_some hfound, rfl⟩), h⟩

theorem updateCustomerInfo_form (ps : JSProps) (storage : Option JSString)
    (info : CustomerInfo) :
    (Model.after ⟨.obj ps, storage⟩
        (Model.updateCustomerInfo ⟨.obj ps, storage⟩ info)).currentOrder
      = .obj (ps.set (js "customerInfo") info.toJS) := by
  have hproto : js "customerInfo" ≠ js "__proto__" := by decide
  simp only [Model.updateCustomerInfo, JSValue.set, hproto, false_and, if_false, Except.map,
    Model.after, Model.saveToLocalStorage]

theorem updateCustomerField_form (ps : JSProps) (storage : Option JSString)
    (field value : JSString) :
    (Model.after ⟨.obj ps, storage⟩
        (Model.updateCustomerField ⟨.obj ps, storage⟩ field value)).currentOrder = .obj ps ∨
    ∃ v, (Model.after ⟨.obj ps, storage⟩
        (Model.updateCustomerField ⟨.obj ps, storage⟩ field value)).currentOrder
          = .obj (ps.set (js "customerInfo") v) := by
  cases hupd : Model.updateCustomerField ⟨.obj ps, storage⟩ field value with
  | error e => exact Or.inl rfl
  | ok m1 =>
    simp only [Model.after]
    unfold Model.updateCustomerField at hupd
    split at hupd
    · cases hupd
    · split at hupd
      · cases hupd
      · rename_i customerInfo _
        simp only [Except.ok.injEq] at hupd
        subst hupd
        exact Or.inr ⟨customerInfo, rfl⟩

theorem defaultOrder_slotsOK :
    ∃ ps, defaultOrder = .obj ps ∧ ps.SlotsOK := by
  refine ⟨_, rfl, ?_⟩
  intro type items hmenu
  unfold menuData at hmenu
  split at hmenu
  · rename_i h
    subst h
    exact Or.inr (Or.inl rfl)
  · split at hmenu
    · rename_i h
      subst h
      exact Or.inr (Or.inl rfl)
    · split at hmenu
      · rename_i h
        subst h
        exact Or.inr (Or.inl rfl)
      · cases hmenu

/-- Every reachable Model holds an order object whose slots are empty or hold
items of their category. -/
theorem reachable_slotsOK (m : Model) (h : ModelReachable m) :
    ∃ ps, m.currentOrder = .obj ps ∧ ps.SlotsOK := by
  induction h with
  | fresh => exact defaultOrder_slotsOK
  | selection m type itemId _ ih =>
    obtain ⟨ps, hps, hok⟩ := ih
    cases m with
    | mk order storage =>
      simp only at hps
      subst hps
      rcases updateSelection_form ps storage type itemId with h | ⟨items, v, hmenu, hv, h⟩
      · exact ⟨ps, h, hok⟩
      · exact ⟨_, h, slotsOK_set_slot ps type items v hok hmenu hv⟩
  | info m info _ ih =>
    obtain ⟨ps, hps, hok⟩ := ih
    cases m with
    | mk order storage =>
      simp only at hps
      subst hps
      exact ⟨_, updateCustomerInfo_form ps storage info,
        slotsOK_set_other ps _ _ hok menuData_customerInfo⟩
  | field m field value _ ih =>
    obtain ⟨ps, hps, hok⟩ := ih
    cases m with
    | mk order storage =>
      simp only at hps
      subst hps
      rcases updateCustomerField_form ps storage field value with h | ⟨v, h⟩
      · exact ⟨ps, h, hok⟩
      · exact ⟨_, h, slotsOK_set_other ps _ _ hok menuData_customerInfo⟩
  | reload m m1 hm hnew ih =>
    obtain ⟨ps, hps, hok⟩ := ih
    obtain ⟨ps2, hps2, hst⟩ := reachable_storable m hm
    cases m with
    | mk order storage =>
      simp only at hps hps2
      subst hps
      cases hps2
      rw [new_save_storable ps hst storage] at hnew
      cases hnew
      exact ⟨ps.defined, rfl, slotsOK_defined ps hok hst.1⟩

/-- C15, as the code has it: in every state reached by constructing the Model
over absent storage, or over storage that a Model in such a state has saved, and
applying `updateSelection`, `updateCustomerInfo` and `updateCustomerField`, each
category slot of the order is empty or holds an item of that category's list. -/
theorem reachable_slots (m : Model) (h : ModelReachable m) (type : JSString)
    (items : List MenuItem) (hmenu : menuData type = some items) :
    ∃ v, m.getCurrentOrder.get type = .ok v ∧
      (v = .undefined ∨ v = .null ∨ ∃ item ∈ items, v = item.toJS) := by
  obtain ⟨ps, hps, hok⟩ := reachable_slotsOK m h
  refine ⟨(ps.find? type).getD .undefined, ?_, hok type items hmenu⟩
  simp only [Model.getCurrentOrder, hps, JSValue.get]

theorem reachable_slots_witness :
    ModelReachable deselectedModel ∧ menuData (js "mainDish") = some mainDishItems ∧
    ∃ v, deselectedModel.getCurrentOrder.get (js "mainDish") = .ok v ∧
      (v = .undefined ∨ v = .null ∨ ∃ item ∈ mainDishItems, v = item.toJS) :=
  ⟨deselectedModel_reachable, rfl,
    reachable_slots deselectedModel deselectedModel_reachable (js "mainDish") mainDishItems rfl⟩

/-- C15 fails as stated: constructed over a persisted order whose main dish has
the id 99, which no item of the menu has, the Model keeps that object in the
slot `mainDish`; it is neither empty nor an item of the list, and it is still
there after a mutator. -/
theorem new_keeps_stale_selection :
    Model.new (some staleText) = .ok ⟨staleOrder, some staleText⟩ ∧
    (∃ v, staleOrder.get (js "mainDish") = .ok v ∧ v ≠ .undefined ∧ v ≠ .null ∧
      ∀ item ∈ mainDishItems, v ≠ item.toJS) ∧
    (∃ m1 v, Model.updateCustomerInfo ⟨staleOrder, some staleText⟩ ⟨js "Al", [], []⟩ = .ok m1 ∧
      m1.currentOrder.get (js "mainDish") = .ok v ∧ v ≠ .undefined ∧ v ≠ .null ∧
      ∀ item ∈ mainDishItems, v ≠ item.toJS) := by
  refine ⟨by decide!, ⟨_, rfl, by decide!, by decide!, by decide!⟩,
    ⟨_, _, rfl, rfl, by decide!, by decide!, by decide!⟩⟩

end Burgeray
